import Mathlib

/-!
# go-storage-abstraction: a verification development

A shallow embedding of the two storage drivers of the repository
(`drivers/local-storage.go`, `drivers/s3.go`) and of `utils/mimetype.go`,
together with executable models of the collaborators they call:

* Go's `path.Clean` / `path.Join`, translated from the standard library;
* the Go error values the drivers build (`fmt.Errorf` with `%w`,
  `*fs.PathError`, `syscall.Errno`) and `errors.Is` against `fs.ErrNotExist`;
* `io.Reader` as a finite script of reads, with `ioutil.ReadAll` and
  `io.ReadAtLeast`;
* a host filesystem of regular files and directories with POSIX owner
  permission bits, a umask and a working directory (no symbolic links, no
  device errors, the calling process owns every node or is privileged);
* the S3 client as an interface of request functions over a provider state,
  and one concrete in-memory provider.

Every operation that has an effect is written in state-passing style: it takes
the filesystem (or provider state) and returns the Go results together with the
new state.
-/

set_option autoImplicit false

namespace GoStorage

/-! ## Bytes and Go strings -/

/-- One byte of blob content. -/
abbrev Byte := Fin 256

/-- The bytes of an ASCII string literal, as `[]byte("...")` gives them. -/
def bytesOf (s : String) : List Byte :=
  s.data.map (fun c => Fin.ofNat c.toNat)

/-! ## `path.Clean` and `path.Join` (Go standard library, package `path`) -/

/-- Inner loop of the `..` case of `path.Clean`, after `out.w--`:
`for out.w > dotdot && out.index(out.w) != '/' { out.w-- }`.
The argument is the current `out.w`; the result is the final `out.w`. -/
def backtrackIdx (buf : List Char) (dotdot : Nat) : Nat → Nat
  | 0 => 0
  | w + 1 =>
    if w + 1 > dotdot ∧ buf.getD (w + 1) ' ' ≠ '/' then backtrackIdx buf dotdot w else w + 1

/-- The `..` case of `path.Clean` when `out.w > dotdot`: drop the last element of
the output buffer. -/
def backtrack (out : List Char) (dotdot : Nat) : List Char :=
  out.take (backtrackIdx out dotdot (out.length - 1))

/-- The main loop `for r < n { switch ... }` of `path.Clean`.  `rest` is
`path[r:]`, `out` the bytes written so far (`out.w = out.length`), `dotdot` the
index where `..` must stop.  Every iteration consumes at least one character,
so a fuel of `rest.length` is always enough. -/
def cleanLoop (rooted : Bool) : Nat → List Char → List Char → Nat → List Char
  | 0, _, out, _ => out
  | _ + 1, [], out, _ => out
  | fuel + 1, c :: cs, out, dotdot =>
    if c = '/' then
      -- empty path element
      cleanLoop rooted fuel cs out dotdot
    else if c = '.' ∧ (cs = [] ∨ cs.head? = some '/') then
      -- . element
      cleanLoop rooted fuel cs out dotdot
    else if c = '.' ∧ cs.head? = some '.' ∧ (cs.tail = [] ∨ cs.tail.head? = some '/') then
      -- .. element: remove to last /
      if out.length > dotdot then
        cleanLoop rooted fuel cs.tail (backtrack out dotdot) dotdot
      else if !rooted then
        let out1 := if out.length > 0 then out ++ ['/'] else out
        let out2 := out1 ++ ['.', '.']
        cleanLoop rooted fuel cs.tail out2 out2.length
      else
        cleanLoop rooted fuel cs.tail out dotdot
    else
      -- real path element: add slash if needed, then copy the element
      let out1 :=
        if (rooted ∧ out.length ≠ 1) ∨ (¬ rooted ∧ out.length ≠ 0) then out ++ ['/'] else out
      cleanLoop rooted fuel ((c :: cs).dropWhile (· ≠ '/'))
        (out1 ++ (c :: cs).takeWhile (· ≠ '/')) dotdot

/-- Go's `path.Clean` on the characters of the path. -/
def cleanChars (path : List Char) : List Char :=
  match path with
  | [] => ['.']
  | c :: cs =>
    let rooted := decide (c = '/')
    let out :=
      if rooted then cleanLoop true cs.length cs ['/'] 1
      else cleanLoop false (c :: cs).length (c :: cs) [] 0
    if out.length = 0 then ['.'] else out

/-- Go's `path.Clean`. -/
def Clean (path : String) : String := ⟨cleanChars path.data⟩

/-- The buffer `path.Join` builds before cleaning: the elements joined by `/`,
leading empty elements skipped. -/
def joinBuf : List Char → List String → List Char
  | buf, [] => buf
  | buf, e :: es =>
    if buf.length > 0 ∨ e ≠ "" then
      joinBuf ((if buf.length > 0 then buf ++ ['/'] else buf) ++ e.data) es
    else joinBuf buf es

/-- Go's `path.Join`. -/
def Join (elem : List String) : String :=
  if (elem.map String.length).sum = 0 then ""
  else Clean ⟨joinBuf [] elem⟩

/-! ## Go error values -/

/-- The `syscall.Errno` values the filesystem model can produce. -/
inductive Errno
  | ENOENT | EACCES | ENOTDIR | EISDIR | ENOTEMPTY | EINVAL | EBUSY
  deriving DecidableEq, Repr

/-- Text of `syscall.Errno.Error()`. -/
def Errno.Error : Errno → String
  | .ENOENT => "no such file or directory"
  | .EACCES => "permission denied"
  | .ENOTDIR => "not a directory"
  | .EISDIR => "is a directory"
  | .ENOTEMPTY => "directory not empty"
  | .EINVAL => "invalid argument"
  | .EBUSY => "device or resource busy"

/-- Go error values, as far as the drivers build or receive them. -/
inductive GoError
  /-- A `syscall.Errno`. -/
  | errno (e : Errno)
  /-- An `errors.New` value (`io.ErrUnexpectedEOF`, a failing stream, ...). -/
  | plain (msg : String)
  /-- An error returned by the S3 client (`awserr.Error`): code and message. -/
  | aws (code : String) (msg : String)
  /-- A `*fs.PathError`. -/
  | pathError (op : String) (path : String) (err : GoError)
  /-- The `*fmt.wrapError` that `fmt.Errorf` builds for a format with `%w`:
  the formatted message and the wrapped error. -/
  | wrapError (msg : String) (err : GoError)
  deriving DecidableEq, Repr

/-- The method `Error() string`. -/
def GoError.Error : GoError → String
  | .errno e => e.Error
  | .plain msg => msg
  | .aws code msg => code ++ ": " ++ msg
  | .pathError op path err => op ++ " " ++ path ++ ": " ++ err.Error
  | .wrapError msg _ => msg

/-- The method `Unwrap() error`, `none` where the value has none. -/
def GoError.Unwrap : GoError → Option GoError
  | .pathError _ _ err => some err
  | .wrapError _ err => some err
  | _ => none

/-- Go's `errors.Is(err, fs.ErrNotExist)`: walks the `Unwrap` chain; a
`syscall.Errno` matches through its `Is` method, which answers true for
`ENOENT`. -/
def errorsIsNotExist : GoError → Bool
  | .errno e => decide (e = Errno.ENOENT)
  | .plain _ => false
  | .aws _ _ => false
  | .pathError _ _ err => errorsIsNotExist err
  | .wrapError _ err => errorsIsNotExist err

/-- Go's `errors.Is(err, target)` for a target that is a plain comparable
value: true when some error of the `Unwrap` chain equals the target. -/
def errorsIs (err : GoError) (target : GoError) : Bool :=
  if err = target then true
  else
    match err with
    | .pathError _ _ e => errorsIs e target
    | .wrapError _ e => errorsIs e target
    | _ => false

/-- The call `fmt.Errorf("%w: %s", err, path)` of the local driver. -/
def errorfWrapPath (err : GoError) (path : String) : GoError :=
  .wrapError (err.Error ++ ": " ++ path) err

/-- Equality of Go results (`Except` holds either the error or the value) is
decidable. -/
instance instDecidableEqExcept {ε α : Type} [DecidableEq ε] [DecidableEq α] :
    DecidableEq (Except ε α)
  | .ok a, .ok b =>
    if h : a = b then isTrue (congrArg Except.ok h)
    else isFalse (fun h1 => h (Except.ok.inj h1))
  | .error a, .error b =>
    if h : a = b then isTrue (congrArg Except.error h)
    else isFalse (fun h1 => h (Except.error.inj h1))
  | .ok _, .error _ => isFalse (fun h => Except.noConfusion h)
  | .error _, .ok _ => isFalse (fun h => Except.noConfusion h)

/-! ## `io.Reader` -/

/-- The value `io.EOF`. -/
def ioEOF : GoError := .plain "EOF"

/-- The value `io.ErrUnexpectedEOF`. -/
def ioErrUnexpectedEOF : GoError := .plain "unexpected EOF"

/-- The value `io.ErrShortBuffer`. -/
def ioErrShortBuffer : GoError := .plain "short buffer"

/-- An `io.Reader` in a given state: the data its successive `Read` calls will
deliver (one chunk per call, cut to the size of the caller's buffer) and the
error it reports once the chunks are used up (`io.EOF` for a stream that ends
normally). -/
structure Reader where
  chunks : List (List Byte)
  final : GoError
  /-- For a reader that is also an `io.ReaderAt` and an `io.Seeker`
  (`strings.Reader`, `bytes.Reader`): the whole content it was made from, which
  stays reachable from offset 0 whatever has been read.  It is `none` for a
  plain stream (`bytes.Buffer`, a response body). -/
  origin : Option (List Byte) := none
  deriving DecidableEq, Repr

/-- The reader `bytes.NewBuffer(b)`: one read hands out everything that fits,
then `io.EOF`; a `bytes.Buffer` can neither seek nor read at an offset. -/
def Reader.ofBytes (b : List Byte) : Reader :=
  { chunks := if b = [] then [] else [b], final := ioEOF }

/-- The reader `strings.NewReader(s)` (also `bytes.NewReader`) on the bytes `b`:
it reads like a buffer and is also an `io.ReaderAt` and an `io.Seeker`. -/
def Reader.ofString (b : List Byte) : Reader :=
  { chunks := if b = [] then [] else [b], final := ioEOF, origin := some b }

/-- One call `r.Read(p)` with `len(p) = n`: the bytes read, the error returned,
and the reader afterwards. -/
def Reader.Read (r : Reader) (n : Nat) : (List Byte × Option GoError) × Reader :=
  match r.chunks with
  | [] => (([], some r.final), r)
  | c :: cs =>
    if c.length ≤ n then ((c, none), { r with chunks := cs })
    else ((c.take n, none), { r with chunks := c.drop n :: cs })

/-- Go's `ioutil.ReadAll(r)`: everything up to the terminal error, and that
error unless it is `io.EOF`. -/
def ReadAll (r : Reader) : List Byte × Option GoError :=
  (r.chunks.flatten, if r.final = ioEOF then none else some r.final)

/-- The loop `for n < min && err == nil { nn, err = r.Read(buf[n:]); n += nn }`
of `io.ReadAtLeast`, followed by its final adjustment of `err`.  `acc` holds
the `n` bytes read so far.  While the loop runs `n < min <= len(buf)`, so each
`Read` gets a non-empty buffer and either uses up a chunk or fills the buffer:
a fuel of `chunks.length + 1` is enough. -/
def readAtLeastLoop (bufLen min : Nat) :
    Nat → Reader → List Byte → (List Byte × Option GoError) × Reader
  | 0, r, acc => ((acc, none), r)
  | fuel + 1, r, acc =>
    if acc.length < min then
      match r.Read (bufLen - acc.length) with
      | ((bs, none), r1) => readAtLeastLoop bufLen min fuel r1 (acc ++ bs)
      | ((bs, some e), r1) =>
        let got := acc ++ bs
        if got.length ≥ min then ((got, none), r1)
        else if got.length > 0 ∧ e = ioEOF then ((got, some ioErrUnexpectedEOF), r1)
        else ((got, some e), r1)
    else ((acc, none), r)

/-- Go's `io.ReadAtLeast(r, buf, min)` with `len(buf) = bufLen`. -/
def ReadAtLeast (r : Reader) (bufLen min : Nat) : (List Byte × Option GoError) × Reader :=
  if bufLen < min then (([], some ioErrShortBuffer), r)
  else readAtLeastLoop bufLen min (r.chunks.length + 1) r []

/-! ## MIME detection (`github.com/gabriel-vasile/mimetype`, `utils/mimetype.go`) -/

/-- The detector's default `readLimit`: how many bytes of the input it looks at. -/
def readLimit : Nat := 3072

/-- Go's `io.ReadFull(r, buf)` with `len(buf) = bufLen`: `io.ReadAtLeast` with
the whole buffer as the minimum. -/
def ReadFull (r : Reader) (bufLen : Nat) : (List Byte × Option GoError) × Reader :=
  ReadAtLeast r bufLen bufLen

/-- The library call `mimetype.DetectReader(r)`: reads on until it has
`readLimit` bytes or the stream ends (`io.ReadFull(r, in)`), tolerates `io.EOF`
and `io.ErrUnexpectedEOF`, and matches the bytes read against its signature
tree.  Any other read error, also one that comes after some bytes were read,
is returned.  The signature tree is the parameter `sniff`; the result is the
MIME string (the value of `mType.String()`), the error, and the reader as the
call leaves it. -/
def DetectReader (sniff : List Byte → String) (r : Reader) :
    (Option String × Option GoError) × Reader :=
  match ReadFull r readLimit with
  | ((input, none), r1) => ((some (sniff input), none), r1)
  | ((input, some e), r1) =>
    if e ≠ ioEOF ∧ e ≠ ioErrUnexpectedEOF then ((none, some e), r1)
    else ((some (sniff input), none), r1)

/-- The function `utils.MimeType`: the MIME type of the input reader.  The third
component is the state in which the call leaves the caller's reader. -/
def MimeType (sniff : List Byte → String) (input : Reader) :
    (String × Option GoError) × Reader :=
  match DetectReader sniff input with
  | ((_, some err), r1) =>
    (("", some (.wrapError ("unable to detect MimeType: " ++ err.Error) err)), r1)
  | ((some mType, none), r1) => ((mType, none), r1)
  | ((none, none), r1) => (("", none), r1)

/-! ## The host filesystem -/

/-- A filesystem node: a regular file with its permission bits and content, or a
directory with its permission bits. -/
inductive Node
  | file (mode : Nat) (data : List Byte)
  | dir (mode : Nat)
  deriving DecidableEq, Repr

/-- Whether the node is a directory (`FileInfo.IsDir`). -/
def Node.IsDir : Node → Bool
  | .dir _ => true
  | .file _ _ => false

/-- A resolved location: the names from the filesystem root down. -/
abbrev AbsPath := List String

/-- The filesystem: the nodes that exist, keyed by location.  The first entry
for a location is the one in force. -/
abbrev FS := List (AbsPath × Node)

/-- The node at a location, if any. -/
def fsGet : FS → AbsPath → Option Node
  | [], _ => none
  | (q, n) :: rest, p => if q = p then some n else fsGet rest p

/-- The filesystem without the node at `p`. -/
def fsErase (fs : FS) (p : AbsPath) : FS :=
  fs.filter (fun e => decide (e.1 ≠ p))

/-- The filesystem with node `n` at `p`, replacing what was there. -/
def fsPut (fs : FS) (p : AbsPath) (n : Node) : FS :=
  (p, n) :: fsErase fs p

/-- The name under which `q` is an entry of directory `p`, if it is one. -/
def childName (p q : AbsPath) : Option String :=
  match q.getLast? with
  | some name => if q.dropLast = p then some name else none
  | none => none

/-- The entries directly inside directory `p`, in storage order. -/
def fsChildren (fs : FS) (p : AbsPath) : List (String × Node) :=
  fs.filterMap (fun e => (childName p e.1).map (fun name => (name, e.2)))

/-- The calling process, as far as the filesystem looks at it. -/
structure Proc where
  /-- Whether permission checks are bypassed (root). -/
  privileged : Bool
  /-- The file mode creation mask. -/
  umask : Nat
  /-- The working directory, where relative paths start. -/
  cwd : AbsPath
  deriving DecidableEq, Repr

/-- Read permission: the owner-read bit `0400`, or privilege. -/
def mayRead (proc : Proc) (mode : Nat) : Bool := proc.privileged || mode.testBit 8

/-- Write permission: the owner-write bit `0200`, or privilege. -/
def mayWrite (proc : Proc) (mode : Nat) : Bool := proc.privileged || mode.testBit 7

/-- Search permission on a directory: the owner-execute bit `0100`, or privilege. -/
def maySearch (proc : Proc) (mode : Nat) : Bool := proc.privileged || mode.testBit 6

/-- The mode a file created with permission argument `perm` gets: the nine
permission bits of `perm` with the bits of the umask cleared. -/
def createMode (proc : Proc) (perm : Nat) : Nat :=
  Nat.land (perm % 512) (Nat.xor 511 (proc.umask % 512))

/-- The path split at every `/`, as the kernel sees its components (an empty
component stands for a doubled, leading or trailing slash). -/
def splitSlash : List Char → List (List Char)
  | [] => [[]]
  | c :: cs =>
    if c = '/' then [] :: splitSlash cs
    else
      match splitSlash cs with
      | [] => [[c]]
      | seg :: segs => (c :: seg) :: segs

/-- Path walk of the kernel: from directory `cur`, follow the components one by
one.  Each step needs `cur` to be a directory, and search permission on it for
any real lookup; the node the last component names need not exist. -/
def walk (proc : Proc) (fs : FS) : AbsPath → List String → Except Errno AbsPath
  | cur, [] => .ok cur
  | cur, c :: cs =>
    match fsGet fs cur with
    | some (.dir mode) =>
      if c = "" then walk proc fs cur cs
      else if maySearch proc mode = false then .error .EACCES
      else if c = "." then walk proc fs cur cs
      else if c = ".." then walk proc fs cur.dropLast cs
      else walk proc fs (cur ++ [c]) cs
    | some (.file _ _) => .error .ENOTDIR
    | none => .error .ENOENT

/-- The components of a path string. -/
def components (path : String) : List String :=
  (splitSlash path.data).map String.mk

/-- Resolution of a path string to a location: the empty path does not resolve,
a path with a NUL byte is invalid, an absolute path starts at the root and a
relative one at the working directory. -/
def resolve (proc : Proc) (fs : FS) (path : String) : Except Errno AbsPath :=
  if path = "" then .error .ENOENT
  else if (Char.ofNat 0) ∈ path.data then .error .EINVAL
  else walk proc fs (if path.data.head? = some '/' then [] else proc.cwd) (components path)

/-- System call `stat`: the node the path names. -/
def sysStat (proc : Proc) (fs : FS) (path : String) : Except Errno Node :=
  match resolve proc fs path with
  | .error e => .error e
  | .ok q =>
    match fsGet fs q with
    | some n => .ok n
    | none => .error .ENOENT

/-- Whether the process may add or remove entries in the directory holding `q`. -/
def mayModifyParent (proc : Proc) (fs : FS) (q : AbsPath) : Bool :=
  match fsGet fs q.dropLast with
  | some (.dir pmode) => mayWrite proc pmode && maySearch proc pmode
  | _ => false

/-- System call `unlink`. -/
def sysUnlink (proc : Proc) (fs : FS) (path : String) : Except Errno FS :=
  match resolve proc fs path with
  | .error e => .error e
  | .ok q =>
    match fsGet fs q with
    | none => .error .ENOENT
    | some (.dir _) => .error .EISDIR
    | some (.file _ _) =>
      if mayModifyParent proc fs q then .ok (fsErase fs q) else .error .EACCES

/-- System call `rmdir`. -/
def sysRmdir (proc : Proc) (fs : FS) (path : String) : Except Errno FS :=
  match resolve proc fs path with
  | .error e => .error e
  | .ok q =>
    if (components path).getLast? = some "." then .error .EINVAL
    else
      match fsGet fs q with
      | none => .error .ENOENT
      | some (.file _ _) =>
        if mayModifyParent proc fs q then .error .ENOTDIR else .error .EACCES
      | some (.dir _) =>
        if q = [] then .error .EBUSY
        else if mayModifyParent proc fs q = false then .error .EACCES
        else if fsChildren fs q ≠ [] then .error .ENOTEMPTY
        else .ok (fsErase fs q)

/-! ## The Go file functions the local driver calls -/

/-- Go's `ioutil.ReadFile(name)`: opens the file for reading and reads it whole.
A directory can be opened but not read. -/
def ReadFile (proc : Proc) (fs : FS) (name : String) : Except GoError (List Byte) :=
  match resolve proc fs name with
  | .error e => .error (.pathError "open" name (.errno e))
  | .ok q =>
    match fsGet fs q with
    | none => .error (.pathError "open" name (.errno .ENOENT))
    | some (.file mode data) =>
      if mayRead proc mode then .ok data
      else .error (.pathError "open" name (.errno .EACCES))
    | some (.dir mode) =>
      if mayRead proc mode then .error (.pathError "read" name (.errno .EISDIR))
      else .error (.pathError "open" name (.errno .EACCES))

/-- Go's `ioutil.WriteFile(name, data, perm)`: opens with
`O_WRONLY|O_CREATE|O_TRUNC` and writes `data`.  An existing file keeps its mode
and needs write permission; a new file needs a directory the process may
modify and gets `perm` less the umask. -/
def WriteFile (proc : Proc) (fs : FS) (name : String) (data : List Byte) (perm : Nat) :
    Option GoError × FS :=
  match resolve proc fs name with
  | .error e => (some (.pathError "open" name (.errno e)), fs)
  | .ok q =>
    match fsGet fs q with
    | some (.dir _) => (some (.pathError "open" name (.errno .EISDIR)), fs)
    | some (.file mode _) =>
      if mayWrite proc mode then (none, fsPut fs q (.file mode data))
      else (some (.pathError "open" name (.errno .EACCES)), fs)
    | none =>
      match fsGet fs q.dropLast with
      | some (.dir pmode) =>
        if mayWrite proc pmode && maySearch proc pmode then
          (none, fsPut fs q (.file (createMode proc perm) data))
        else (some (.pathError "open" name (.errno .EACCES)), fs)
      | _ => (some (.pathError "open" name (.errno .ENOENT)), fs)

/-- Go's `os.Remove(name)`: tries `unlink`, then `rmdir`, and reports the error
of `rmdir` unless that is `ENOTDIR`. -/
def Remove (proc : Proc) (fs : FS) (name : String) : Option GoError × FS :=
  match sysUnlink proc fs name with
  | .ok fs1 => (none, fs1)
  | .error e =>
    match sysRmdir proc fs name with
    | .ok fs1 => (none, fs1)
    | .error e1 =>
      (some (.pathError "remove" name (.errno (if e1 ≠ Errno.ENOTDIR then e1 else e))), fs)

/-- Go's `os.Stat(name)`: the node as the `FileInfo`, or a `*PathError`. -/
def Stat (proc : Proc) (fs : FS) (name : String) : Except GoError Node :=
  match sysStat proc fs name with
  | .ok n => .ok n
  | .error e => .error (.pathError "stat" name (.errno e))

/-- A directory entry as `ioutil.ReadDir` reports it (`fs.FileInfo`): the name,
and the node for `IsDir`. -/
structure FileInfo where
  Name : String
  node : Node
  deriving DecidableEq, Repr

/-- The method `FileInfo.IsDir`. -/
def FileInfo.IsDir (fi : FileInfo) : Bool := fi.node.IsDir

/-- Go's `<` on strings, on their characters: lexicographic; Go compares the
bytes, which for UTF-8 text is the order of the code points. -/
def lessChars : List Char → List Char → Bool
  | _, [] => false
  | [], _ :: _ => true
  | a :: as, b :: bs =>
    if a.toNat < b.toNat then true
    else if b.toNat < a.toNat then false
    else lessChars as bs

/-- Go's `a < b` on strings. -/
def stringLess (a b : String) : Bool := lessChars a.data b.data

/-- Insertion of an entry into a list sorted by name. -/
def insertByName (e : FileInfo) : List FileInfo → List FileInfo
  | [] => [e]
  | x :: xs => if stringLess e.Name x.Name then e :: x :: xs else x :: insertByName e xs

/-- The sort of `ioutil.ReadDir`: `sort.Slice` by `Name() < Name()`. -/
def sortByName (l : List FileInfo) : List FileInfo :=
  l.foldr insertByName []

/-- Go's `ioutil.ReadDir(dirname)`: opens the directory, reads all entries
(reading the entries takes read permission, their `lstat` search permission)
and sorts them by name. -/
def ReadDir (proc : Proc) (fs : FS) (dirname : String) : Except GoError (List FileInfo) :=
  match resolve proc fs dirname with
  | .error e => .error (.pathError "open" dirname (.errno e))
  | .ok q =>
    match fsGet fs q with
    | none => .error (.pathError "open" dirname (.errno .ENOENT))
    | some (.file mode _) =>
      if mayRead proc mode then .error (.pathError "readdirent" dirname (.errno .ENOTDIR))
      else .error (.pathError "open" dirname (.errno .EACCES))
    | some (.dir mode) =>
      if mayRead proc mode = false then .error (.pathError "open" dirname (.errno .EACCES))
      else
        let entries := (fsChildren fs q).map (fun e => FileInfo.mk e.1 e.2)
        match entries with
        | [] => .ok []
        | e :: _ =>
          if maySearch proc mode then .ok (sortByName entries)
          else .error (.pathError "lstat" (dirname ++ "/" ++ e.Name) (.errno .EACCES))

/-! ## The local driver (`drivers/local-storage.go`) -/

/-- The local storage driver: the root directory and the optional file
permissions (`*int` in Go, `none` for the nil pointer). -/
structure LocalStorage where
  Path : String
  Permissions : Option Int
  deriving DecidableEq, Repr

/-- The constructor `NewLocalStorage`. -/
def NewLocalStorage (path : String) : LocalStorage :=
  { Path := path, Permissions := none }

/-- The method `fullPath`: the full path of the file. -/
def LocalStorage.fullPath (d : LocalStorage) (file : String) : String :=
  Join [d.Path, file]

/-- The method `filePermissions`: the conversion `fs.FileMode(*d.Permissions)`
keeps the low 32 bits of the `int`; the default is `0644`. -/
def LocalStorage.filePermissions (d : LocalStorage) : Nat :=
  match d.Permissions with
  | some p => (p % 2 ^ 32).toNat
  | none => 0o644

/-- The method `Read`: the reader and the error it returns (`none` is Go's nil). -/
def LocalStorage.Read (d : LocalStorage) (proc : Proc) (fs : FS) (key : String) :
    Option Reader × Option GoError :=
  let path := d.fullPath key
  match ReadFile proc fs path with
  | .error err => (none, some (errorfWrapPath err path))
  | .ok bts => (some (Reader.ofBytes bts), none)

/-- The method `Write`: the error it returns and the filesystem afterwards. -/
def LocalStorage.Write (d : LocalStorage) (proc : Proc) (fs : FS) (key : String)
    (value : Reader) : Option GoError × FS :=
  let filePath := d.fullPath key
  match ReadAll value with
  | (_, some err) => (some (errorfWrapPath err filePath), fs)
  | (bts, none) =>
    match WriteFile proc fs filePath bts d.filePermissions with
    | (some err, fs1) => (some (errorfWrapPath err filePath), fs1)
    | (none, fs1) => (none, fs1)

/-- The method `Delete`: the error it returns and the filesystem afterwards. -/
def LocalStorage.Delete (d : LocalStorage) (proc : Proc) (fs : FS) (key : String) :
    Option GoError × FS :=
  let path := d.fullPath key
  match Remove proc fs path with
  | (some err, fs1) => (some (errorfWrapPath err path), fs1)
  | (none, fs1) => (none, fs1)

/-- The method `Exists`. -/
def LocalStorage.Exists (d : LocalStorage) (proc : Proc) (fs : FS) (key : String) :
    Bool × Option GoError :=
  let path := d.fullPath key
  match Stat proc fs path with
  | .error err => (false, some (errorfWrapPath err path))
  | .ok fInfo => if fInfo.IsDir then (false, none) else (true, none)

/-- The loop of `List`: `for _, file := range files`, skipping directories and
appending the other names to `fileName`. -/
def listLoop : List FileInfo → List String → List String
  | [], fileName => fileName
  | file :: files, fileName =>
    if file.IsDir then listLoop files fileName
    else listLoop files (fileName ++ [file.Name])

/-- The method `List`: the slice it returns (`none` would be a nil slice, which
this method never returns) and the error. -/
def LocalStorage.List (d : LocalStorage) (proc : Proc) (fs : FS) :
    Option (List String) × Option GoError :=
  match ReadDir proc fs d.Path with
  | .error err => (some [], some (errorfWrapPath err d.Path))
  | .ok files => (some (listLoop files []), none)

/-! ## The S3 client, as the remote driver uses it -/

/-- Result of a Go call that can panic instead of returning. -/
inductive Outcome (α : Type) where
  | returns (a : α)
  | panics (msg : String)
  deriving DecidableEq, Repr

/-- Hexadecimal digit of `strconv.Quote`. -/
def hexDigit (n : Nat) : Char :=
  if n % 16 < 10 then Char.ofNat (48 + n % 16) else Char.ofNat (87 + n % 16)

/-- Go's `strconv.IsPrint`.  Latin-1 is decided on the spot: space to `~`, and
U+00A1 to U+00FF without the soft hyphen U+00AD.  For a rune above U+00FF the
function searches the Unicode tables of package `strconv` (`isPrint16`,
`isNotPrint16`, `isPrint32`, `isNotPrint32`); what they answer is the
parameter `printable`. -/
def IsPrint (printable : Char → Bool) (c : Char) : Bool :=
  if c.toNat ≤ 255 then
    if 32 ≤ c.toNat ∧ c.toNat ≤ 126 then true
    else if 161 ≤ c.toNat then decide (c.toNat ≠ 173)
    else false
  else printable c

/-- One rune as `strconv.Quote` writes it (`appendEscapedRune` with the double
quote): the quote and the backslash get a backslash, a printable rune is
copied, and any other rune is escaped, by its letter, as `\x` with two
hexadecimal digits, as `\u` with four or as `\U` with eight.  A `Char` is
always a valid rune; the bytes of a Go string that are not valid UTF-8 have no
counterpart in a `String`. -/
def quoteRune (printable : Char → Bool) (c : Char) : List Char :=
  let bs := Char.ofNat 92
  if c = Char.ofNat 34 ∨ c = bs then [bs, c]
  else if IsPrint printable c then [c]
  else if c.toNat = 7 then [bs, 'a']
  else if c.toNat = 8 then [bs, 'b']
  else if c.toNat = 12 then [bs, 'f']
  else if c.toNat = 10 then [bs, 'n']
  else if c.toNat = 13 then [bs, 'r']
  else if c.toNat = 9 then [bs, 't']
  else if c.toNat = 11 then [bs, 'v']
  else if c.toNat < 32 ∨ c.toNat = 127 then
    [bs, 'x', hexDigit (c.toNat / 16), hexDigit c.toNat]
  else if c.toNat < 65536 then
    [bs, 'u', hexDigit (c.toNat / 4096), hexDigit (c.toNat / 256),
      hexDigit (c.toNat / 16), hexDigit c.toNat]
  else
    [bs, 'U', hexDigit (c.toNat / 268435456), hexDigit (c.toNat / 16777216),
      hexDigit (c.toNat / 1048576), hexDigit (c.toNat / 65536),
      hexDigit (c.toNat / 4096), hexDigit (c.toNat / 256),
      hexDigit (c.toNat / 16), hexDigit c.toNat]

/-- The verb `%q` of `fmt` on a string: `strconv.Quote`. -/
def strconvQuote (printable : Char → Bool) (s : String) : String :=
  ⟨[Char.ofNat 34] ++ (s.data.map (quoteRune printable)).flatten ++ [Char.ofNat 34]⟩

/-- The call `fmt.Errorf(pre + " %q: %w", key, err)` of the remote driver. -/
def errorfKey (printable : Char → Bool) (pre : String) (key : String) (err : GoError) :
    GoError :=
  .wrapError (pre ++ " " ++ strconvQuote printable key ++ ": " ++ err.Error) err

/-- Request of `GetObject`. -/
structure GetObjectInput where
  Bucket : String
  Key : String
  deriving DecidableEq, Repr

/-- Response of `GetObject`: the body stream. -/
structure GetObjectOutput where
  Body : Reader
  deriving DecidableEq, Repr

/-- Request of `HeadObject`. -/
structure HeadObjectInput where
  Bucket : String
  Key : String
  deriving DecidableEq, Repr

/-- Response of `HeadObject`; `ContentLength` is a `*int64`, `none` for nil. -/
structure HeadObjectOutput where
  ContentLength : Option Int
  deriving DecidableEq, Repr

/-- Request of `DeleteObject`. -/
structure DeleteObjectInput where
  Bucket : String
  Key : String
  deriving DecidableEq, Repr

/-- Request of `ListObjectsV2`. -/
structure ListObjectsV2Input where
  Bucket : String
  Prefix : String
  deriving DecidableEq, Repr

/-- One listed object; `Key` is a `*string`, `none` for nil. -/
structure Object where
  Key : Option String
  deriving DecidableEq, Repr

/-- Response of `ListObjectsV2`: one page. -/
structure ListObjectsV2Output where
  Contents : List Object
  IsTruncated : Option Bool
  NextContinuationToken : Option String
  deriving DecidableEq, Repr

/-- Request of `s3manager.Uploader.Upload`. -/
structure UploadInput where
  Bucket : String
  Key : String
  Body : Reader
  ContentType : String
  deriving DecidableEq, Repr

/-- The S3 client and uploader (`conn`, `session`) as request functions over a
provider state: each takes the state and the request and gives the response or
error and the state afterwards. -/
structure S3API (σ : Type) where
  GetObject : σ → GetObjectInput → Except GoError GetObjectOutput × σ
  HeadObject : σ → HeadObjectInput → Except GoError HeadObjectOutput × σ
  DeleteObject : σ → DeleteObjectInput → Option GoError × σ
  ListObjectsV2 : σ → ListObjectsV2Input → Except GoError ListObjectsV2Output × σ
  Upload : σ → UploadInput → Option GoError × σ

/-! ## The remote driver (`drivers/s3.go`) -/

/-- The S3 driver: bucket and path prefix (client and session are the `S3API`
argument of the methods). -/
structure S3 where
  Bucket : String
  PathPrefix : String
  deriving DecidableEq, Repr

/-- The method `Read`: reads the object and returns the content.  The parameter
`printable` is the Unicode table `%q` consults when it formats the key into an
error message; the other methods take it for the same use. -/
def S3.Read {σ : Type} (s3def : S3) (printable : Char → Bool) (api : S3API σ) (st : σ)
    (key : String) :
    (Option Reader × Option GoError) × σ :=
  match api.GetObject st { Bucket := s3def.Bucket, Key := key } with
  | (.error err, st1) => ((none, some (errorfKey printable "unable to read object" key err)), st1)
  | (.ok res, st1) =>
    match ReadAll res.Body with
    | (_, some err) =>
      ((none, some (errorfKey printable "unable to read bytes from object" key err)), st1)
    | (bts, none) => ((some (Reader.ofBytes bts), none), st1)

/-- The method `Write`: detects the MIME type from `value`, then hands the same
`value`, in the state detection left it, to the uploader as the body. -/
def S3.Write {σ : Type} (s3def : S3) (printable : Char → Bool) (sniff : List Byte → String)
    (api : S3API σ) (st : σ) (key : String) (value : Reader) : Option GoError × σ :=
  match MimeType sniff value with
  | ((_, some err), _) => (some err, st)
  | ((mType, none), value1) =>
    match api.Upload st
        { Bucket := s3def.Bucket, Key := key, Body := value1, ContentType := mType } with
    | (some err, st1) => (some (errorfKey printable "unable to upload" key err), st1)
    | (none, st1) => (none, st1)

/-- The method `Delete`. -/
def S3.Delete {σ : Type} (s3def : S3) (printable : Char → Bool) (api : S3API σ) (st : σ)
    (key : String) :
    Option GoError × σ :=
  match api.DeleteObject st { Bucket := s3def.Bucket, Key := key } with
  | (some err, st1) => (some (errorfKey printable "unable to delete object" key err), st1)
  | (none, st1) => (none, st1)

/-- The method `Exists`: `*ho.ContentLength > 0` dereferences the pointer, which
panics when it is nil. -/
def S3.Exists {σ : Type} (s3def : S3) (printable : Char → Bool) (api : S3API σ) (st : σ)
    (key : String) :
    Outcome (Bool × Option GoError) × σ :=
  match api.HeadObject st { Bucket := s3def.Bucket, Key := key } with
  | (.error err, st1) =>
    (.returns (false, some (.wrapError
      ("unable to check if object " ++ strconvQuote printable key ++ " exists: " ++ err.Error) err)), st1)
  | (.ok ho, st1) =>
    match ho.ContentLength with
    | none => (.panics "invalid memory address or nil pointer dereference", st1)
    | some n => (.returns (decide (n > 0), none), st1)

/-- The loop of `List`: `keys = append(keys, *o.Key)` for each listed object;
`keys` starts as the nil slice (`none`). -/
def keysLoop : List Object → Option (List String) → Outcome (Option (List String))
  | [], keys => .returns keys
  | o :: os, keys =>
    match o.Key with
    | none => .panics "invalid memory address or nil pointer dereference"
    | some k => keysLoop os (some (keys.getD [] ++ [k]))

/-- The method `List`: one `ListObjectsV2` request for bucket and prefix. -/
def S3.List {σ : Type} (s3def : S3) (api : S3API σ) (st : σ) :
    Outcome (Option (List String) × Option GoError) × σ :=
  match api.ListObjectsV2 st { Bucket := s3def.Bucket, Prefix := s3def.PathPrefix } with
  | (.error err, st1) =>
    (.returns (none, some (.wrapError ("unable to list objects: " ++ err.Error) err)), st1)
  | (.ok loo, st1) =>
    match keysLoop loo.Contents none with
    | .panics msg => (.panics msg, st1)
    | .returns keys => (.returns (keys, none), st1)

/-! ## An in-memory S3 provider -/

/-- A stored object: body and content type. -/
structure StoredObject where
  Body : List Byte
  ContentType : String
  deriving DecidableEq, Repr

/-- The provider state: the objects, keyed by bucket and key; the first entry
for a key is the one in force. -/
abbrev MemS3 := List ((String × String) × StoredObject)

/-- The object stored under bucket and key, if any. -/
def memGet : MemS3 → String × String → Option StoredObject
  | [], _ => none
  | (k, o) :: rest, bk => if k = bk then some o else memGet rest bk

/-- The state with `o` stored under bucket and key. -/
def memPut (st : MemS3) (bk : String × String) (o : StoredObject) : MemS3 :=
  (bk, o) :: st.filter (fun e => decide (e.1 ≠ bk))

/-- The error of a request for a key that has no object. -/
def errNoSuchKey : GoError := .aws "NoSuchKey" "The specified key does not exist."

/-- The bytes `s3manager.Uploader` sends for a request body.  A body that is an
`io.ReaderAt` and an `io.ReadSeeker` is sized from its current offset to its end
(`aws.SeekerLen`) and that many bytes are then read from offset 0
(`io.NewSectionReader(r, 0, n)`); any other body is read from where it stands
to its end. -/
def uploadBody (body : Reader) : List Byte × Option GoError :=
  match body.origin with
  | some content => (content.take body.chunks.flatten.length, none)
  | none => ReadAll body

/-- An S3 provider held in memory: `GetObject` streams the stored body,
`HeadObject` reports its length, `DeleteObject` is idempotent, `ListObjectsV2`
returns the keys of the bucket that start with the prefix, and `Upload` stores
the bytes the uploader sends for the request body. -/
def memS3 : S3API MemS3 where
  GetObject st inp :=
    match memGet st (inp.Bucket, inp.Key) with
    | some o => (.ok { Body := Reader.ofBytes o.Body }, st)
    | none => (.error errNoSuchKey, st)
  HeadObject st inp :=
    match memGet st (inp.Bucket, inp.Key) with
    | some o => (.ok { ContentLength := some (o.Body.length : Int) }, st)
    | none => (.error (.aws "NotFound" "Not Found"), st)
  DeleteObject st inp := (none, st.filter (fun e => decide (e.1 ≠ (inp.Bucket, inp.Key))))
  ListObjectsV2 st inp :=
    (.ok
      { Contents :=
          (st.filter (fun e => decide (e.1.1 = inp.Bucket) &&
            inp.Prefix.data.isPrefixOf e.1.2.data)).map (fun e => { Key := some e.1.2 })
        IsTruncated := some false
        NextContinuationToken := none }, st)
  Upload st inp :=
    match uploadBody inp.Body with
    | (_, some err) => (some err, st)
    | (bts, none) =>
      (none, memPut st (inp.Bucket, inp.Key) { Body := bts, ContentType := inp.ContentType })

/-! ## Recording the requests a driver issues -/

/-- A request issued through the S3 client or the uploader. -/
inductive Request
  | getObject (inp : GetObjectInput)
  | headObject (inp : HeadObjectInput)
  | deleteObject (inp : DeleteObjectInput)
  | listObjectsV2 (inp : ListObjectsV2Input)
  | upload (inp : UploadInput)
  deriving DecidableEq, Repr

/-- The client `api` with a log: every request is answered by `api` and
appended to the log kept next to the provider state. -/
def recording {σ : Type} (api : S3API σ) : S3API (σ × List Request) where
  GetObject st inp :=
    ((api.GetObject st.1 inp).1, ((api.GetObject st.1 inp).2, st.2 ++ [.getObject inp]))
  HeadObject st inp :=
    ((api.HeadObject st.1 inp).1, ((api.HeadObject st.1 inp).2, st.2 ++ [.headObject inp]))
  DeleteObject st inp :=
    ((api.DeleteObject st.1 inp).1,
      ((api.DeleteObject st.1 inp).2, st.2 ++ [.deleteObject inp]))
  ListObjectsV2 st inp :=
    ((api.ListObjectsV2 st.1 inp).1,
      ((api.ListObjectsV2 st.1 inp).2, st.2 ++ [.listObjectsV2 inp]))
  Upload st inp :=
    ((api.Upload st.1 inp).1, ((api.Upload st.1 inp).2, st.2 ++ [.upload inp]))

/-! ## Predicates used to state the claims -/

/-- Whether the path names a regular file the process may read. -/
def readableFile (proc : Proc) (fs : FS) (path : String) : Bool :=
  match sysStat proc fs path with
  | .ok (.file mode _) => mayRead proc mode
  | _ => false

/-- Whether the path resolves and the process may add or remove entries in the
directory that holds its last component. -/
def parentModifiable (proc : Proc) (fs : FS) (path : String) : Bool :=
  match resolve proc fs path with
  | .ok q => mayModifyParent proc fs q
  | .error _ => false

/-- Whether the path names a directory. -/
def namesDirectory (proc : Proc) (fs : FS) (path : String) : Bool :=
  match sysStat proc fs path with
  | .ok (.dir _) => true
  | _ => false

/-- No location is listed twice: every name in a directory names one node. -/
def distinctLocations (fs : FS) : Prop := (fs.map Prod.fst).Nodup

instance instDecidableDistinctLocations (fs : FS) : Decidable (distinctLocations fs) := by
  unfold distinctLocations
  infer_instance

/-! ## The filesystems and stores of the repository's tests -/

/-- The filesystem the local tests set up with `os.MkdirAll("/tmp/test", 0755)`:
the root, `/tmp` and the empty directory `/tmp/test`. -/
def tmpTestFS : FS :=
  [([], .dir 0o755), (["tmp"], .dir 0o777), (["tmp", "test"], .dir 0o755)]

/-- The filesystem of the tests that create no directory: `/tmp/test` is missing. -/
def tmpFS : FS :=
  [([], .dir 0o755), (["tmp"], .dir 0o777)]

/-- An ordinary process: not privileged, umask `022`, working directory `/tmp`. -/
def userProc : Proc := { privileged := false, umask := 0o022, cwd := ["tmp"] }

/-- The store of the tests: `LocalStorage{Path: "/tmp/test"}`. -/
def testStore : LocalStorage := NewLocalStorage "/tmp/test"

/-- The same store with the permission mode set to zero. -/
def zeroPermStore : LocalStorage := { Path := "/tmp/test", Permissions := some 0 }

/-- The reader `bytes.NewBuffer([]byte(s))` of the tests. -/
def readerOf (s : String) : Reader := Reader.ofBytes (bytesOf s)

/-- The test filesystem with `/tmp/test/test.txt` holding `data`, mode `0644`. -/
def tmpTestFileFS (data : List Byte) : FS :=
  (["tmp", "test", "test.txt"], .file 0o644 data) :: tmpTestFS

/-- A filesystem whose directory `/ro` cannot be modified (mode `0555`) and
holds the file `a.txt`. -/
def readOnlyDirFS : FS :=
  [([], .dir 0o755), (["ro"], .dir 0o555), (["ro", "a.txt"], .file 0o644 (bytesOf "test"))]

/-- The store rooted at `/ro`. -/
def roStore : LocalStorage := NewLocalStorage "/ro"

/-- The root of the test `multiple files`, stored out of order, with a
subdirectory `sub` that holds a file of its own. -/
def multipleFilesFS : FS :=
  [(["tmp", "test", "test2.txt"], .file 0o644 (bytesOf "test2")),
   (["tmp", "test", "sub", "inner.txt"], .file 0o644 (bytesOf "x")),
   (["tmp", "test", "sub"], .dir 0o755),
   (["tmp", "test", "test1.txt"], .file 0o644 (bytesOf "test1"))] ++ tmpTestFS

/-- The store of the test `directory not exists` of `TestLocalStorage_List`. -/
def test2Store : LocalStorage := NewLocalStorage "/tmp/test2"

/-- The S3 store of the tests: bucket `test-bucket`, empty path prefix. -/
def testS3 : S3 := { Bucket := "test-bucket", PathPrefix := "" }

/-- The provider state with one object `test.txt` of the given body in the test
bucket, as the tests put it there with `PutObject`. -/
def memWith (body : List Byte) : MemS3 :=
  [(("test-bucket", "test.txt"), { Body := body, ContentType := "binary/octet-stream" })]

/-- A stream whose first read fails. -/
def failingReader : Reader := { chunks := [], final := .plain "boom" }

/-- The error of the provider that refuses every request. -/
def errDenied : GoError := .aws "AccessDenied" "Access Denied"

/-- A provider that refuses every request. -/
def deniedS3 : S3API Unit where
  GetObject st _ := (.error errDenied, st)
  HeadObject st _ := (.error errDenied, st)
  DeleteObject st _ := (some errDenied, st)
  ListObjectsV2 st _ := (.error errDenied, st)
  Upload st _ := (some errDenied, st)

/-- A provider whose successful responses leave the optional fields unset: the
metadata probe reports no content length and the listing holds one object
without a key. -/
def bareS3 : S3API Unit where
  GetObject st _ := (.ok { Body := Reader.ofBytes [] }, st)
  HeadObject st _ := (.ok { ContentLength := none }, st)
  DeleteObject st _ := (none, st)
  ListObjectsV2 st _ :=
    (.ok { Contents := [{ Key := none }], IsTruncated := none, NextContinuationToken := none },
      st)
  Upload st _ := (none, st)

/-- A table for the ASCII keys of the tests, which `strconv.IsPrint` never looks
up: it takes every rune above U+00FF as printable. -/
def anyPrintable : Char → Bool := fun _ => true

/-- The S3 store of the tests with a path prefix set. -/
def prefixedS3 : S3 := { Bucket := "test-bucket", PathPrefix := "backup/" }

/-! ## Path segments, for the claims on the key mapping -/

/-- An ordinary path segment: not empty, without a slash, and neither `.` nor
`..`. -/
def ordinarySegment (seg : List Char) : Prop :=
  seg ≠ [] ∧ '/' ∉ seg ∧ seg ≠ ['.'] ∧ seg ≠ ['.', '.']

instance instDecidableOrdinarySegment (seg : List Char) : Decidable (ordinarySegment seg) := by
  unfold ordinarySegment
  infer_instance

/-- A key made of ordinary segments joined by single slashes: a safe path
segment, or several of them. -/
def safeKey (key : String) : Prop :=
  ∀ seg ∈ splitSlash key.data, ordinarySegment seg

instance instDecidableSafeKey (key : String) : Decidable (safeKey key) := by
  unfold safeKey
  infer_instance

/-- A root path in clean form: not empty, no trailing slash, and no `.`, `..` or
empty component (the empty component before the leading slash of an absolute
path apart). -/
def cleanRoot (root : String) : Prop :=
  match splitSlash root.data with
  | [] => False
  | first :: rest =>
    (first = [] ∧ rest ≠ [] ∧ ∀ seg ∈ rest, ordinarySegment seg) ∨
      (∀ seg ∈ first :: rest, ordinarySegment seg)

instance instDecidableCleanRoot (root : String) : Decidable (cleanRoot root) := by
  unfold cleanRoot
  split <;> infer_instance

/-- The segments joined by single slashes. -/
def joinSlash : List (List Char) → List Char
  | [] => []
  | [seg] => seg
  | seg :: rest => seg ++ '/' :: joinSlash rest

/-- Whether the path `p` is `base` itself or lies inside `base`: it is `base`
followed by a slash and more, or `base` is `/` and `p` is absolute, or `base` is
`.` and `p` is a relative path that does not start by going up. -/
def liesUnder (base p : String) : Bool :=
  decide (p = base) ||
  (base.data ++ ['/']).isPrefixOf p.data ||
  (decide (base = "/") && decide (p.data.head? = some '/')) ||
  (decide (base = ".") && decide (p.data.head? ≠ some '/') &&
    decide ((splitSlash p.data).head? ≠ some ['.', '.']))

/-- The slash `path.Clean` writes before a path element, if it writes one. -/
def sepFor (rooted : Bool) (out : List Char) : List Char :=
  if (rooted ∧ out.length ≠ 1) ∨ (¬ rooted ∧ out.length ≠ 0) then ['/'] else []

/-- The output buffer after the `..` case of `path.Clean`, and the new `dotdot`. -/
def dotdotStep (rooted : Bool) (out : List Char) (dotdot : Nat) : List Char × Nat :=
  if out.length > dotdot then (backtrack out dotdot, dotdot)
  else if !rooted then
    ((if out.length > 0 then out ++ ['/'] else out) ++ ['.', '.'],
      ((if out.length > 0 then out ++ ['/'] else out) ++ ['.', '.']).length)
  else (out, dotdot)

/-- One iteration of the loop of `path.Clean` on `path[r:] = c :: cs`: what is
left of the input, the output buffer and `dotdot` after it. -/
def cleanStep (rooted : Bool) (c : Char) (cs out : List Char) (dotdot : Nat) :
    List Char × List Char × Nat :=
  if c = '/' then (cs, out, dotdot)
  else if c = '.' ∧ (cs = [] ∨ cs.head? = some '/') then (cs, out, dotdot)
  else if c = '.' ∧ cs.head? = some '.' ∧ (cs.tail = [] ∨ cs.tail.head? = some '/') then
    (cs.tail, dotdotStep rooted out dotdot)
  else
    ((c :: cs).dropWhile (· ≠ '/'),
      out ++ sepFor rooted out ++ (c :: cs).takeWhile (· ≠ '/'), dotdot)

/-! ## Substrings, for the claims on error messages -/

/-- Whether `needle` occurs in `hay` as a contiguous stretch. -/
def hasInfix : List Char → List Char → Bool
  | [], needle => needle.isPrefixOf []
  | h :: t, needle => needle.isPrefixOf (h :: t) || hasInfix t needle

/-- Go's `strings.Contains(s, sub)`. -/
def strContains (s sub : String) : Bool := hasInfix s.data sub.data

/-- A key that `%q` prints as it is, between the quotes: no character of it is
escaped. -/
def plainKey (printable : Char → Bool) (key : String) : Prop :=
  ∀ c ∈ key.data, quoteRune printable c = [c]

instance instDecidablePlainKey (printable : Char → Bool) (key : String) :
    Decidable (plainKey printable key) := by
  unfold plainKey
  infer_instance

/-- The key `a"b`, with a double quote in the middle. -/
def quotedKey : String := ⟨['a', Char.ofNat 34, 'b']⟩

/-! ## The detector's result for no bytes, and failing streams -/

/-- Modelled from the spec: the signature tree of the detector, which is code of
the `mimetype` library and not of this repository.  The specification fixes its
result for an input of no bytes, `text/plain` (the test `empty string` of
`utils/mimetype_test.go` expects the same); the results for all other inputs
stay with the table given as parameter. -/
def specSniff (table : List Byte → String) (input : List Byte) : String :=
  if input = [] then "text/plain" else table input

/-- A stream that delivers the bytes `te` and then fails. -/
def brokenReader : Reader := { chunks := [bytesOf "te"], final := .plain "boom" }

/-! ## Directories as the target of a delete -/

/-- Whether the path names a directory that has no entries. -/
def emptyDirectory (proc : Proc) (fs : FS) (path : String) : Bool :=
  match resolve proc fs path with
  | .ok q =>
    match fsGet fs q with
    | some (.dir _) => (fsChildren fs q).isEmpty
    | _ => false
  | .error _ => false

/-- Whether the path names its target as an entry of another directory: the
last component is not `.`, and the target is not the root of the filesystem. -/
def namesEntry (proc : Proc) (fs : FS) (path : String) : Bool :=
  match resolve proc fs path with
  | .ok q => decide ((components path).getLast? ≠ some ".") && decide (q ≠ [])
  | .error _ => false

/-- The test filesystem with an empty subdirectory `/tmp/test/sub`. -/
def emptySubdirFS : FS := (["tmp", "test", "sub"], .dir 0o755) :: tmpTestFS

/-- A filesystem whose directory `/ro` cannot be modified (mode `0555`) and
holds the empty directory `sub`. -/
def readOnlySubdirFS : FS :=
  [([], .dir 0o755), (["ro"], .dir 0o555), (["ro", "sub"], .dir 0o755)]

/-- The store rooted at the working directory, `LocalStorage{Path: "."}`. -/
def dotStore : LocalStorage := NewLocalStorage "."

/-- A process like `userProc` whose working directory is `/tmp/test`. -/
def testDirProc : Proc := { privileged := false, umask := 0o022, cwd := ["tmp", "test"] }

/-! ## The normal form `path.Clean` computes, and well-formed filesystems -/

/-- One component read by `path.Clean`, on the normal form built so far: the
number of `..` the result starts with and the ordinary segments after them.  An
empty component and `.` change nothing; `..` drops the last ordinary segment,
or is kept in front on a relative path, or is ignored at the root; any other
component is added. -/
def normStep (rooted : Bool) (st : Nat × List (List Char)) (seg : List Char) :
    Nat × List (List Char) :=
  if seg = [] ∨ seg = ['.'] then st
  else if seg = ['.', '.'] then
    if st.2 ≠ [] then (st.1, st.2.dropLast)
    else if rooted then st
    else (st.1 + 1, [])
  else (st.1, st.2 ++ [seg])

/-- The segments of a normal form, in order. -/
def normSegs (st : Nat × List (List Char)) : List (List Char) :=
  List.replicate st.1 ['.', '.'] ++ st.2

/-- The output buffer of `path.Clean` that holds the normal form. -/
def renderOut (rooted : Bool) (st : Nat × List (List Char)) : List Char :=
  (if rooted then ['/'] else []) ++ joinSlash (normSegs st)

/-- The value of `dotdot` in `path.Clean` for the normal form. -/
def dotdotOf (rooted : Bool) (st : Nat × List (List Char)) : Nat :=
  if rooted then 1 else (joinSlash (List.replicate st.1 ['.', '.'])).length

/-- The states `path.Clean` goes through: the segments kept are ordinary, and a
rooted path keeps no `..`. -/
def normValid (rooted : Bool) (st : Nat × List (List Char)) : Prop :=
  (∀ s ∈ st.2, ordinarySegment s) ∧ (rooted = true → st.1 = 0)

/-- The process with permission checks bypassed. -/
def asPrivileged (proc : Proc) : Proc := { proc with privileged := true }

/-- Where one step of the path walk from `q` over name `k` arrives. -/
def stepTo (q : AbsPath) (k : String) : AbsPath :=
  if k = "" ∨ k = "." then q else if k = ".." then q.dropLast else q ++ [k]

/-- A name a directory entry can have: an ordinary segment without a NUL byte. -/
def entryName (name : String) : Prop :=
  ordinarySegment name.data ∧ Char.ofNat 0 ∉ name.data

instance instDecidableEntryName (name : String) : Decidable (entryName name) := by
  unfold entryName
  infer_instance

/-- Whether the location holds a directory. -/
def isDirAt (fs : FS) (p : AbsPath) : Bool :=
  match fsGet fs p with
  | some (.dir _) => true
  | _ => false

/-- A filesystem of regular files and directories: no location is listed twice,
every name on the way to a node is a name an entry can have, and every node
other than the root lies in a directory. -/
def wellFormed (fs : FS) : Prop :=
  distinctLocations fs ∧ (∀ e ∈ fs, ∀ name ∈ e.1, entryName name) ∧
    (∀ e ∈ fs, e.1 ≠ [] → isDirAt fs e.1.dropLast = true)

instance instDecidableWellFormed (fs : FS) : Decidable (wellFormed fs) := by
  unfold wellFormed
  infer_instance

/-- A key of printable ASCII characters other than the double quote and the
backslash. -/
def asciiKey (key : String) : Prop :=
  ∀ c ∈ key.data, 32 ≤ c.toNat ∧ c.toNat ≤ 126 ∧ c ≠ Char.ofNat 34 ∧ c ≠ Char.ofNat 92

instance instDecidableAsciiKey (key : String) : Decidable (asciiKey key) := by
  unfold asciiKey
  infer_instance

/-! ## Lemmas on the filesystem model -/

theorem fsGet_fsErase_same (fs : FS) (p : AbsPath) : fsGet (fsErase fs p) p = none := by
  induction fs with
  | nil => rfl
  | cons e rest ih =>
    obtain ⟨q, n⟩ := e
    by_cases h : q = p
    · simpa [fsErase, List.filter, h] using ih
    · simpa [fsErase, List.filter, h, fsGet] using ih

theorem fsGet_fsErase_ne (fs : FS) (p q : AbsPath) (h : q ≠ p) :
    fsGet (fsErase fs p) q = fsGet fs q := by
  induction fs with
  | nil => rfl
  | cons e rest ih =>
    obtain ⟨r, n⟩ := e
    by_cases hr : r = p
    · have hrq : r ≠ q := fun hq => h (hq ▸ hr)
      have hpq : p ≠ q := fun hq => h hq.symm
      simpa [fsErase, List.filter, hr, fsGet, hpq] using ih
    · by_cases hq : r = q
      · subst hq
        simp [fsErase, List.filter, hr, fsGet]
      · simpa [fsErase, List.filter, hr, fsGet, hq] using ih

theorem fsGet_fsPut_same (fs : FS) (p : AbsPath) (n : Node) :
    fsGet (fsPut fs p n) p = some n := by
  simp [fsPut, fsGet]

theorem fsGet_fsPut_ne (fs : FS) (p q : AbsPath) (n : Node) (h : q ≠ p) :
    fsGet (fsPut fs p n) q = fsGet fs q := by
  have h1 : p ≠ q := fun e => h e.symm
  simp [fsPut, fsGet, h1, fsGet_fsErase_ne fs p q h]

/-- One step of the walk from a directory. -/
theorem walk_dir (proc : Proc) (fs : FS) (cur : AbsPath) (c : String) (cs : List String)
    (mode : Nat) (hg : fsGet fs cur = some (.dir mode)) :
    walk proc fs cur (c :: cs) =
      if c = "" then walk proc fs cur cs
      else if maySearch proc mode = false then .error .EACCES
      else if c = "." then walk proc fs cur cs
      else if c = ".." then walk proc fs cur.dropLast cs
      else walk proc fs (cur ++ [c]) cs := by
  rw [walk, hg]

/-- The walk cannot step from a location that holds a file. -/
theorem walk_file (proc : Proc) (fs : FS) (cur : AbsPath) (c : String) (cs : List String)
    (mode : Nat) (data : List Byte) (hg : fsGet fs cur = some (.file mode data)) :
    walk proc fs cur (c :: cs) = .error .ENOTDIR := by
  rw [walk, hg]

/-- The walk cannot step from a location that holds nothing. -/
theorem walk_none (proc : Proc) (fs : FS) (cur : AbsPath) (c : String) (cs : List String)
    (hg : fsGet fs cur = none) :
    walk proc fs cur (c :: cs) = .error .ENOENT := by
  rw [walk, hg]

/-- The walk looks at directories only: a filesystem that keeps every
directory of another resolves every path the other resolves, to the same
location. -/
theorem walk_of_dirs_kept (proc : Proc) (fs fs1 : FS)
    (hd : ∀ p m, fsGet fs p = some (.dir m) → fsGet fs1 p = some (.dir m)) :
    ∀ (cs : List String) (cur q : AbsPath),
      walk proc fs cur cs = .ok q → walk proc fs1 cur cs = .ok q := by
  intro cs
  induction cs with
  | nil => intro cur q h; simpa [walk] using h
  | cons c cs ih =>
    intro cur q h
    cases hg : fsGet fs cur with
    | none => rw [walk_none proc fs cur c cs hg] at h; cases h
    | some n =>
      cases n with
      | file mode data => rw [walk_file proc fs cur c cs mode data hg] at h; cases h
      | dir mode =>
        rw [walk_dir proc fs cur c cs mode hg] at h
        rw [walk_dir proc fs1 cur c cs mode (hd cur mode hg)]
        split_ifs at h ⊢ with h1 h2 h3 h4
        · exact ih _ _ h
        · exact ih _ _ h
        · exact ih _ _ h
        · exact ih _ _ h

theorem resolve_of_dirs_kept (proc : Proc) (fs fs1 : FS)
    (hd : ∀ p m, fsGet fs p = some (.dir m) → fsGet fs1 p = some (.dir m))
    (path : String) (q : AbsPath) (h : resolve proc fs path = .ok q) :
    resolve proc fs1 path = .ok q := by
  unfold resolve at h ⊢
  split_ifs at h ⊢ with h1 h2 <;> exact walk_of_dirs_kept proc fs fs1 hd _ _ _ h

/-- Storing a file where no directory was keeps every directory. -/
theorem dirs_kept_fsPut_file (fs : FS) (q : AbsPath) (mode : Nat) (data : List Byte)
    (hq : ∀ pm, fsGet fs q ≠ some (.dir pm)) :
    ∀ p m, fsGet fs p = some (.dir m) → fsGet (fsPut fs q (.file mode data)) p = some (.dir m) := by
  intro p m hp
  have hne : p ≠ q := fun e => hq m (e ▸ hp)
  rw [fsGet_fsPut_ne fs q p _ hne, hp]

/-- What a successful `WriteFile` did: the path resolved to a location that held
no directory, and the filesystem now has a file with the data there, with the
old mode if a file was there and the creation mode otherwise. -/
theorem WriteFile_ok (proc : Proc) (fs fs1 : FS) (name : String) (data : List Byte)
    (perm : Nat) (h : WriteFile proc fs name data perm = (none, fs1)) :
    ∃ q mode, resolve proc fs name = .ok q ∧ (∀ pm, fsGet fs q ≠ some (.dir pm)) ∧
      fs1 = fsPut fs q (.file mode data) ∧
      ((∃ old, fsGet fs q = some (.file mode old)) ∨
        (fsGet fs q = none ∧ mode = createMode proc perm)) := by
  unfold WriteFile at h
  cases hr : resolve proc fs name with
  | error e => simp [hr] at h
  | ok q =>
    simp only [hr] at h
    cases hg : fsGet fs q with
    | some n =>
      cases n with
      | dir pm => simp [hg] at h
      | file mode old =>
        simp only [hg] at h
        by_cases hw : mayWrite proc mode = true
        · simp only [hw, if_true] at h
          refine ⟨q, mode, rfl, ?_, (Prod.mk.inj h).2.symm, Or.inl ⟨old, hg⟩⟩
          intro pm; simp [hg]
        · simp [hw] at h
    | none =>
      simp only [hg] at h
      cases hp : fsGet fs q.dropLast with
      | none => simp [hp] at h
      | some n =>
        cases n with
        | file m0 d0 => simp [hp] at h
        | dir pmode =>
          simp only [hp] at h
          by_cases hw : (mayWrite proc pmode && maySearch proc pmode) = true
          · simp only [hw, if_true] at h
            refine ⟨q, createMode proc perm, rfl, ?_, (Prod.mk.inj h).2.symm, Or.inr ⟨hg, rfl⟩⟩
            intro pm; simp [hg]
          · simp [hw] at h

/-- What a successful `Write` of the local driver did, in terms of `WriteFile`. -/
theorem Write_ok (d : LocalStorage) (proc : Proc) (fs fs1 : FS) (key : String) (value : Reader)
    (h : d.Write proc fs key value = (none, fs1)) :
    (ReadAll value).2 = none ∧
      WriteFile proc fs (d.fullPath key) (ReadAll value).1 d.filePermissions = (none, fs1) := by
  unfold LocalStorage.Write at h
  rcases hra : ReadAll value with ⟨bts, err⟩
  cases err with
  | some e => simp [hra] at h
  | none =>
    simp only [hra] at h
    rcases hwf : WriteFile proc fs (d.fullPath key) bts d.filePermissions with ⟨werr, fs2⟩
    cases werr with
    | some e => simp [hwf] at h
    | none =>
      simp only [hwf] at h
      exact ⟨rfl, by rw [(Prod.mk.inj h).2]⟩

theorem ReadAll_ofBytes (b : List Byte) : ReadAll (Reader.ofBytes b) = (b, none) := by
  unfold ReadAll Reader.ofBytes
  by_cases hb : b = []
  · simp [hb]
  · simp [hb]

/-- After the node at `q` is erased, a path that resolved to `q` either still
resolves to `q` or stops with `ENOENT` where the walk meets the erased node. -/
theorem walk_after_erase (proc : Proc) (fs : FS) (q : AbsPath) :
    ∀ (cs : List String) (cur : AbsPath), walk proc fs cur cs = .ok q →
      walk proc (fsErase fs q) cur cs = .ok q ∨
        walk proc (fsErase fs q) cur cs = .error .ENOENT := by
  intro cs
  induction cs with
  | nil => intro cur h; left; simpa [walk] using h
  | cons c cs ih =>
    intro cur h
    by_cases hcur : cur = q
    · right
      exact walk_none proc _ cur c cs (hcur ▸ fsGet_fsErase_same fs q)
    · cases hg : fsGet fs cur with
      | none => rw [walk_none proc fs cur c cs hg] at h; cases h
      | some n =>
        cases n with
        | file mode data => rw [walk_file proc fs cur c cs mode data hg] at h; cases h
        | dir mode =>
          have hg1 : fsGet (fsErase fs q) cur = some (.dir mode) := by
            rw [fsGet_fsErase_ne fs q cur hcur, hg]
          rw [walk_dir proc fs cur c cs mode hg] at h
          rw [walk_dir proc _ cur c cs mode hg1]
          split_ifs at h ⊢ with h1 h2 h3 h4
          · exact ih _ h
          · exact ih _ h
          · exact ih _ h
          · exact ih _ h

theorem resolve_after_erase (proc : Proc) (fs : FS) (q : AbsPath) (path : String)
    (h : resolve proc fs path = .ok q) :
    resolve proc (fsErase fs q) path = .ok q ∨
      resolve proc (fsErase fs q) path = .error .ENOENT := by
  unfold resolve at h ⊢
  split_ifs at h ⊢ with h1 h2 <;> exact walk_after_erase proc fs q _ _ h

/-- What a successful `unlink` did. -/
theorem sysUnlink_ok (proc : Proc) (fs fs1 : FS) (path : String)
    (h : sysUnlink proc fs path = .ok fs1) :
    ∃ q, resolve proc fs path = .ok q ∧ fs1 = fsErase fs q := by
  unfold sysUnlink at h
  cases hr : resolve proc fs path with
  | error e => simp [hr] at h
  | ok q =>
    simp only [hr] at h
    cases hg : fsGet fs q with
    | none => simp [hg] at h
    | some n =>
      cases n with
      | dir pm => simp [hg] at h
      | file mode old =>
        simp only [hg] at h
        by_cases hm : mayModifyParent proc fs q = true
        · simp only [hm, if_true] at h
          exact ⟨q, rfl, (Except.ok.inj h).symm⟩
        · simp [hm] at h

/-- What a successful `rmdir` did. -/
theorem sysRmdir_ok (proc : Proc) (fs fs1 : FS) (path : String)
    (h : sysRmdir proc fs path = .ok fs1) :
    ∃ q, resolve proc fs path = .ok q ∧ fs1 = fsErase fs q := by
  unfold sysRmdir at h
  cases hr : resolve proc fs path with
  | error e => simp [hr] at h
  | ok q =>
    simp only [hr] at h
    by_cases h0 : (components path).getLast? = some "."
    · simp [h0] at h
    · rw [if_neg h0] at h
      cases hg : fsGet fs q with
      | none => simp [hg] at h
      | some n =>
        cases n with
        | file mode old =>
          simp only [hg] at h
          by_cases hm : mayModifyParent proc fs q = true <;> simp [hm] at h
        | dir pm =>
          simp only [hg] at h
          by_cases h1 : q = []
          · simp [h1] at h
          · by_cases h2 : mayModifyParent proc fs q = false
            · simp [h1, h2] at h
            · by_cases h3 : fsChildren fs q ≠ []
              · simp [h1, h2, h3] at h
              · rw [if_neg h1, if_neg h2, if_neg h3] at h
                exact ⟨q, rfl, (Except.ok.inj h).symm⟩

/-- What a successful `os.Remove` did: the path resolved to a location and the
node there is gone. -/
theorem Remove_ok (proc : Proc) (fs fs1 : FS) (name : String)
    (h : Remove proc fs name = (none, fs1)) :
    ∃ q, resolve proc fs name = .ok q ∧ fs1 = fsErase fs q := by
  unfold Remove at h
  cases hu : sysUnlink proc fs name with
  | ok fs2 =>
    simp only [hu] at h
    exact (Prod.mk.inj h).2 ▸ sysUnlink_ok proc fs fs2 name hu
  | error e =>
    simp only [hu] at h
    cases hrm : sysRmdir proc fs name with
    | ok fs2 =>
      simp only [hrm] at h
      exact (Prod.mk.inj h).2 ▸ sysRmdir_ok proc fs fs2 name hrm
    | error e1 => simp [hrm] at h

/-- What a successful `Delete` of the local driver did, in terms of `os.Remove`. -/
theorem Delete_ok (d : LocalStorage) (proc : Proc) (fs fs1 : FS) (key : String)
    (h : d.Delete proc fs key = (none, fs1)) :
    Remove proc fs (d.fullPath key) = (none, fs1) := by
  unfold LocalStorage.Delete at h
  rcases hrm : Remove proc fs (d.fullPath key) with ⟨rerr, fs2⟩
  cases rerr with
  | some e => simp [hrm] at h
  | none =>
    simp only [hrm] at h
    rw [(Prod.mk.inj h).2]

theorem sysUnlink_of_stat_error (proc : Proc) (fs : FS) (name : String) (e : Errno)
    (h : sysStat proc fs name = .error e) : ∃ e1, sysUnlink proc fs name = .error e1 := by
  unfold sysStat at h
  unfold sysUnlink
  cases hr : resolve proc fs name with
  | error e0 => exact ⟨e0, rfl⟩
  | ok q =>
    simp only [hr] at h
    cases hg : fsGet fs q with
    | some n => simp [hg] at h
    | none => exact ⟨.ENOENT, by simp [hg]⟩

theorem sysRmdir_of_stat_error (proc : Proc) (fs : FS) (name : String) (e : Errno)
    (h : sysStat proc fs name = .error e) : ∃ e1, sysRmdir proc fs name = .error e1 := by
  unfold sysStat at h
  unfold sysRmdir
  cases hr : resolve proc fs name with
  | error e0 => exact ⟨e0, rfl⟩
  | ok q =>
    simp only [hr] at h
    cases hg : fsGet fs q with
    | some n => simp [hg] at h
    | none =>
      by_cases h0 : (components name).getLast? = some "."
      · exact ⟨.EINVAL, by simp [h0]⟩
      · exact ⟨.ENOENT, by simp [h0, hg]⟩

/-- A path that `stat` cannot reach is one that `os.Remove` fails on, leaving the
filesystem as it was. -/
theorem Remove_of_stat_error (proc : Proc) (fs : FS) (name : String) (e : Errno)
    (h : sysStat proc fs name = .error e) :
    ∃ e1, Remove proc fs name = (some (.pathError "remove" name (.errno e1)), fs) := by
  obtain ⟨e1, h1⟩ := sysUnlink_of_stat_error proc fs name e h
  obtain ⟨e2, h2⟩ := sysRmdir_of_stat_error proc fs name e h
  refine ⟨if e2 ≠ Errno.ENOTDIR then e2 else e1, ?_⟩
  simp only [Remove, h1, h2]

/-- A successful `stat` is a path that resolves to a location holding a node. -/
theorem sysStat_ok (proc : Proc) (fs : FS) (path : String) (n : Node)
    (h : sysStat proc fs path = .ok n) :
    ∃ q, resolve proc fs path = .ok q ∧ fsGet fs q = some n := by
  unfold sysStat at h
  cases hr : resolve proc fs path with
  | error e => simp [hr] at h
  | ok q =>
    simp only [hr] at h
    cases hg : fsGet fs q with
    | none => simp [hg] at h
    | some m =>
      simp only [hg] at h
      have hmn : m = n := Except.ok.inj h
      exact ⟨q, rfl, by rw [hg, hmn]⟩

/-- After the node a path resolved to is erased, `stat` of the path reports
`ENOENT`. -/
theorem sysStat_after_erase (proc : Proc) (fs : FS) (q : AbsPath) (path : String)
    (h : resolve proc fs path = .ok q) :
    sysStat proc (fsErase fs q) path = .error .ENOENT := by
  unfold sysStat
  rcases resolve_after_erase proc fs q path h with h1 | h1
  · simp [h1, fsGet_fsErase_same]
  · simp [h1]

/-- The loop of `List` appends the names of the entries that are not
directories, in order. -/
theorem listLoop_eq (files : List FileInfo) (acc : List String) :
    listLoop files acc = acc ++ (files.filter (fun f => !f.IsDir)).map FileInfo.Name := by
  induction files generalizing acc with
  | nil => simp [listLoop]
  | cons f fs ih =>
    by_cases hf : f.IsDir = true
    · simp [listLoop, hf, ih]
    · simp [listLoop, hf, ih]

theorem insertByName_perm (e : FileInfo) (l : List FileInfo) :
    (insertByName e l).Perm (e :: l) := by
  induction l with
  | nil => simp [insertByName]
  | cons x xs ih =>
    by_cases h : stringLess e.Name x.Name = true
    · simp [insertByName, h]
    · simp only [insertByName, h]
      exact (List.Perm.cons x ih).trans (List.Perm.swap e x xs)

/-- Sorting keeps the entries. -/
theorem sortByName_perm (l : List FileInfo) : (sortByName l).Perm l := by
  induction l with
  | nil => simp [sortByName]
  | cons x xs ih =>
    have h : sortByName (x :: xs) = insertByName x (sortByName xs) := rfl
    rw [h]
    exact (insertByName_perm x _).trans (List.Perm.cons x ih)

/-- The entry name of `q` under `p` is `name` exactly when `q` is `p` followed
by `name`. -/
theorem childName_eq_some (p q : AbsPath) (name : String) :
    childName p q = some name ↔ q = p ++ [name] := by
  unfold childName
  constructor
  · intro h
    cases hl : q.getLast? with
    | none => simp [hl] at h
    | some nm =>
      simp only [hl] at h
      by_cases hd : q.dropLast = p
      · simp only [hd, if_true] at h
        have hnm : nm = name := Option.some.inj h
        have hq : q ≠ [] := by
          intro hq; rw [hq] at hl; simp at hl
        have hlast : q.getLast hq = nm := by
          have := List.getLast?_eq_getLast q hq
          rw [this] at hl
          exact Option.some.inj hl
        have := List.dropLast_append_getLast hq
        rw [hd, hlast, hnm] at this
        exact this.symm
      · simp [hd] at h
  · intro h
    subst h
    simp

/-- The entries of directory `p` are the nodes stored at `p` followed by one name. -/
theorem mem_fsChildren (fs : FS) (p : AbsPath) (name : String) (n : Node) :
    (name, n) ∈ fsChildren fs p ↔ (p ++ [name], n) ∈ fs := by
  unfold fsChildren
  rw [List.mem_filterMap]
  constructor
  · rintro ⟨⟨q, m⟩, hmem, h⟩
    cases hc : childName p q with
    | none => simp [hc] at h
    | some nm =>
      simp only [hc, Option.map_some', Option.some.injEq, Prod.mk.injEq] at h
      obtain ⟨h1, h2⟩ := h
      have hq := (childName_eq_some p q nm).1 hc
      rw [hq, h1, h2] at hmem
      exact hmem
  · intro hmem
    refine ⟨(p ++ [name], n), hmem, ?_⟩
    have hc := (childName_eq_some p (p ++ [name]) name).2 rfl
    simp [hc]

/-- With distinct locations, the listed nodes are the nodes in force. -/
theorem mem_iff_fsGet (fs : FS) (hwf : distinctLocations fs) (p : AbsPath) (n : Node) :
    (p, n) ∈ fs ↔ fsGet fs p = some n := by
  induction fs with
  | nil => simp [fsGet]
  | cons e rest ih =>
    obtain ⟨q, m⟩ := e
    have hwf1 : (q :: rest.map Prod.fst).Nodup := hwf
    have hnd : q ∉ rest.map Prod.fst ∧ distinctLocations rest := List.nodup_cons.1 hwf1
    by_cases hq : q = p
    · subst hq
      simp only [fsGet, if_true, List.mem_cons, Prod.mk.injEq, true_and, Option.some.injEq]
      constructor
      · rintro (h | h)
        · exact h.symm
        · exact absurd (List.mem_map_of_mem Prod.fst h) hnd.1
      · intro h; exact Or.inl h.symm
    · have hpq : p ≠ q := fun h => hq h.symm
      simp only [fsGet, hq, if_false, List.mem_cons, Prod.mk.injEq, hpq, false_and, false_or]
      exact ih hnd.2

/-- With distinct locations, a directory has no name twice. -/
theorem fsChildren_names_nodup (fs : FS) (hwf : distinctLocations fs) (p : AbsPath) :
    ((fsChildren fs p).map Prod.fst).Nodup := by
  induction fs with
  | nil => simp [fsChildren]
  | cons e rest ih =>
    obtain ⟨q, m⟩ := e
    have hwf1 : (q :: rest.map Prod.fst).Nodup := hwf
    have hnd : q ∉ rest.map Prod.fst ∧ distinctLocations rest := List.nodup_cons.1 hwf1
    have hrest := ih hnd.2
    cases hc : childName p q with
    | none =>
      have : fsChildren ((q, m) :: rest) p = fsChildren rest p := by
        simp [fsChildren, List.filterMap_cons, hc]
      rw [this]; exact hrest
    | some nm =>
      have : fsChildren ((q, m) :: rest) p = (nm, m) :: fsChildren rest p := by
        simp [fsChildren, List.filterMap_cons, hc]
      rw [this, List.map_cons, List.nodup_cons]
      refine ⟨?_, hrest⟩
      intro hmem
      obtain ⟨⟨nm1, n1⟩, hin, hfst⟩ := List.mem_map.1 hmem
      simp only at hfst
      subst hfst
      have h1 := (mem_fsChildren rest p nm1 n1).1 hin
      have hq := (childName_eq_some p q nm1).1 hc
      exact hnd.1 (hq ▸ List.mem_map_of_mem Prod.fst h1)

/-- What a successful `ioutil.ReadDir` returned: the path resolved to a
directory and the result is a rearrangement of its entries. -/
theorem ReadDir_ok (proc : Proc) (fs : FS) (dirname : String) (files : List FileInfo)
    (h : ReadDir proc fs dirname = .ok files) :
    ∃ q mode, resolve proc fs dirname = .ok q ∧ fsGet fs q = some (.dir mode) ∧
      files.Perm ((fsChildren fs q).map (fun e => FileInfo.mk e.1 e.2)) := by
  unfold ReadDir at h
  cases hr : resolve proc fs dirname with
  | error e => simp [hr] at h
  | ok q =>
    simp only [hr] at h
    cases hg : fsGet fs q with
    | none => simp [hg] at h
    | some n =>
      cases n with
      | file mode data =>
        simp only [hg] at h
        by_cases hm : mayRead proc mode = true <;> simp [hm] at h
      | dir mode =>
        simp only [hg] at h
        by_cases hm : mayRead proc mode = false
        · simp [hm] at h
        · rw [if_neg hm] at h
          refine ⟨q, mode, rfl, hg, ?_⟩
          cases hc : (fsChildren fs q).map (fun e => FileInfo.mk e.1 e.2) with
          | nil =>
            simp only [hc] at h
            rw [← Except.ok.inj h]
          | cons e es =>
            simp only [hc] at h
            by_cases hs : maySearch proc mode = true
            · rw [if_pos hs] at h
              rw [← Except.ok.inj h]
              exact sortByName_perm _
            · simp [hs] at h

theorem splitSlash_ne_nil (a : List Char) : splitSlash a ≠ [] := by
  induction a with
  | nil => simp [splitSlash]
  | cons c cs ih =>
    unfold splitSlash
    by_cases hc : c = '/'
    · simp [hc]
    · cases hs : splitSlash cs with
      | nil => exact absurd hs ih
      | cons seg segs => simp [hc]

/-- Splitting at a slash: the components of `a/b` are those of `a` followed by
those of `b`. -/
theorem splitSlash_append (a b : List Char) :
    splitSlash (a ++ '/' :: b) = splitSlash a ++ splitSlash b := by
  induction a with
  | nil => simp [splitSlash]
  | cons c cs ih =>
    by_cases hc : c = '/'
    · simp [splitSlash, hc, ih]
    · cases hs : splitSlash cs with
      | nil => exact absurd hs (splitSlash_ne_nil cs)
      | cons seg segs =>
        simp [splitSlash, hc, ih, hs]

theorem components_ne_nil (path : String) : components path ≠ [] := by
  unfold components
  intro h
  exact splitSlash_ne_nil path.data (List.map_eq_nil_iff.1 h)

/-- The walk over a concatenation is the walk over the first part followed by
the walk over the second from where the first arrived. -/
theorem walk_append (proc : Proc) (fs : FS) (cs1 cs2 : List String) :
    ∀ cur, walk proc fs cur (cs1 ++ cs2) =
      match walk proc fs cur cs1 with
      | .ok q => walk proc fs q cs2
      | .error e => .error e := by
  induction cs1 with
  | nil => intro cur; simp [walk]
  | cons c cs ih =>
    intro cur
    rw [List.cons_append]
    cases hg : fsGet fs cur with
    | none =>
      rw [walk_none proc fs cur c _ hg, walk_none proc fs cur c _ hg]
    | some n =>
      cases n with
      | file mode data =>
        rw [walk_file proc fs cur c _ mode data hg, walk_file proc fs cur c _ mode data hg]
      | dir mode =>
        rw [walk_dir proc fs cur c _ mode hg, walk_dir proc fs cur c _ mode hg]
        split_ifs with h1 h2 h3 h4
        · exact ih _
        · rfl
        · exact ih _
        · exact ih _
        · exact ih _

/-- Below a root path that does not name a directory nothing resolves: the
kernel has to pass through the root to reach `root/rest`. -/
theorem resolve_below_missing (proc : Proc) (fs : FS) (root rest : String)
    (hne : root ≠ "") (hroot : ∀ mode, sysStat proc fs root ≠ .ok (.dir mode)) :
    ∃ e, resolve proc fs (root ++ "/" ++ rest) = .error e := by
  have hdata : (root ++ "/" ++ rest).data = root.data ++ '/' :: rest.data := by
    simp [String.data_append]
  have hrd : root.data ≠ [] := by
    intro h
    apply hne
    exact String.ext h
  have hhead : (root ++ "/" ++ rest).data.head? = root.data.head? := by
    rw [hdata]
    cases hr : root.data with
    | nil => exact absurd hr hrd
    | cons c cs => rfl
  have hcomp : components (root ++ "/" ++ rest) = components root ++ components rest := by
    unfold components
    rw [hdata, splitSlash_append, List.map_append]
  unfold resolve
  by_cases h1 : root ++ "/" ++ rest = ""
  · exact ⟨_, by rw [if_pos h1]⟩
  · rw [if_neg h1]
    by_cases h2 : (Char.ofNat 0) ∈ (root ++ "/" ++ rest).data
    · exact ⟨_, by rw [if_pos h2]⟩
    · rw [if_neg h2, hhead, hcomp, walk_append]
      have h3 : (Char.ofNat 0) ∉ root.data := by
        intro h
        apply h2
        rw [hdata]
        exact List.mem_append_left _ h
      have hres : resolve proc fs root =
          walk proc fs (if root.data.head? = some '/' then [] else proc.cwd)
            (components root) := by
        unfold resolve
        rw [if_neg hne, if_neg h3]
      cases hw : walk proc fs (if root.data.head? = some '/' then [] else proc.cwd)
          (components root) with
      | error e => exact ⟨e, rfl⟩
      | ok q =>
        rw [hw] at hres
        cases hc : components rest with
        | nil => exact absurd hc (components_ne_nil rest)
        | cons c cs =>
          cases hg : fsGet fs q with
          | none => exact ⟨_, walk_none proc fs q c cs hg⟩
          | some n =>
            cases n with
            | file mode data => exact ⟨_, walk_file proc fs q c cs mode data hg⟩
            | dir mode =>
              exfalso
              apply hroot mode
              simp [sysStat, hres, hg]

/-- A root path that does not name a directory cannot be enumerated. -/
theorem ReadDir_of_not_dir (proc : Proc) (fs : FS) (root : String)
    (hroot : ∀ mode, sysStat proc fs root ≠ .ok (.dir mode)) :
    ∃ err, ReadDir proc fs root = .error err := by
  unfold ReadDir
  cases hr : resolve proc fs root with
  | error e => exact ⟨_, rfl⟩
  | ok q =>
    cases hg : fsGet fs q with
    | none => exact ⟨.pathError "open" root (.errno .ENOENT), by simp [hg]⟩
    | some n =>
      cases n with
      | file mode data =>
        by_cases hm : mayRead proc mode = true
        · exact ⟨.pathError "readdirent" root (.errno .ENOTDIR), by simp [hg, hm]⟩
        · exact ⟨.pathError "open" root (.errno .EACCES), by simp [hg, hm]⟩
      | dir mode =>
        exfalso
        apply hroot mode
        simp [sysStat, hr, hg]

/-- When the mapped path cannot be statted, `Delete` fails and leaves the
filesystem as it was. -/
theorem local_delete_missing_aux (d : LocalStorage) (proc : Proc) (fs : FS) (k : String)
    (e : Errno) (h : sysStat proc fs (d.fullPath k) = .error e) :
    ∃ err, d.Delete proc fs k = (some err, fs) := by
  obtain ⟨e1, h1⟩ := Remove_of_stat_error proc fs _ e h
  exact ⟨errorfWrapPath (.pathError "remove" (d.fullPath k) (.errno e1)) (d.fullPath k),
    by simp only [LocalStorage.Delete, h1]⟩

/-! ## Claims on the local driver -/

/-- C1 (as amended): local round trip.  If `Write(k, value)` returns no error and
the file at the mapped path is then readable by the process (it is privileged
or the mode of the file has the owner-read bit), the immediately following
`Read(k)` returns no error and a reader whose full content is exactly the
content of `value`: same bytes, same length. -/
theorem local_round_trip (d : LocalStorage) (proc : Proc) (fs fs1 : FS) (k : String)
    (value : Reader) (hw : d.Write proc fs k value = (none, fs1))
    (hread : readableFile proc fs1 (d.fullPath k) = true) :
    ∃ r, d.Read proc fs1 k = (some r, none) ∧ ReadAll r = ((ReadAll value).1, none) ∧
      (ReadAll r).1.length = (ReadAll value).1.length := by
  obtain ⟨_, hwf⟩ := Write_ok d proc fs fs1 k value hw
  obtain ⟨q, mode, hres, hnd, hfs, _⟩ := WriteFile_ok proc fs fs1 _ _ _ hwf
  have hres1 : resolve proc fs1 (d.fullPath k) = .ok q := by
    rw [hfs]
    exact resolve_of_dirs_kept proc fs _ (dirs_kept_fsPut_file fs q mode _ hnd) _ q hres
  have hget : fsGet fs1 q = some (.file mode (ReadAll value).1) := by
    rw [hfs]; exact fsGet_fsPut_same fs q _
  have hmr : mayRead proc mode = true := by
    simpa [readableFile, sysStat, hres1, hget] using hread
  refine ⟨Reader.ofBytes (ReadAll value).1, ?_, ?_, ?_⟩
  · simp [LocalStorage.Read, ReadFile, hres1, hget, hmr]
  · exact ReadAll_ofBytes _
  · rw [ReadAll_ofBytes]

/-- Witness of C1: the round trip of the repository's test, `test123` written to
`test.txt` under `/tmp/test` with the default mode. -/
theorem local_round_trip_witness :
    ∃ r, testStore.Read userProc
        (testStore.Write userProc tmpTestFS "test.txt" (readerOf "test123")).2 "test.txt"
          = (some r, none) ∧
      ReadAll r = ((ReadAll (readerOf "test123")).1, none) ∧
      (ReadAll r).1.length = (ReadAll (readerOf "test123")).1.length :=
  local_round_trip testStore userProc tmpTestFS _ "test.txt" (readerOf "test123")
    (by decide) (by decide)

/-- C1 as stated fails: with the permission mode set to zero an ordinary process
writes `test.txt` without error, and the immediately following `Read` returns a
nil reader and a permission error. -/
theorem local_round_trip_unreadable_mode :
    (zeroPermStore.Write userProc tmpTestFS "test.txt" (readerOf "test123")).1 = none ∧
      zeroPermStore.Read userProc
          (zeroPermStore.Write userProc tmpTestFS "test.txt" (readerOf "test123")).2 "test.txt"
        = (none, some (errorfWrapPath
            (.pathError "open" "/tmp/test/test.txt" (.errno .EACCES)) "/tmp/test/test.txt")) := by
  decide

/-- C3: local overwrite is whole-object replace.  When the mapped path of `k`
holds a file with content `v1` (of any length, also empty) and `Write(k, value)`
returns no error, the file at the mapped path holds exactly the content of
`value`, with its length: nothing of `v1` is left and nothing is appended. -/
theorem local_overwrite_replaces (d : LocalStorage) (proc : Proc) (fs fs1 : FS) (k : String)
    (value : Reader) (mode : Nat) (v1 : List Byte)
    (hold : sysStat proc fs (d.fullPath k) = .ok (.file mode v1))
    (hw : d.Write proc fs k value = (none, fs1)) :
    sysStat proc fs1 (d.fullPath k) = .ok (.file mode (ReadAll value).1) ∧
      ∀ m data, sysStat proc fs1 (d.fullPath k) = .ok (.file m data) →
        data = (ReadAll value).1 ∧ data.length = (ReadAll value).1.length := by
  obtain ⟨_, hwf⟩ := Write_ok d proc fs fs1 k value hw
  obtain ⟨q, mode1, hres, hnd, hfs, hmode⟩ := WriteFile_ok proc fs fs1 _ _ _ hwf
  have hgq : fsGet fs q = some (.file mode v1) := by
    unfold sysStat at hold
    simp only [hres] at hold
    cases hg : fsGet fs q with
    | none => simp [hg] at hold
    | some n => simpa [hg] using hold
  have hm : mode1 = mode := by
    rcases hmode with ⟨old, ho⟩ | ⟨hn, _⟩
    · rw [hgq] at ho
      injection ho with ho
      injection ho with h1 _
      exact h1.symm
    · rw [hgq] at hn; cases hn
  subst hm
  have hres1 : resolve proc fs1 (d.fullPath k) = .ok q := by
    rw [hfs]
    exact resolve_of_dirs_kept proc fs _ (dirs_kept_fsPut_file fs q mode1 _ hnd) _ q hres
  have hget : fsGet fs1 q = some (.file mode1 (ReadAll value).1) := by
    rw [hfs]; exact fsGet_fsPut_same fs q _
  have hstat : sysStat proc fs1 (d.fullPath k) = .ok (.file mode1 (ReadAll value).1) := by
    simp [sysStat, hres1, hget]
  refine ⟨hstat, ?_⟩
  intro m data h
  rw [hstat] at h
  injection h with h
  injection h with _ h2
  exact ⟨h2.symm, by rw [h2]⟩

/-- Witness of C3: the test that overwrites a file that is not empty, and an
overwrite with a shorter content. -/
theorem local_overwrite_replaces_witness :
    (sysStat userProc
        (testStore.Write userProc (tmpTestFileFS (bytesOf "test123")) "test.txt"
          (readerOf "te")).2 "/tmp/test/test.txt"
      = .ok (.file 0o644 (bytesOf "te"))) ∧
    sysStat userProc
        (testStore.Write userProc (tmpTestFileFS (bytesOf "test")) "test.txt"
          (readerOf "test123")).2 (testStore.fullPath "test.txt")
      = .ok (.file 0o644 (ReadAll (readerOf "test123")).1) :=
  ⟨by decide,
   (local_overwrite_replaces testStore userProc (tmpTestFileFS (bytesOf "test")) _ "test.txt"
    (readerOf "test123") 0o644 (bytesOf "test") (by decide) (by decide)).1⟩

/-- C4: local delete-then-read.  If `Delete(k)` returns no error, the
immediately following `Read(k)` returns a nil reader and an error for which
`errors.Is(err, fs.ErrNotExist)` holds. -/
theorem local_delete_then_read (d : LocalStorage) (proc : Proc) (fs fs1 : FS) (k : String)
    (hd : d.Delete proc fs k = (none, fs1)) :
    ∃ err, d.Read proc fs1 k = (none, some err) ∧ errorsIsNotExist err = true := by
  obtain ⟨q, hres, hfs⟩ := Remove_ok proc fs fs1 _ (Delete_ok d proc fs fs1 k hd)
  have hopen : ReadFile proc fs1 (d.fullPath k) =
      .error (.pathError "open" (d.fullPath k) (.errno .ENOENT)) := by
    subst hfs
    unfold ReadFile
    rcases resolve_after_erase proc fs q _ hres with h | h
    · simp [h, fsGet_fsErase_same]
    · simp [h]
  refine ⟨errorfWrapPath (.pathError "open" (d.fullPath k) (.errno .ENOENT)) (d.fullPath k), ?_, ?_⟩
  · simp [LocalStorage.Read, hopen]
  · simp [errorfWrapPath, errorsIsNotExist]

/-- Witness of C4: the file `test.txt` of the tests is deleted and then read. -/
theorem local_delete_then_read_witness :
    ∃ err, testStore.Read userProc
        (testStore.Delete userProc (tmpTestFileFS (bytesOf "test")) "test.txt").2 "test.txt"
          = (none, some err) ∧ errorsIsNotExist err = true :=
  local_delete_then_read testStore userProc (tmpTestFileFS (bytesOf "test")) _ "test.txt"
    (by decide)

/-- C5 (as amended): local delete of a missing key is an error, not a no-op.
When the mapped path of `k` cannot be statted, `Delete(k)` returns a non-nil
error and leaves the filesystem unchanged.  When the mapped path is a regular
file (empty or not) in a directory the process may modify, `Delete(k)` returns
nil and the path no longer exists afterwards. -/
theorem local_delete_missing_is_error (d : LocalStorage) (proc : Proc) (fs : FS) (k : String) :
    (∀ e, sysStat proc fs (d.fullPath k) = .error e →
      ∃ err, d.Delete proc fs k = (some err, fs)) ∧
    (∀ mode data, sysStat proc fs (d.fullPath k) = .ok (.file mode data) →
      parentModifiable proc fs (d.fullPath k) = true →
      ∃ fs1, d.Delete proc fs k = (none, fs1) ∧
        sysStat proc fs1 (d.fullPath k) = .error .ENOENT) := by
  constructor
  · intro e h
    exact local_delete_missing_aux d proc fs k e h
  · intro mode data h hp
    obtain ⟨q, hres, hget⟩ := sysStat_ok proc fs _ _ h
    have hm : mayModifyParent proc fs q = true := by
      simpa [parentModifiable, hres] using hp
    have hu : sysUnlink proc fs (d.fullPath k) = .ok (fsErase fs q) := by
      simp [sysUnlink, hres, hget, hm]
    refine ⟨fsErase fs q, ?_, sysStat_after_erase proc fs q _ hres⟩
    simp only [LocalStorage.Delete, Remove, hu]

/-- Witness of C5: the tests `file not exists`, `empty file` and `file not
empty` of `TestLocalStorage_Delete`. -/
theorem local_delete_missing_is_error_witness :
    (∃ err, testStore.Delete userProc tmpTestFS "test.txt" = (some err, tmpTestFS)) ∧
    (∃ fs1, testStore.Delete userProc (tmpTestFileFS []) "test.txt" = (none, fs1) ∧
      sysStat userProc fs1 (testStore.fullPath "test.txt") = .error .ENOENT) ∧
    (∃ fs1, testStore.Delete userProc (tmpTestFileFS (bytesOf "test")) "test.txt" = (none, fs1) ∧
      sysStat userProc fs1 (testStore.fullPath "test.txt") = .error .ENOENT) :=
  ⟨(local_delete_missing_is_error testStore userProc tmpTestFS "test.txt").1 .ENOENT
      (by decide),
   (local_delete_missing_is_error testStore userProc (tmpTestFileFS []) "test.txt").2
      0o644 [] (by decide) (by decide),
   (local_delete_missing_is_error testStore userProc (tmpTestFileFS (bytesOf "test"))
      "test.txt").2 0o644 (bytesOf "test") (by decide) (by decide)⟩

/-- C5 as stated fails: `/ro/a.txt` is an existing regular file, yet `Delete`
returns a permission error for an ordinary process, because the directory
`/ro` is not writable; the file is still there. -/
theorem local_delete_unwritable_directory :
    sysStat userProc readOnlyDirFS (roStore.fullPath "a.txt")
        = .ok (.file 0o644 (bytesOf "test")) ∧
      roStore.Delete userProc readOnlyDirFS "a.txt"
        = (some (errorfWrapPath (.pathError "remove" "/ro/a.txt" (.errno .EACCES)) "/ro/a.txt"),
            readOnlyDirFS) := by
  decide

/-- C6: `Exists` is a three-way classification of the mapped path.  A path that
cannot be statted gives `(false, err)` with `err` wrapping the error of `stat`;
a directory gives `(false, nil)`; anything else, also a regular file of length
zero, gives `(true, nil)`; a missing file or containing directory is a path that
cannot be statted; and `(true, err)` with a non-nil `err` is never returned. -/
theorem local_exists_classification (d : LocalStorage) (proc : Proc) (fs : FS) (k : String) :
    (∀ e, sysStat proc fs (d.fullPath k) = .error e →
      d.Exists proc fs k = (false, some (errorfWrapPath
        (.pathError "stat" (d.fullPath k) (.errno e)) (d.fullPath k)))) ∧
    (∀ mode, sysStat proc fs (d.fullPath k) = .ok (.dir mode) →
      d.Exists proc fs k = (false, none)) ∧
    (∀ mode data, sysStat proc fs (d.fullPath k) = .ok (.file mode data) →
      d.Exists proc fs k = (true, none)) ∧
    (∀ mode, sysStat proc fs (d.fullPath k) = .ok (.file mode []) →
      d.Exists proc fs k = (true, none)) ∧
    ((∀ q, resolve proc fs (d.fullPath k) = .ok q → fsGet fs q = none) →
      ∃ err, d.Exists proc fs k = (false, some err)) ∧
    (∀ err, d.Exists proc fs k ≠ (true, some err)) := by
  refine ⟨?_, ?_, ?_, ?_, ?_, ?_⟩
  · intro e h
    simp [LocalStorage.Exists, Stat, h]
  · intro mode h
    simp [LocalStorage.Exists, Stat, h, Node.IsDir]
  · intro mode data h
    simp [LocalStorage.Exists, Stat, h, Node.IsDir]
  · intro mode h
    simp [LocalStorage.Exists, Stat, h, Node.IsDir]
  · intro h
    cases hs : sysStat proc fs (d.fullPath k) with
    | error e =>
      exact ⟨errorfWrapPath (.pathError "stat" (d.fullPath k) (.errno e)) (d.fullPath k),
        by simp [LocalStorage.Exists, Stat, hs]⟩
    | ok n =>
      obtain ⟨q, hres, hget⟩ := sysStat_ok proc fs _ _ hs
      rw [h q hres] at hget
      cases hget
  · intro err
    cases hs : sysStat proc fs (d.fullPath k) with
    | error e => simp [LocalStorage.Exists, Stat, hs]
    | ok n => cases n <;> simp [LocalStorage.Exists, Stat, hs, Node.IsDir]

/-- Witness of C6: the tests `file not exists`, `empty file` and `file not empty`
of `TestLocalStorage_Exists`, and the empty key, which is mapped to the root
directory itself. -/
theorem local_exists_classification_witness :
    testStore.Exists userProc tmpTestFS "test.txt"
      = (false, some (errorfWrapPath
          (.pathError "stat" "/tmp/test/test.txt" (.errno .ENOENT)) "/tmp/test/test.txt")) ∧
    testStore.Exists userProc (tmpTestFileFS []) "test.txt" = (true, none) ∧
    testStore.Exists userProc (tmpTestFileFS (bytesOf "test")) "test.txt" = (true, none) ∧
    testStore.Exists userProc tmpTestFS "" = (false, none) :=
  ⟨(local_exists_classification testStore userProc tmpTestFS "test.txt").1 .ENOENT (by decide),
   (local_exists_classification testStore userProc (tmpTestFileFS []) "test.txt").2.2.2.1
      0o644 (by decide),
   (local_exists_classification testStore userProc (tmpTestFileFS (bytesOf "test"))
      "test.txt").2.2.1 0o644 (bytesOf "test") (by decide),
   (local_exists_classification testStore userProc tmpTestFS "").2.1 0o755 (by decide)⟩

/-- C7: `List` returns exactly the names of the entries directly inside the root
that are not directories.  When the root can be enumerated, the result is the
enumeration with the directories dropped, in the order of the enumeration; a
name is in the result exactly when the root followed by that name holds a
regular file (so nothing from inside a subdirectory is listed); and on a
filesystem where no location is listed twice every name appears once. -/
theorem local_list_exact (d : LocalStorage) (proc : Proc) (fs : FS) (files : List FileInfo)
    (hwf : distinctLocations fs) (hrd : ReadDir proc fs d.Path = .ok files) :
    d.List proc fs = (some ((files.filter (fun f => !f.IsDir)).map FileInfo.Name), none) ∧
    ∃ q, resolve proc fs d.Path = .ok q ∧
      (∀ n, n ∈ (files.filter (fun f => !f.IsDir)).map FileInfo.Name ↔
        ∃ mode data, fsGet fs (q ++ [n]) = some (.file mode data)) ∧
      ((files.filter (fun f => !f.IsDir)).map FileInfo.Name).Nodup := by
  obtain ⟨q, mode, hres, hg, hperm⟩ := ReadDir_ok proc fs _ files hrd
  refine ⟨?_, q, hres, ?_, ?_⟩
  · simp [LocalStorage.List, hrd, listLoop_eq]
  · intro n
    simp only [List.mem_map, List.mem_filter]
    constructor
    · rintro ⟨f, ⟨hf, hnd⟩, hname⟩
      have hf1 := hperm.mem_iff.1 hf
      obtain ⟨⟨nm, node⟩, hin, hmk⟩ := List.mem_map.1 hf1
      subst hmk
      simp only at hname
      subst hname
      have hfs := (mem_fsChildren fs q nm node).1 hin
      have hget := (mem_iff_fsGet fs hwf _ _).1 hfs
      cases node with
      | dir m => simp [FileInfo.IsDir, Node.IsDir] at hnd
      | file m data => exact ⟨m, data, hget⟩
    · rintro ⟨m, data, hget⟩
      have hfs := (mem_iff_fsGet fs hwf _ _).2 hget
      have hin := (mem_fsChildren fs q n _).2 hfs
      refine ⟨FileInfo.mk n (.file m data), ⟨?_, ?_⟩, rfl⟩
      · exact hperm.mem_iff.2 (List.mem_map.2 ⟨(n, .file m data), hin, rfl⟩)
      · simp [FileInfo.IsDir, Node.IsDir]
  · have hnames : (files.map FileInfo.Name).Nodup := by
      have hp : (files.map FileInfo.Name).Perm ((fsChildren fs q).map Prod.fst) := by
        have := hperm.map FileInfo.Name
        simpa [List.map_map, Function.comp_def] using this
      exact hp.nodup_iff.2 (fsChildren_names_nodup fs hwf q)
    exact hnames.sublist ((List.filter_sublist _).map _)

/-- Witness of C7: the test `multiple files`; the root holds `test1.txt` and
`test2.txt` (and here also a subdirectory with a file inside), and the result
is `[test1.txt, test2.txt]`. -/
theorem local_list_exact_witness :
    testStore.List userProc multipleFilesFS = (some ["test1.txt", "test2.txt"], none) :=
  (local_list_exact testStore userProc multipleFilesFS
    [⟨"sub", .dir 0o755⟩, ⟨"test1.txt", .file 0o644 (bytesOf "test1")⟩,
     ⟨"test2.txt", .file 0o644 (bytesOf "test2")⟩] (by decide) (by decide)).1

/-- C8: empty and failing listings.  On a root that can be enumerated and has no
entry other than directories (in particular an existing, readable, empty
directory) `List` returns an empty non-nil slice and a nil error; on a root
that cannot be enumerated (in particular one that cannot be statted) it
returns an empty non-nil slice with a non-nil error; a non-empty slice never
comes with an error. -/
theorem local_list_empty_or_failing (d : LocalStorage) (proc : Proc) (fs : FS) :
    (∀ files, ReadDir proc fs d.Path = .ok files → (∀ f ∈ files, f.IsDir = true) →
      d.List proc fs = (some [], none)) ∧
    (∀ q mode, resolve proc fs d.Path = .ok q → fsGet fs q = some (.dir mode) →
      mayRead proc mode = true → fsChildren fs q = [] →
      d.List proc fs = (some [], none)) ∧
    (∀ err, ReadDir proc fs d.Path = .error err →
      d.List proc fs = (some [], some (errorfWrapPath err d.Path))) ∧
    (∀ e, sysStat proc fs d.Path = .error e →
      ∃ err, d.List proc fs = (some [], some err)) ∧
    (∀ names err, d.List proc fs = (names, some err) → names = some []) := by
  refine ⟨?_, ?_, ?_, ?_, ?_⟩
  · intro files hrd hall
    have hnil : files.filter (fun f => !f.IsDir) = [] := by
      rw [List.filter_eq_nil_iff]
      intro f hf
      simp [hall f hf]
    simp [LocalStorage.List, hrd, listLoop_eq, hnil]
  · intro q mode hres hg hm hc
    have hrd : ReadDir proc fs d.Path = .ok [] := by
      simp [ReadDir, hres, hg, hm, hc]
    simp [LocalStorage.List, hrd, listLoop]
  · intro err hrd
    simp [LocalStorage.List, hrd]
  · intro e hs
    unfold sysStat at hs
    cases hr : resolve proc fs d.Path with
    | error e0 =>
      exact ⟨errorfWrapPath (.pathError "open" d.Path (.errno e0)) d.Path,
        by simp [LocalStorage.List, ReadDir, hr]⟩
    | ok q =>
      simp only [hr] at hs
      cases hg : fsGet fs q with
      | some n => simp [hg] at hs
      | none =>
        exact ⟨errorfWrapPath (.pathError "open" d.Path (.errno .ENOENT)) d.Path,
          by simp [LocalStorage.List, ReadDir, hr, hg]⟩
  · intro names err h
    unfold LocalStorage.List at h
    cases hrd : ReadDir proc fs d.Path with
    | error e =>
      simp only [hrd] at h
      exact (Prod.mk.inj h).1.symm
    | ok files => simp [hrd] at h

/-- Witness of C8: the tests `file not exists` (the empty root `/tmp/test`) and
`directory not exists` (the missing root `/tmp/test2`) of `TestLocalStorage_List`. -/
theorem local_list_empty_or_failing_witness :
    testStore.List userProc tmpTestFS = (some [], none) ∧
      ∃ err, test2Store.List userProc tmpTestFS = (some [], some err) :=
  ⟨(local_list_empty_or_failing testStore userProc tmpTestFS).2.1
      ["tmp", "test"] 0o755 (by decide) (by decide) (by decide) (by decide),
   (local_list_empty_or_failing test2Store userProc tmpTestFS).2.2.2.1 .ENOENT (by decide)⟩

/-- C9 as stated fails.  The root `/tmp/test` does not exist, yet `Write` with the
key `../x` returns no error and creates the file `/tmp/x`, because the mapped
path leaves the root; with the empty root path, which names no directory,
`Write` with the key `/tmp/x` does the same; and the root `/tmp/none/../test`
cannot be statted, `/tmp/none` being missing, yet `Exists("test.txt")` finds
the file `/tmp/test/test.txt`, because the mapped path is cleaned. -/
theorem local_missing_root_key_escapes :
    namesDirectory userProc tmpFS testStore.Path = false ∧
    sysStat userProc tmpFS testStore.Path = .error .ENOENT ∧
    testStore.fullPath "../x" = "/tmp/x" ∧
    testStore.Write userProc tmpFS "../x" (readerOf "t")
      = (none, (["tmp", "x"], .file 0o644 (bytesOf "t")) :: tmpFS) ∧
    sysStat userProc tmpFS (NewLocalStorage "").Path = .error .ENOENT ∧
    (NewLocalStorage "").Write userProc tmpFS "/tmp/x" (readerOf "t")
      = (none, (["tmp", "x"], .file 0o644 (bytesOf "t")) :: tmpFS) ∧
    sysStat userProc (tmpTestFileFS (bytesOf "test")) "/tmp/none/../test" = .error .ENOENT ∧
    (NewLocalStorage "/tmp/none/../test").Exists userProc (tmpTestFileFS (bytesOf "test"))
      "test.txt" = (true, none) := by
  decide

/-! ## Claims on the remote driver -/

/-- C2 fails on the code: `S3.Write("test.txt", "test")` against the in-memory
provider returns no error, but the body it uploads is empty, because MIME
detection has already read the four bytes from the reader that is then handed
to the uploader; the following `S3.Read("test.txt")` returns no error and a
reader with no content.  The same object is stored when the four bytes come
from a `strings.Reader`, as in the tests, instead of a `bytes.Buffer`. -/
theorem s3_round_trip_loses_content (printable : Char → Bool) (sniff : List Byte → String) :
    testS3.Write printable sniff memS3 [] "test.txt" (readerOf "test")
      = (none, [(("test-bucket", "test.txt"),
          { Body := [], ContentType := sniff (bytesOf "test") })]) ∧
    (testS3.Read printable memS3
        (testS3.Write printable sniff memS3 [] "test.txt" (readerOf "test")).2
      "test.txt").1 = (some (Reader.ofBytes []), none) ∧
    ReadAll (Reader.ofBytes []) = ([], none) ∧
    ([] : List Byte) ≠ bytesOf "test" ∧
    testS3.Write printable sniff memS3 [] "test.txt" (Reader.ofString (bytesOf "test"))
      = (none, [(("test-bucket", "test.txt"),
          { Body := [], ContentType := sniff (bytesOf "test") })]) := by
  refine ⟨rfl, rfl, rfl, by decide, rfl⟩

/-- C10: the result of `S3.Exists` is decided by the metadata probe alone.  If
`HeadObject` returns an error, `Exists` returns false and an error that wraps
it; if `HeadObject` succeeds with content length `n`, `Exists` returns
`(n > 0, nil)`: false for an object of length zero, true for any positive
length; and two clients that answer `HeadObject` alike give the same result. -/
theorem s3_exists_by_head_object {σ : Type} (s3def : S3) (printable : Char → Bool)
    (api : S3API σ) (st : σ) (key : String) :
    (∀ err st1, api.HeadObject st { Bucket := s3def.Bucket, Key := key } = (.error err, st1) →
      ∃ werr, (s3def.Exists printable api st key).1 = .returns (false, some werr) ∧
        werr.Unwrap = some err ∧ errorsIs werr err = true) ∧
    (∀ n st1, api.HeadObject st { Bucket := s3def.Bucket, Key := key }
        = (.ok { ContentLength := some n }, st1) →
      (s3def.Exists printable api st key).1 = .returns (decide (n > 0), none)) ∧
    (∀ st1, api.HeadObject st { Bucket := s3def.Bucket, Key := key }
        = (.ok { ContentLength := some 0 }, st1) →
      (s3def.Exists printable api st key).1 = .returns (false, none)) ∧
    (∀ n st1, 0 < n → api.HeadObject st { Bucket := s3def.Bucket, Key := key }
        = (.ok { ContentLength := some n }, st1) →
      (s3def.Exists printable api st key).1 = .returns (true, none)) ∧
    (∀ api2 : S3API σ, api2.HeadObject = api.HeadObject →
      s3def.Exists printable api2 st key = s3def.Exists printable api st key) := by
  refine ⟨?_, ?_, ?_, ?_, ?_⟩
  · intro err st1 h
    refine ⟨.wrapError
      ("unable to check if object " ++ strconvQuote printable key ++ " exists: " ++ err.Error) err,
      ?_, rfl, ?_⟩
    · simp [S3.Exists, h]
    · unfold errorsIs
      split_ifs with h1
      · rfl
      · unfold errorsIs
        simp
  · intro n st1 h
    simp [S3.Exists, h]
  · intro st1 h
    simp [S3.Exists, h]
  · intro n st1 hn h
    simp [S3.Exists, h, hn]
  · intro api2 h
    simp [S3.Exists, h]

/-- Witness of C10: against the in-memory provider, the object `test` of the
tests exists, an object of length zero is reported as not existing without an
error, and a missing object gives false with an error. -/
theorem s3_exists_by_head_object_witness :
    (testS3.Exists anyPrintable memS3 (memWith (bytesOf "test")) "test.txt").1 = .returns (true, none) ∧
    (testS3.Exists anyPrintable memS3 (memWith []) "test.txt").1 = .returns (false, none) ∧
    ∃ werr, (testS3.Exists anyPrintable memS3 [] "test.txt").1 = .returns (false, some werr) ∧
      werr.Unwrap = some (.aws "NotFound" "Not Found") ∧
      errorsIs werr (.aws "NotFound" "Not Found") = true :=
  ⟨(s3_exists_by_head_object testS3 anyPrintable memS3 (memWith (bytesOf "test")) "test.txt").2.2.2.1
      4 _ (by decide) rfl,
   (s3_exists_by_head_object testS3 anyPrintable memS3 (memWith []) "test.txt").2.2.1 _ rfl,
   (s3_exists_by_head_object testS3 anyPrintable memS3 [] "test.txt").1 _ _ rfl⟩

/-- The loop of `S3.List` on objects that all carry a key: the keys are
appended in order; the slice stays nil when there is nothing to append. -/
theorem keysLoop_keys (keys : List String) (acc : Option (List String)) :
    keysLoop (keys.map (fun k => { Key := some k })) acc
      = .returns (if keys = [] then acc else some (acc.getD [] ++ keys)) := by
  induction keys generalizing acc with
  | nil => simp [keysLoop]
  | cons k ks ih =>
    simp only [List.map_cons, keysLoop, ih]
    by_cases hks : ks = []
    · simp [hks]
    · simp [hks]

/-- An error built with `%w` leads back to the wrapped error. -/
theorem errorsIs_wrapError (msg : String) (err : GoError) :
    errorsIs (.wrapError msg err) err = true := by
  unfold errorsIs
  split_ifs with h1
  · rfl
  · unfold errorsIs
    simp

/-- C11: remote delete of a missing key succeeds.  `S3.Delete(k)` returns a
non-nil error exactly when the provider's `DeleteObject` call returns one, and
the one request it issues is that `DeleteObject` for bucket and key (no
existence check of its own); so against the in-memory provider, whose delete
is idempotent, `Delete(k)` for a key with no object returns nil, and
`Delete(k)` twice in a row returns nil both times. -/
theorem s3_delete_by_provider {σ : Type} (s3def : S3) (printable : Char → Bool)
    (api : S3API σ) (st : σ) (key : String) :
    ((s3def.Delete printable api st key).1 ≠ none ↔
      (api.DeleteObject st { Bucket := s3def.Bucket, Key := key }).1 ≠ none) ∧
    (∀ err, (api.DeleteObject st { Bucket := s3def.Bucket, Key := key }).1 = some err →
      ∃ werr, (s3def.Delete printable api st key).1 = some werr ∧ werr.Unwrap = some err) ∧
    (∀ log, (s3def.Delete printable (recording api) (st, log) key).2.2
      = log ++ [.deleteObject { Bucket := s3def.Bucket, Key := key }]) ∧
    (∀ mst : MemS3, memGet mst (s3def.Bucket, key) = none →
      (s3def.Delete printable memS3 mst key).1 = none) ∧
    (∀ mst : MemS3, (s3def.Delete printable memS3 mst key).1 = none ∧
      (s3def.Delete printable memS3 (s3def.Delete printable memS3 mst key).2 key).1 = none) := by
  refine ⟨?_, ?_, ?_, ?_, ?_⟩
  · unfold S3.Delete
    rcases h : api.DeleteObject st { Bucket := s3def.Bucket, Key := key } with ⟨e, st1⟩
    cases e <;> simp
  · intro err h
    unfold S3.Delete
    rcases h1 : api.DeleteObject st { Bucket := s3def.Bucket, Key := key } with ⟨e, st1⟩
    rw [h1] at h
    simp only at h
    subst h
    exact ⟨errorfKey printable "unable to delete object" key err, rfl, rfl⟩
  · intro log
    unfold S3.Delete
    rcases h : api.DeleteObject st { Bucket := s3def.Bucket, Key := key } with ⟨e, st1⟩
    cases e <;> simp [recording, h]
  · intro mst _
    rfl
  · intro mst
    exact ⟨rfl, rfl⟩

/-- Witness of C11: the test `object not found` of `TestS3_Delete`; the bucket
holds nothing, and deleting `test.txt` once or twice returns nil. -/
theorem s3_delete_by_provider_witness :
    (testS3.Delete anyPrintable memS3 [] "test.txt").1 = none ∧
    (testS3.Delete anyPrintable memS3 (testS3.Delete anyPrintable memS3 [] "test.txt").2 "test.txt").1 = none :=
  (s3_delete_by_provider testS3 anyPrintable memS3 [] "test.txt").2.2.2.2 []

/-- C12: remote prefix asymmetry.  The requests of `Read`, `Delete`, `Exists`
and the upload of `Write` carry the configured bucket and the key verbatim,
whatever the path prefix; `Write` issues no request when MIME detection
fails; only the request of `List` carries the path prefix, as its `Prefix`
field; and a store that differs only in the path prefix behaves the same in
all four point operations. -/
theorem s3_prefix_only_in_list {σ : Type} (s3def : S3) (printable : Char → Bool)
    (api : S3API σ) (st : σ) (log : List Request) (sniff : List Byte → String) (key : String)
    (value : Reader) :
    (s3def.Read printable (recording api) (st, log) key).2.2
      = log ++ [.getObject { Bucket := s3def.Bucket, Key := key }] ∧
    (s3def.Delete printable (recording api) (st, log) key).2.2
      = log ++ [.deleteObject { Bucket := s3def.Bucket, Key := key }] ∧
    (s3def.Exists printable (recording api) (st, log) key).2.2
      = log ++ [.headObject { Bucket := s3def.Bucket, Key := key }] ∧
    (s3def.Write printable sniff (recording api) (st, log) key value).2.2
      = (match MimeType sniff value with
        | ((_, some _), _) => log
        | ((mType, none), value1) =>
          log ++ [.upload ⟨s3def.Bucket, key, value1, mType⟩]) ∧
    (s3def.List (recording api) (st, log)).2.2
      = log ++ [.listObjectsV2 { Bucket := s3def.Bucket, Prefix := s3def.PathPrefix }] ∧
    (∀ other : String,
      ({ s3def with PathPrefix := other } : S3).Read printable api st key = s3def.Read printable api st key ∧
      ({ s3def with PathPrefix := other } : S3).Write printable sniff api st key value
        = s3def.Write printable sniff api st key value ∧
      ({ s3def with PathPrefix := other } : S3).Delete printable api st key = s3def.Delete printable api st key ∧
      ({ s3def with PathPrefix := other } : S3).Exists printable api st key
        = s3def.Exists printable api st key) := by
  refine ⟨?_, ?_, ?_, ?_, ?_, ?_⟩
  · unfold S3.Read
    rcases h : api.GetObject st { Bucket := s3def.Bucket, Key := key } with ⟨res, st1⟩
    cases res with
    | error e => simp [recording, h]
    | ok out =>
      rcases hra : ReadAll out.Body with ⟨bts, rerr⟩
      cases rerr <;> simp [recording, h, hra]
  · unfold S3.Delete
    rcases h : api.DeleteObject st { Bucket := s3def.Bucket, Key := key } with ⟨e, st1⟩
    cases e <;> simp [recording, h]
  · unfold S3.Exists
    rcases h : api.HeadObject st { Bucket := s3def.Bucket, Key := key } with ⟨res, st1⟩
    cases res with
    | error e => simp [recording, h]
    | ok ho =>
      cases hl : ho.ContentLength <;> simp [recording, h, hl]
  · unfold S3.Write
    rcases hm : MimeType sniff value with ⟨⟨mType, merr⟩, value1⟩
    cases merr with
    | some e => simp
    | none =>
      simp only
      rcases hu : api.Upload st ⟨s3def.Bucket, key, value1, mType⟩ with ⟨e, st1⟩
      cases e <;> simp [recording, hu]
  · unfold S3.List
    rcases h : api.ListObjectsV2 st
      { Bucket := s3def.Bucket, Prefix := s3def.PathPrefix } with ⟨res, st1⟩
    cases res with
    | error e => simp [recording, h]
    | ok loo =>
      cases hk : keysLoop loo.Contents none <;> simp [recording, h, hk]
  · intro other
    exact ⟨rfl, rfl, rfl, rfl⟩

/-- Witness of C12: a store with the path prefix `backup/` asks for `test.txt`
itself in its point requests and sends the prefix only when listing. -/
theorem s3_prefix_only_in_list_witness :
    (prefixedS3.Read anyPrintable (recording memS3) ([], []) "test.txt").2.2
      = [.getObject { Bucket := "test-bucket", Key := "test.txt" }] ∧
    (prefixedS3.List (recording memS3) ([], [])).2.2
      = [.listObjectsV2 { Bucket := "test-bucket", Prefix := "backup/" }] :=
  ⟨(s3_prefix_only_in_list prefixedS3 anyPrintable memS3 [] [] (fun _ => "") "test.txt"
      (readerOf "test")).1,
   (s3_prefix_only_in_list prefixedS3 anyPrintable memS3 [] [] (fun _ => "") "test.txt"
      (readerOf "test")).2.2.2.2.1⟩

/-- C13: `S3.List` issues exactly one list request, for bucket and prefix, and
returns exactly the keys of the objects of that one response, in the
response's order, whatever the response says about truncation or
continuation; a response with no objects yields the empty (nil) slice with a
nil error, and a failed request yields no keys and an error wrapping the
failure. -/
theorem s3_list_single_page {σ : Type} (s3def : S3) (api : S3API σ) (st : σ) :
    (∀ log, (s3def.List (recording api) (st, log)).2.2
      = log ++ [.listObjectsV2 { Bucket := s3def.Bucket, Prefix := s3def.PathPrefix }]) ∧
    (∀ (keys : List String) (truncated : Option Bool) (token : Option String) (st1 : σ),
      api.ListObjectsV2 st { Bucket := s3def.Bucket, Prefix := s3def.PathPrefix }
        = (.ok ⟨keys.map (fun k => { Key := some k }), truncated, token⟩, st1) →
      ∃ ks, (s3def.List api st).1 = .returns (ks, none) ∧ ks.getD [] = keys ∧
        (keys = [] → ks = none)) ∧
    (∀ (truncated : Option Bool) (token : Option String) (st1 : σ),
      api.ListObjectsV2 st { Bucket := s3def.Bucket, Prefix := s3def.PathPrefix }
        = (.ok ⟨[], truncated, token⟩, st1) →
      (s3def.List api st).1 = .returns (none, none)) ∧
    (∀ err st1,
      api.ListObjectsV2 st { Bucket := s3def.Bucket, Prefix := s3def.PathPrefix }
        = (.error err, st1) →
      ∃ werr, (s3def.List api st).1 = .returns (none, some werr) ∧
        werr.Unwrap = some err) := by
  refine ⟨?_, ?_, ?_, ?_⟩
  · intro log
    unfold S3.List
    rcases h : api.ListObjectsV2 st
      { Bucket := s3def.Bucket, Prefix := s3def.PathPrefix } with ⟨res, st1⟩
    cases res with
    | error e => simp [recording, h]
    | ok loo =>
      cases hk : keysLoop loo.Contents none <;> simp [recording, h, hk]
  · intro keys truncated token st1 h
    refine ⟨if keys = [] then none else some keys, ?_, ?_, ?_⟩
    · simp [S3.List, h, keysLoop_keys]
    · by_cases hk : keys = [] <;> simp [hk]
    · intro hk; simp [hk]
  · intro truncated token st1 h
    simp [S3.List, h, keysLoop]
  · intro err st1 h
    exact ⟨.wrapError ("unable to list objects: " ++ err.Error) err,
      by simp [S3.List, h], rfl⟩

/-- Witness of C13: the tests `object found` and `object not found` of
`TestS3_List`, and a provider that refuses the request. -/
theorem s3_list_single_page_witness :
    (testS3.List memS3 (memWith (bytesOf "test"))).1 = .returns (some ["test.txt"], none) ∧
    (testS3.List memS3 []).1 = .returns (none, none) ∧
    (∃ werr, (testS3.List deniedS3 ()).1 = .returns (none, some werr) ∧
      werr.Unwrap = some errDenied) ∧
    (testS3.List (recording memS3) ([], [])).2.2
      = [.listObjectsV2 { Bucket := "test-bucket", Prefix := "" }] :=
  ⟨by decide,
   (s3_list_single_page testS3 memS3 []).2.2.1 (some false) none [] rfl,
   (s3_list_single_page testS3 deniedS3 ()).2.2.2 errDenied () rfl,
   (s3_list_single_page testS3 memS3 []).1 []⟩

/-- C19 fails on the code: when a successful metadata probe reports no content
length, `S3.Exists` dereferences the nil pointer and panics, and when a listed
object carries no key, `S3.List` does the same. -/
theorem s3_nil_fields_panic :
    (testS3.Exists anyPrintable bareS3 () "test.txt").1
      = .panics "invalid memory address or nil pointer dereference" ∧
    (testS3.List bareS3 ()).1
      = .panics "invalid memory address or nil pointer dereference" := by
  decide

/-- C20: remote write fails closed on detection failure.  If MIME detection of
the stream returns an error, `S3.Write` returns an error wrapping it, issues no
request and leaves the provider state as it was.  If detection succeeds,
exactly one upload is issued, for the bucket and key with the detected type as
content type, and `Write` returns an error exactly when that upload does. -/
theorem s3_write_fails_closed {σ : Type} (s3def : S3) (printable : Char → Bool)
    (sniff : List Byte → String) (api : S3API σ) (st : σ) (key : String) (value : Reader) :
    (∀ e, (DetectReader sniff value).1.2 = some e →
      ∃ err, s3def.Write printable sniff api st key value = (some err, st) ∧ err.Unwrap = some e ∧
        ∀ log, (s3def.Write printable sniff (recording api) (st, log) key value).2 = (st, log)) ∧
    (∀ mType, (DetectReader sniff value).1 = (some mType, none) →
      (∀ log, (s3def.Write printable sniff (recording api) (st, log) key value).2.2
        = log ++ [.upload ⟨s3def.Bucket, key, (DetectReader sniff value).2, mType⟩]) ∧
      ((s3def.Write printable sniff api st key value).1 ≠ none ↔
        (api.Upload st ⟨s3def.Bucket, key, (DetectReader sniff value).2, mType⟩).1 ≠ none) ∧
      (s3def.Write printable sniff api st key value).2
        = (api.Upload st ⟨s3def.Bucket, key, (DetectReader sniff value).2, mType⟩).2) := by
  rcases hd : DetectReader sniff value with ⟨⟨m, derr⟩, r1⟩
  constructor
  · intro e he
    simp only at he
    subst he
    refine ⟨.wrapError ("unable to detect MimeType: " ++ e.Error) e, ?_, rfl, ?_⟩
    · simp [S3.Write, MimeType, hd]
    · intro log
      simp [S3.Write, MimeType, hd]
  · intro mType hm
    simp only [Prod.mk.injEq] at hm
    obtain ⟨h1, h2⟩ := hm
    subst h1
    subst h2
    have hmt : MimeType sniff value = ((mType, none), r1) := by simp [MimeType, hd]
    refine ⟨?_, ?_, ?_⟩
    · intro log
      unfold S3.Write
      rw [hmt]
      simp only
      rcases hu : api.Upload st ⟨s3def.Bucket, key, r1, mType⟩ with ⟨e, st1⟩
      cases e <;> simp [recording, hu]
    · unfold S3.Write
      rw [hmt]
      simp only
      rcases hu : api.Upload st ⟨s3def.Bucket, key, r1, mType⟩ with ⟨e, st1⟩
      cases e <;> simp
    · unfold S3.Write
      rw [hmt]
      simp only
      rcases hu : api.Upload st ⟨s3def.Bucket, key, r1, mType⟩ with ⟨e, st1⟩
      cases e <;> simp

/-- Witness of C20: a stream whose first read fails is refused before any
request, so is a stream that fails after two bytes, and a good stream leads to
exactly one upload. -/
theorem s3_write_fails_closed_witness :
    (∃ err, testS3.Write anyPrintable (fun _ => "text/plain") memS3 [] "test.txt" failingReader
        = (some err, []) ∧ err.Unwrap = some (.plain "boom")) ∧
    (∃ err, testS3.Write anyPrintable (fun _ => "text/plain") memS3 [] "test.txt" brokenReader
        = (some err, []) ∧ err.Unwrap = some (.plain "boom") ∧
      (testS3.Write anyPrintable (fun _ => "text/plain") (recording memS3) ([], [])
        "test.txt" brokenReader).2 = ([], [])) ∧
    (testS3.Write anyPrintable (fun _ => "text/plain") (recording memS3) ([], []) "test.txt"
        (readerOf "test")).2.2
      = [.upload ⟨"test-bucket", "test.txt", Reader.ofBytes [], "text/plain"⟩] :=
  ⟨((s3_write_fails_closed testS3 anyPrintable (fun _ => "text/plain") memS3 [] "test.txt"
      failingReader).1 (.plain "boom") (by decide)).imp (fun _ h => ⟨h.1, h.2.1⟩),
   ((s3_write_fails_closed testS3 anyPrintable (fun _ => "text/plain") memS3 [] "test.txt"
      brokenReader).1 (.plain "boom") (by decide)).imp (fun _ h => ⟨h.1, h.2.1, h.2.2 []⟩),
   ((s3_write_fails_closed testS3 anyPrintable (fun _ => "text/plain") memS3 [] "test.txt"
      (readerOf "test")).2 "text/plain" (by decide)).1 []⟩

/-! ## Claims on the permission mode -/

/-- C14: permission mode selection.  `filePermissions` returns `0644` when
`Permissions` is unset, and for a set value `p` the file mode `p` itself (the
conversion `fs.FileMode(p)`, which keeps the 32 low bits and so is `p` for
every `p` from `0` up to `2^32 - 1`): zero gives mode zero, not the default;
`0755` gives `0755` and `0555` gives `0555`. -/
theorem local_file_permissions (path : String) :
    ({ Path := path, Permissions := none } : LocalStorage).filePermissions = 0o644 ∧
    (∀ p : Int, (({ Path := path, Permissions := some p } : LocalStorage).filePermissions : Int)
      = p % 2 ^ 32) ∧
    (∀ p : Int, 0 ≤ p → p < 2 ^ 32 →
      (({ Path := path, Permissions := some p } : LocalStorage).filePermissions : Int) = p) ∧
    ({ Path := path, Permissions := some 0 } : LocalStorage).filePermissions = 0 ∧
    ({ Path := path, Permissions := some 0 } : LocalStorage).filePermissions ≠ 0o644 ∧
    ({ Path := path, Permissions := some 0o755 } : LocalStorage).filePermissions = 0o755 ∧
    ({ Path := path, Permissions := some 0o555 } : LocalStorage).filePermissions = 0o555 := by
  have hmode : ∀ p : Int,
      ({ Path := path, Permissions := some p } : LocalStorage).filePermissions
        = (p % 2 ^ 32).toNat := fun _ => rfl
  refine ⟨rfl, ?_, ?_, ?_, ?_, ?_, ?_⟩
  rotate_left 2
  · rw [hmode]; decide
  · rw [hmode]; decide
  · rw [hmode]; decide
  · rw [hmode]; decide
  · intro p
    simp only [LocalStorage.filePermissions]
    exact Int.toNat_of_nonneg (Int.emod_nonneg p (by norm_num))
  · intro p h0 h1
    simp only [LocalStorage.filePermissions]
    rw [Int.toNat_of_nonneg (Int.emod_nonneg p (by norm_num))]
    exact Int.emod_eq_of_lt h0 h1

/-! ## Lemmas on `path.Clean` -/

/-- The loop of `path.Clean` is the iteration of `cleanStep`. -/
theorem cleanLoop_succ (rooted : Bool) (fuel : Nat) (c : Char) (cs out : List Char)
    (dotdot : Nat) :
    cleanLoop rooted (fuel + 1) (c :: cs) out dotdot
      = cleanLoop rooted fuel (cleanStep rooted c cs out dotdot).1
          (cleanStep rooted c cs out dotdot).2.1 (cleanStep rooted c cs out dotdot).2.2 := by
  by_cases h1 : c = '/'
  · simp [cleanLoop, cleanStep, h1]
  · by_cases h2 : c = '.' ∧ (cs = [] ∨ cs.head? = some '/')
    · simp only [cleanLoop, cleanStep, if_neg h1, if_pos h2]
    · by_cases h3 : c = '.' ∧ cs.head? = some '.' ∧ (cs.tail = [] ∨ cs.tail.head? = some '/')
      · simp only [cleanLoop, cleanStep, if_neg h1, if_neg h2, if_pos h3, dotdotStep]
        split_ifs <;> rfl
      · simp only [cleanLoop, cleanStep, if_neg h1, if_neg h2, if_neg h3, sepFor]
        split_ifs <;> simp

theorem cleanLoop_nil (rooted : Bool) (fuel : Nat) (out : List Char) (dotdot : Nat) :
    cleanLoop rooted fuel [] out dotdot = out := by
  cases fuel <;> rfl

/-- An iteration consumes at least the character it looks at. -/
theorem cleanStep_length (rooted : Bool) (c : Char) (cs out : List Char) (dotdot : Nat) :
    (cleanStep rooted c cs out dotdot).1.length ≤ cs.length := by
  by_cases h1 : c = '/'
  · simp [cleanStep, h1]
  · by_cases h2 : c = '.' ∧ (cs = [] ∨ cs.head? = some '/')
    · simp only [cleanStep, if_neg h1, if_pos h2]
      exact le_refl _
    · by_cases h3 : c = '.' ∧ cs.head? = some '.' ∧ (cs.tail = [] ∨ cs.tail.head? = some '/')
      · simp only [cleanStep, if_neg h1, if_neg h2, if_pos h3]
        simp
      · simp only [cleanStep, if_neg h1, if_neg h2, if_neg h3]
        have hc : (c :: cs).dropWhile (· ≠ '/') = cs.dropWhile (· ≠ '/') := by
          simp [List.dropWhile, h1]
        rw [hc]
        exact (List.dropWhile_sublist _).length_le

/-- The fuel does not matter once it covers the input. -/
theorem cleanLoop_fuel (rooted : Bool) :
    ∀ (fuel : Nat) (rest out : List Char) (dotdot : Nat), rest.length ≤ fuel →
      cleanLoop rooted fuel rest out dotdot = cleanLoop rooted rest.length rest out dotdot := by
  intro fuel
  induction fuel using Nat.strong_induction_on with
  | _ fuel ih =>
    intro rest out dotdot hlen
    cases rest with
    | nil => rw [cleanLoop_nil, cleanLoop_nil]
    | cons c cs =>
      cases fuel with
      | zero => simp at hlen
      | succ f =>
        have hcs : cs.length ≤ f := by simpa using hlen
        have hstep := cleanStep_length rooted c cs out dotdot
        rw [List.length_cons, cleanLoop_succ, cleanLoop_succ]
        rw [ih f (Nat.lt_succ_self f) _ _ _ (le_trans hstep hcs)]
        rw [ih cs.length (Nat.lt_succ_of_le hcs) _ _ _ hstep]

/-- Up to the next slash: a stretch without a slash, followed by a slash or by
the end, is what `takeWhile` takes. -/
theorem takeWhile_segment (seg tail : List Char) (hseg : '/' ∉ seg)
    (htail : tail = [] ∨ tail.head? = some '/') :
    (seg ++ tail).takeWhile (· ≠ '/') = seg ∧ (seg ++ tail).dropWhile (· ≠ '/') = tail := by
  induction seg with
  | nil =>
    rcases htail with h | h
    · subst h; simp
    · cases tail with
      | nil => simp
      | cons t ts =>
        simp only [List.head?_cons, Option.some.injEq] at h
        subst h
        simp [List.takeWhile, List.dropWhile]
  | cons x xs ih =>
    have hx : x ≠ '/' := fun h => hseg (h ▸ List.mem_cons_self _ _)
    have hxs : '/' ∉ xs := fun h => hseg (List.mem_cons_of_mem _ h)
    obtain ⟨h1, h2⟩ := ih hxs
    have hp : decide (x ≠ '/') = true := decide_eq_true hx
    constructor
    · rw [List.cons_append, List.takeWhile_cons]
      simp only [hp, if_true, h1]
    · rw [List.cons_append, List.dropWhile_cons]
      simp only [hp, if_true, h2]

/-- One iteration on an ordinary segment copies the segment, after a slash
where one is due. -/
theorem cleanStep_ordinary (rooted : Bool) (c : Char) (cs tail out : List Char) (dotdot : Nat)
    (hseg : ordinarySegment (c :: cs)) (htail : tail = [] ∨ tail.head? = some '/') :
    cleanStep rooted c (cs ++ tail) out dotdot
      = (tail, out ++ sepFor rooted out ++ (c :: cs), dotdot) := by
  obtain ⟨_, hslash, hdot, hdotdot⟩ := hseg
  have h1 : c ≠ '/' := fun h => hslash (h ▸ List.mem_cons_self _ _)
  have hcs : '/' ∉ cs := fun h => hslash (List.mem_cons_of_mem _ h)
  have h2 : ¬ (c = '.' ∧ (cs ++ tail = [] ∨ (cs ++ tail).head? = some '/')) := by
    rintro ⟨hc, h⟩
    cases cs with
    | nil => exact hdot (by rw [hc])
    | cons x xs =>
      have hx : x ≠ '/' := fun h => hcs (h ▸ List.mem_cons_self _ _)
      rcases h with h | h
      · simp at h
      · simp only [List.cons_append, List.head?_cons, Option.some.injEq] at h
        exact hx h
  have h3 : ¬ (c = '.' ∧ (cs ++ tail).head? = some '.' ∧
      ((cs ++ tail).tail = [] ∨ (cs ++ tail).tail.head? = some '/')) := by
    rintro ⟨hc, hh, ht⟩
    cases cs with
    | nil =>
      rcases htail with h | h
      · subst h; simp at hh
      · simp only [List.nil_append] at hh
        rw [h] at hh
        simp at hh
    | cons x xs =>
      simp only [List.cons_append, List.head?_cons, Option.some.injEq] at hh
      cases xs with
      | nil => exact hdotdot (by rw [hc, hh])
      | cons y ys =>
        have hy : y ≠ '/' := fun h =>
          hcs (h ▸ List.mem_cons_of_mem _ (List.mem_cons_self _ _))
        rcases ht with h | h
        · simp at h
        · simp only [List.cons_append, List.tail_cons, List.head?_cons,
            Option.some.injEq] at h
          exact hy h
  have htd := takeWhile_segment (c :: cs) tail hslash htail
  simp only [List.cons_append] at htd
  simp only [cleanStep, if_neg h1, if_neg h2, if_neg h3, htd.1, htd.2]

/-- After an ordinary segment is written the next element gets a slash. -/
theorem sepFor_after_segment (rooted : Bool) (out seg : List Char) (hseg : seg ≠ []) :
    sepFor rooted (out ++ sepFor rooted out ++ seg) = ['/'] := by
  have hlen : 0 < seg.length := List.length_pos.2 hseg
  cases rooted with
  | false =>
    have hne : (out ++ sepFor false out ++ seg).length ≠ 0 := by
      simp only [List.length_append]; omega
    unfold sepFor
    rw [if_pos (Or.inr ⟨by simp, hne⟩)]
  | true =>
    have hne : (out ++ sepFor true out ++ seg).length ≠ 1 := by
      by_cases h1 : out.length = 1
      · have hs : sepFor true out = [] := by simp [sepFor, h1]
        rw [hs]
        simp only [List.length_append, List.length_nil]
        omega
      · have hs : sepFor true out = ['/'] := by simp [sepFor, h1]
        rw [hs]
        simp only [List.length_append, List.length_cons, List.length_nil]
        omega
    unfold sepFor
    rw [if_pos (Or.inl ⟨rfl, hne⟩)]

/-- The loop of `path.Clean` copies a path made of ordinary segments. -/
theorem cleanLoop_segments (rooted : Bool) :
    ∀ (segs : List (List Char)), segs ≠ [] → (∀ seg ∈ segs, ordinarySegment seg) →
      ∀ (out : List Char) (dotdot : Nat),
        cleanLoop rooted (joinSlash segs).length (joinSlash segs) out dotdot
          = out ++ sepFor rooted out ++ joinSlash segs := by
  intro segs
  induction segs with
  | nil => intro h; exact absurd rfl h
  | cons seg rest ih =>
    intro _ hall out dotdot
    have hseg : ordinarySegment seg := hall seg (List.mem_cons_self _ _)
    cases seg with
    | nil => exact absurd rfl hseg.1
    | cons c cs =>
      cases rest with
      | nil =>
        have hstep := cleanStep_ordinary rooted c cs [] out dotdot hseg (Or.inl rfl)
        simp only [List.append_nil] at hstep
        simp only [joinSlash, List.length_cons]
        rw [cleanLoop_succ, hstep]
        exact cleanLoop_nil _ _ _ _
      | cons seg2 rest2 =>
        have hrest : ∀ s ∈ seg2 :: rest2, ordinarySegment s :=
          fun s hs => hall s (List.mem_cons_of_mem _ hs)
        have hj : joinSlash ((c :: cs) :: seg2 :: rest2)
            = c :: (cs ++ '/' :: joinSlash (seg2 :: rest2)) := by
          simp [joinSlash]
        have hstep := cleanStep_ordinary rooted c cs ('/' :: joinSlash (seg2 :: rest2)) out
          dotdot hseg (Or.inr rfl)
        rw [hj, List.length_cons, cleanLoop_succ, hstep]
        simp only
        rw [cleanLoop_fuel rooted _ _ _ _ (by simp)]
        rw [List.length_cons, cleanLoop_succ]
        have hslash : cleanStep rooted '/' (joinSlash (seg2 :: rest2))
            (out ++ sepFor rooted out ++ (c :: cs)) dotdot
            = (joinSlash (seg2 :: rest2), out ++ sepFor rooted out ++ (c :: cs), dotdot) := by
          simp [cleanStep]
        rw [hslash]
        simp only
        rw [ih (by simp) hrest, sepFor_after_segment rooted out (c :: cs) (by simp)]
        simp

theorem joinSlash_cons_cons (seg seg2 : List Char) (rest : List (List Char)) :
    joinSlash (seg :: seg2 :: rest) = seg ++ '/' :: joinSlash (seg2 :: rest) := rfl

/-- Joining what `splitSlash` split gives the path back. -/
theorem joinSlash_splitSlash (a : List Char) : joinSlash (splitSlash a) = a := by
  induction a with
  | nil => rfl
  | cons c cs ih =>
    cases hs : splitSlash cs with
    | nil => exact absurd hs (splitSlash_ne_nil cs)
    | cons seg segs =>
      rw [hs] at ih
      by_cases hc : c = '/'
      · subst hc
        have : splitSlash ('/' :: cs) = [] :: seg :: segs := by simp [splitSlash, hs]
        rw [this, joinSlash_cons_cons, ih]
        rfl
      · have : splitSlash (c :: cs) = (c :: seg) :: segs := by simp [splitSlash, hc, hs]
        rw [this]
        cases segs with
        | nil =>
          have h1 : joinSlash [seg] = seg := rfl
          rw [h1] at ih
          show c :: seg = c :: cs
          rw [ih]
        | cons seg2 rest =>
          rw [joinSlash_cons_cons] at ih ⊢
          rw [List.cons_append, ih]

theorem joinSlash_append (segs segs2 : List (List Char)) (h1 : segs ≠ []) (h2 : segs2 ≠ []) :
    joinSlash (segs ++ segs2) = joinSlash segs ++ '/' :: joinSlash segs2 := by
  induction segs with
  | nil => exact absurd rfl h1
  | cons seg rest ih =>
    cases rest with
    | nil =>
      cases segs2 with
      | nil => exact absurd rfl h2
      | cons s2 r2 => rfl
    | cons seg2 rest2 =>
      rw [List.cons_append, List.cons_append, joinSlash_cons_cons, joinSlash_cons_cons,
        ← List.cons_append, ih (by simp)]
      simp

/-- The path `path.Join(root, key)` cleans, for a root that is not empty. -/
theorem Join_root_key (root key : String) (hroot : root ≠ "") :
    Join [root, key] = Clean ⟨root.data ++ '/' :: key.data⟩ := by
  have hd : root.data ≠ [] := fun h => hroot (String.ext h)
  have hlen : 0 < root.data.length := List.length_pos.2 hd
  have hl : 0 < root.length := hlen
  have hsum : ([root, key].map String.length).sum ≠ 0 := by
    simp only [List.map_cons, List.map_nil, List.sum_cons, List.sum_nil]
    omega
  unfold Join
  rw [if_neg hsum]
  have hbuf : joinBuf [] [root, key] = root.data ++ '/' :: key.data := by
    simp only [joinBuf, List.length_nil, List.nil_append]
    rw [if_pos (Or.inr hroot)]
    simp only [lt_irrefl, if_false, List.nil_append]
    have hlen1 : root.data.length > 0 := hlen
    rw [if_pos (Or.inl hlen1), if_pos hlen1]
    simp
  rw [hbuf]

/-- With an empty root `path.Join` cleans the key alone. -/
theorem Join_empty_root (key : String) (hkey : key ≠ "") :
    Join ["", key] = Clean key := by
  have hd : key.data ≠ [] := fun h => hkey (String.ext h)
  have hl : 0 < key.length := List.length_pos.2 hd
  have hsum : (["", key].map String.length).sum ≠ 0 := by
    simp only [List.map_cons, List.map_nil, List.sum_cons, List.sum_nil]
    omega
  unfold Join
  rw [if_neg hsum]
  have hbuf : joinBuf [] ["", key] = key.data := by
    simp [joinBuf, hkey]
  rw [hbuf]

/-- A safe key is not empty and starts with a character that is not a slash. -/
theorem safeKey_head (key : String) (hk : safeKey key) :
    ∃ c cs, key.data = c :: cs ∧ c ≠ '/' ∧ (splitSlash key.data).head? ≠ some ['.', '.'] := by
  cases hkd : key.data with
  | nil =>
    have := hk [] (by rw [hkd]; simp [splitSlash])
    exact absurd rfl this.1
  | cons c cs =>
    have hne : c ≠ '/' := by
      intro hc
      have := hk [] (by rw [hkd, hc]; simp [splitSlash])
      exact absurd rfl this.1
    refine ⟨c, cs, rfl, hne, ?_⟩
    intro h
    cases hs : splitSlash (c :: cs) with
    | nil => exact absurd hs (splitSlash_ne_nil _)
    | cons seg segs =>
      rw [hs] at h
      simp only [List.head?_cons, Option.some.injEq] at h
      have := hk seg (by rw [hkd, hs]; exact List.mem_cons_self _ _)
      exact this.2.2.2 h

/-- Cleaning a safe key after any state of the loop appends the key. -/
theorem cleanLoop_safeKey (rooted : Bool) (key : String) (hk : safeKey key)
    (out : List Char) (dotdot : Nat) :
    cleanLoop rooted key.data.length key.data out dotdot
      = out ++ sepFor rooted out ++ key.data := by
  have h := cleanLoop_segments rooted (splitSlash key.data) (splitSlash_ne_nil _) hk out dotdot
  rw [joinSlash_splitSlash] at h
  exact h

/-- A slash stops `takeWhile` and `dropWhile`, whatever follows it. -/
theorem takeWhile_before_slash (l b : List Char) :
    (l ++ '/' :: b).takeWhile (· ≠ '/') = l.takeWhile (· ≠ '/') ∧
      (l ++ '/' :: b).dropWhile (· ≠ '/') = l.dropWhile (· ≠ '/') ++ '/' :: b := by
  induction l with
  | nil => simp [List.takeWhile, List.dropWhile]
  | cons x xs ih =>
    by_cases hx : x = '/'
    · subst hx
      simp [List.takeWhile, List.dropWhile]
    · have hp : decide (x ≠ '/') = true := decide_eq_true hx
      constructor
      · rw [List.cons_append, List.takeWhile_cons, List.takeWhile_cons]
        simp only [hp, if_true, ih.1]
      · rw [List.cons_append, List.dropWhile_cons, List.dropWhile_cons]
        simp only [hp, if_true, ih.2]

/-- An iteration looks no further than the next slash: what follows a slash
after the part it handles is handed on untouched. -/
theorem cleanStep_local (rooted : Bool) (c : Char) (cs b out : List Char) (dotdot : Nat) :
    cleanStep rooted c (cs ++ '/' :: b) out dotdot
      = ((cleanStep rooted c cs out dotdot).1 ++ '/' :: b,
          (cleanStep rooted c cs out dotdot).2) := by
  have e2 : (cs ++ '/' :: b = [] ∨ (cs ++ '/' :: b).head? = some '/') ↔
      (cs = [] ∨ cs.head? = some '/') := by
    cases cs <;> simp
  have e3 : ((cs ++ '/' :: b).head? = some '.' ∧
        ((cs ++ '/' :: b).tail = [] ∨ (cs ++ '/' :: b).tail.head? = some '/')) ↔
      (cs.head? = some '.' ∧ (cs.tail = [] ∨ cs.tail.head? = some '/')) := by
    cases cs with
    | nil => simp
    | cons x xs => cases xs <;> simp
  by_cases h1 : c = '/'
  · simp [cleanStep, h1]
  · by_cases h2 : c = '.' ∧ (cs = [] ∨ cs.head? = some '/')
    · have h2b : c = '.' ∧ (cs ++ '/' :: b = [] ∨ (cs ++ '/' :: b).head? = some '/') :=
        ⟨h2.1, e2.2 h2.2⟩
      simp only [cleanStep, if_neg h1, if_pos h2, if_pos h2b]
    · have h2b : ¬ (c = '.' ∧ (cs ++ '/' :: b = [] ∨ (cs ++ '/' :: b).head? = some '/')) :=
        fun h => h2 ⟨h.1, e2.1 h.2⟩
      by_cases h3 : c = '.' ∧ cs.head? = some '.' ∧ (cs.tail = [] ∨ cs.tail.head? = some '/')
      · have h3b : c = '.' ∧ (cs ++ '/' :: b).head? = some '.' ∧
            ((cs ++ '/' :: b).tail = [] ∨ (cs ++ '/' :: b).tail.head? = some '/') :=
          ⟨h3.1, e3.2 h3.2⟩
        have htail : (cs ++ '/' :: b).tail = cs.tail ++ '/' :: b := by
          cases cs with
          | nil => simp at h3
          | cons x xs => rfl
        simp only [cleanStep, if_neg h1, if_neg h2, if_pos h3, if_neg h2b, if_pos h3b]
        rw [htail]
      · have h3b : ¬ (c = '.' ∧ (cs ++ '/' :: b).head? = some '.' ∧
            ((cs ++ '/' :: b).tail = [] ∨ (cs ++ '/' :: b).tail.head? = some '/')) :=
          fun h => h3 ⟨h.1, e3.1 h.2⟩
        have htd := takeWhile_before_slash (c :: cs) b
        simp only [List.cons_append] at htd
        simp only [cleanStep, if_neg h1, if_neg h2, if_neg h3, if_neg h2b, if_neg h3b,
          htd.1, htd.2]

/-- The backtracking of the `..` case stops at `dotdot`. -/
theorem backtrackIdx_ge (buf : List Char) (dotdot : Nat) :
    ∀ w, dotdot ≤ w → dotdot ≤ backtrackIdx buf dotdot w := by
  intro w
  induction w with
  | zero => intro h; simpa [backtrackIdx] using h
  | succ w ih =>
    intro h
    unfold backtrackIdx
    split_ifs with hc
    · exact ih (Nat.lt_succ_iff.1 hc.1)
    · exact h

/-- In an absolute path the output buffer always starts with the slash and
`dotdot` stays at one: an iteration keeps it so. -/
theorem cleanStep_rooted (c : Char) (cs out : List Char) (dotdot : Nat)
    (hinv : dotdot = 1 ∧ out.head? = some '/') :
    (cleanStep true c cs out dotdot).2.2 = 1 ∧
      (cleanStep true c cs out dotdot).2.1.head? = some '/' := by
  obtain ⟨hdd, hhead⟩ := hinv
  cases out with
  | nil => simp at hhead
  | cons o os =>
    simp only [List.head?_cons, Option.some.injEq] at hhead
    subst hhead
    by_cases h1 : c = '/'
    · simp [cleanStep, h1, hdd]
    · by_cases h2 : c = '.' ∧ (cs = [] ∨ cs.head? = some '/')
      · simp only [cleanStep, if_neg h1, if_pos h2]
        exact ⟨hdd, rfl⟩
      · by_cases h3 : c = '.' ∧ cs.head? = some '.' ∧
            (cs.tail = [] ∨ cs.tail.head? = some '/')
        · simp only [cleanStep, if_neg h1, if_neg h2, if_pos h3, dotdotStep]
          by_cases hl : ('/' :: os).length > dotdot
          · rw [if_pos hl]
            refine ⟨hdd, ?_⟩
            have hge : dotdot ≤ ('/' :: os).length - 1 := by omega
            have hidx := backtrackIdx_ge ('/' :: os) dotdot _ hge
            rw [hdd] at hidx
            unfold backtrack
            cases hb : backtrackIdx ('/' :: os) dotdot (('/' :: os).length - 1) with
            | zero => rw [hdd] at hb; rw [hb] at hidx; omega
            | succ k => rfl
          · rw [if_neg hl]
            exact ⟨hdd, rfl⟩
        · simp only [cleanStep, if_neg h1, if_neg h2, if_neg h3]
          exact ⟨hdd, rfl⟩

/-- The loop handles the part of a path before a slash without regard to what
follows the slash: it reaches a state that depends on that part alone, from
which it goes on with the rest; alone, the part is cleaned to the output
buffer of that state.  In an absolute path the buffer keeps its leading slash. -/
theorem cleanLoop_prefix (rooted : Bool) :
    ∀ (n : Nat) (a : List Char), a.length ≤ n → ∀ (out : List Char) (dotdot : Nat),
      (rooted = true → dotdot = 1 ∧ out.head? = some '/') →
      ∃ out1 dotdot1, (rooted = true → dotdot1 = 1 ∧ out1.head? = some '/') ∧
        (∀ b, cleanLoop rooted (a ++ '/' :: b).length (a ++ '/' :: b) out dotdot
          = cleanLoop rooted b.length b out1 dotdot1) ∧
        cleanLoop rooted a.length a out dotdot = out1 := by
  intro n
  induction n with
  | zero =>
    intro a ha out dotdot hinv
    have : a = [] := List.length_eq_zero.1 (Nat.le_zero.1 ha)
    subst this
    refine ⟨out, dotdot, hinv, ?_, cleanLoop_nil _ _ _ _⟩
    intro b
    rw [List.nil_append, List.length_cons, cleanLoop_succ]
    simp [cleanStep]
  | succ n ih =>
    intro a ha out dotdot hinv
    cases a with
    | nil =>
      refine ⟨out, dotdot, hinv, ?_, cleanLoop_nil _ _ _ _⟩
      intro b
      rw [List.nil_append, List.length_cons, cleanLoop_succ]
      simp [cleanStep]
    | cons c cs =>
      have hcs : cs.length ≤ n := by simpa using ha
      have hlen := cleanStep_length rooted c cs out dotdot
      have hinv1 : rooted = true → (cleanStep rooted c cs out dotdot).2.2 = 1 ∧
          (cleanStep rooted c cs out dotdot).2.1.head? = some '/' := by
        intro hr
        subst hr
        exact cleanStep_rooted c cs out dotdot (hinv rfl)
      obtain ⟨out1, dotdot1, hi, hfirst, hsecond⟩ :=
        ih (cleanStep rooted c cs out dotdot).1 (le_trans hlen hcs) _ _ hinv1
      refine ⟨out1, dotdot1, hi, ?_, ?_⟩
      · intro b
        rw [List.cons_append, List.length_cons, cleanLoop_succ, cleanStep_local]
        simp only
        rw [cleanLoop_fuel rooted _ _ _ _ (by
          simp only [List.length_append, List.length_cons]; omega)]
        exact hfirst b
      · rw [List.length_cons, cleanLoop_succ, cleanLoop_fuel rooted _ _ _ _ hlen]
        exact hsecond

theorem cleanChars_abs (cs : List Char) :
    cleanChars ('/' :: cs)
      = if (cleanLoop true cs.length cs ['/'] 1).length = 0 then ['.']
        else cleanLoop true cs.length cs ['/'] 1 := by
  simp [cleanChars]

theorem cleanChars_rel (c : Char) (cs : List Char) (hc : c ≠ '/') :
    cleanChars (c :: cs)
      = if (cleanLoop false (c :: cs).length (c :: cs) [] 0).length = 0 then ['.']
        else cleanLoop false (c :: cs).length (c :: cs) [] 0 := by
  simp [cleanChars, hc]

/-- The three shapes of the mapped path of a safe key: the key itself when the
root cleans to `.`, the key after a slash when the root cleans to `/`, and
otherwise the cleaned root, a slash and the key. -/
theorem fullPath_shape (root : String) :
    (Clean root = "." ∧ ∀ key, safeKey key → Join [root, key] = key) ∨
    (Clean root = "/" ∧ ∀ key, safeKey key → Join [root, key] = "/" ++ key) ∨
    (∀ key, safeKey key → Join [root, key] = Clean root ++ "/" ++ key) := by
  by_cases hroot : root = ""
  · subst hroot
    left
    refine ⟨by decide, ?_⟩
    intro key hk
    obtain ⟨c, cs, hkd, hc, _⟩ := safeKey_head key hk
    have hkey : key ≠ "" := by
      intro h; rw [h] at hkd; cases hkd
    rw [Join_empty_root key hkey]
    apply String.ext
    show cleanChars key.data = key.data
    have hloop := cleanLoop_safeKey false key hk [] 0
    rw [hkd] at hloop ⊢
    rw [cleanChars_rel c cs hc, hloop]
    simp [sepFor]
  · have hd : root.data ≠ [] := fun h => hroot (String.ext h)
    cases hrd : root.data with
    | nil => exact absurd hrd hd
    | cons c cs =>
      by_cases hc : c = '/'
      · subst hc
        obtain ⟨out1, dd1, hi, hfirst, hsecond⟩ :=
          cleanLoop_prefix true cs.length cs (le_refl _) ['/'] 1 (fun _ => ⟨rfl, rfl⟩)
        obtain ⟨_, hhead⟩ := hi rfl
        cases out1 with
        | nil => simp at hhead
        | cons o os =>
          simp only [List.head?_cons, Option.some.injEq] at hhead
          subst hhead
          have hclean : (Clean root).data = '/' :: os := by
            show cleanChars root.data = _
            rw [hrd, cleanChars_abs, hsecond]
            simp
          have hjoin : ∀ key, safeKey key →
              (Join [root, key]).data
                = ('/' :: os) ++ sepFor true ('/' :: os) ++ key.data := by
            intro key hk
            rw [Join_root_key root key hroot]
            show cleanChars (root.data ++ '/' :: key.data) = _
            rw [hrd, List.cons_append, cleanChars_abs, hfirst key.data,
              cleanLoop_safeKey true key hk]
            simp
          by_cases hos : os = []
          · subst hos
            right; left
            refine ⟨String.ext hclean, ?_⟩
            intro key hk
            apply String.ext
            rw [hjoin key hk]
            simp [sepFor, String.data_append]
          · right; right
            intro key hk
            apply String.ext
            have hsep : sepFor true ('/' :: os) = ['/'] := by
              have : ('/' :: os).length ≠ 1 := by
                cases os with
                | nil => exact absurd rfl hos
                | cons x xs => simp
              simp [sepFor, hos]
            rw [hjoin key hk, hsep]
            simp [String.data_append, hclean]
      · obtain ⟨out1, dd1, _, hfirst, hsecond⟩ :=
          cleanLoop_prefix false (c :: cs).length (c :: cs) (le_refl _) [] 0
            (fun h => Bool.noConfusion h)
        have hjoin : ∀ key, safeKey key →
            (Join [root, key]).data = out1 ++ sepFor false out1 ++ key.data := by
          intro key hk
          obtain ⟨kc, kcs, hkd, _, _⟩ := safeKey_head key hk
          rw [Join_root_key root key hroot]
          show cleanChars (root.data ++ '/' :: key.data) = _
          rw [hrd, List.cons_append, cleanChars_rel c _ hc, ← List.cons_append,
            hfirst key.data, cleanLoop_safeKey false key hk]
          rw [hkd]
          simp
        by_cases ho : out1 = []
        · subst ho
          left
          constructor
          · apply String.ext
            show cleanChars root.data = _
            rw [hrd, cleanChars_rel c cs hc, hsecond]
            rfl
          · intro key hk
            apply String.ext
            rw [hjoin key hk]
            simp [sepFor]
        · right; right
          intro key hk
          apply String.ext
          have hclean : (Clean root).data = out1 := by
            show cleanChars root.data = _
            rw [hrd, cleanChars_rel c cs hc, hsecond]
            have : out1.length ≠ 0 := fun h => ho (List.length_eq_zero.1 h)
            simp [this]
          have hsep : sepFor false out1 = ['/'] := by
            have : out1.length ≠ 0 := fun h => ho (List.length_eq_zero.1 h)
            simp [sepFor, this]
          rw [hjoin key hk, hsep]
          simp [String.data_append, hclean]

/-! ## Claims on the key mapping -/

/-- A stretch without a slash is one segment. -/
theorem splitSlash_no_slash (a : List Char) (h : '/' ∉ a) : splitSlash a = [a] := by
  induction a with
  | nil => rfl
  | cons c cs ih =>
    have hc : c ≠ '/' := fun hc => h (hc ▸ List.mem_cons_self _ _)
    have hcs : '/' ∉ cs := fun hm => h (List.mem_cons_of_mem _ hm)
    simp [splitSlash, hc, ih hcs]

/-- A key that is one ordinary segment is a safe key. -/
theorem safeKey_of_segment (key : String) (h : ordinarySegment key.data) : safeKey key := by
  intro seg hseg
  rw [splitSlash_no_slash key.data h.2.1] at hseg
  simp only [List.mem_singleton] at hseg
  rw [hseg]
  exact h

/-- A root in clean form is left as it is by `path.Clean`. -/
theorem Clean_cleanRoot (root : String) (h : cleanRoot root) : Clean root = root := by
  apply String.ext
  show cleanChars root.data = root.data
  unfold cleanRoot at h
  have hj := joinSlash_splitSlash root.data
  cases hs : splitSlash root.data with
  | nil => exact absurd hs (splitSlash_ne_nil _)
  | cons first rest =>
    rw [hs] at h hj
    simp only at h
    rcases h with ⟨hfirst, hrest, hall⟩ | hall
    · subst hfirst
      cases rest with
      | nil => exact absurd rfl hrest
      | cons seg2 rest2 =>
        rw [joinSlash_cons_cons, List.nil_append] at hj
        rw [← hj, cleanChars_abs,
          cleanLoop_segments true (seg2 :: rest2) (by simp) hall ['/'] 1]
        simp [sepFor]
    · have hseg := hall first (List.mem_cons_self _ _)
      cases first with
      | nil => exact absurd rfl hseg.1
      | cons c cs =>
        have hc : c ≠ '/' := fun hc => hseg.2.1 (hc ▸ List.mem_cons_self _ _)
        have hhead : ∃ tl, joinSlash ((c :: cs) :: rest) = c :: tl := by
          cases rest with
          | nil => exact ⟨cs, rfl⟩
          | cons seg2 rest2 => exact ⟨cs ++ '/' :: joinSlash (seg2 :: rest2), rfl⟩
        obtain ⟨tl, htl⟩ := hhead
        have hloop := cleanLoop_segments false ((c :: cs) :: rest) (by simp) hall [] 0
        rw [hj] at hloop htl
        rw [htl] at hloop ⊢
        rw [cleanChars_rel c tl hc, hloop]
        simp [sepFor]

/-- C15: key-to-path mapping.  For a root path in clean form and a key that is a
single ordinary path segment, `fullPath(key)` is the root, a slash and the
key; and the result depends on nothing but root and key. -/
theorem local_full_path_clean (d : LocalStorage) (key : String) (hroot : cleanRoot d.Path)
    (hkey : ordinarySegment key.data) :
    d.fullPath key = d.Path ++ "/" ++ key ∧
      ∀ d2 : LocalStorage, d2.Path = d.Path → d2.fullPath key = d.fullPath key := by
  constructor
  · have hk := safeKey_of_segment key hkey
    have hc := Clean_cleanRoot d.Path hroot
    unfold LocalStorage.fullPath
    rcases fullPath_shape d.Path with ⟨h1, _⟩ | ⟨h1, _⟩ | h
    · rw [hc] at h1
      rw [h1] at hroot
      exact absurd hroot (by decide)
    · rw [hc] at h1
      rw [h1] at hroot
      exact absurd hroot (by decide)
    · rw [h key hk, hc]
  · intro d2 h
    unfold LocalStorage.fullPath
    rw [h]

/-- Witness of C15: the two cases of `TestLocalStorage_fullPath`. -/
theorem local_full_path_clean_witness :
    testStore.fullPath "test.txt" = "/tmp/test/test.txt" ∧
    (NewLocalStorage "/var/lib/test").fullPath "test.txt" = "/var/lib/test/test.txt" :=
  ⟨(local_full_path_clean testStore "test.txt" (by decide) (by decide)).1,
   (local_full_path_clean (NewLocalStorage "/var/lib/test") "test.txt" (by decide)
      (by decide)).1⟩

/-- C16 (as amended): keys map 1:1 to file paths.  For every root and every two
keys made of ordinary segments (not empty, not `.`, not `..`) joined by single
slashes, equal mapped paths mean equal keys, and different keys have
different mapped paths. -/
theorem local_keys_one_to_one (d : LocalStorage) (k1 k2 : String) (h1 : safeKey k1)
    (h2 : safeKey k2) :
    (d.fullPath k1 = d.fullPath k2 → k1 = k2) ∧
      (k1 ≠ k2 → d.fullPath k1 ≠ d.fullPath k2) := by
  have key : d.fullPath k1 = d.fullPath k2 → k1 = k2 := by
    unfold LocalStorage.fullPath
    intro h
    rcases fullPath_shape d.Path with ⟨_, hs⟩ | ⟨_, hs⟩ | hs
    · rw [hs k1 h1, hs k2 h2] at h
      exact h
    · rw [hs k1 h1, hs k2 h2] at h
      have hd := congrArg String.data h
      simp only [String.data_append] at hd
      exact String.ext (List.append_cancel_left hd)
    · rw [hs k1 h1, hs k2 h2] at h
      have hd := congrArg String.data h
      simp only [String.data_append] at hd
      exact String.ext (List.append_cancel_left hd)
  exact ⟨key, fun hne h => hne (key h)⟩

/-- Witness of C16: the two keys of the test `multiple files` are mapped to
different paths. -/
theorem local_keys_one_to_one_witness :
    testStore.fullPath "test1.txt" ≠ testStore.fullPath "test2.txt" :=
  (local_keys_one_to_one testStore "test1.txt" "test2.txt" (by decide) (by decide)).2
    (by decide)

/-- C16 as stated fails: the keys `a` and `./a` are different and are mapped to
the same path, and so are `a` and `a/`. -/
theorem local_keys_same_path :
    testStore.fullPath "a" = testStore.fullPath "./a" ∧ "a" ≠ "./a" ∧
    testStore.fullPath "a" = testStore.fullPath "a/" ∧ "a" ≠ "a/" := by
  decide

/-- C17 (as amended): keys are mapped to files under the configured root.  For
every root and every key made of ordinary segments (not empty, not `.`, not
`..`) joined by single slashes, the path `fullPath(key)` lies inside the
cleaned root: it is the cleaned root, a slash and the key (the key after the
slash when the root cleans to `/`, the key itself when the root cleans to
`.`). -/
theorem local_path_under_root (d : LocalStorage) (key : String) (hk : safeKey key) :
    liesUnder (Clean d.Path) (d.fullPath key) = true ∧
      (d.fullPath key = Clean d.Path ++ "/" ++ key ∨
        (Clean d.Path = "/" ∧ d.fullPath key = "/" ++ key) ∨
        (Clean d.Path = "." ∧ d.fullPath key = key)) := by
  unfold LocalStorage.fullPath
  obtain ⟨c, cs, hkd, hc, hdd⟩ := safeKey_head key hk
  rcases fullPath_shape d.Path with ⟨hcl, hs⟩ | ⟨hcl, hs⟩ | hs
  · refine ⟨?_, Or.inr (Or.inr ⟨hcl, hs key hk⟩)⟩
    rw [hs key hk, hcl]
    have hh : key.data.head? ≠ some '/' := by
      rw [hkd]
      simpa using hc
    simp [liesUnder, hh, hdd]
  · refine ⟨?_, Or.inr (Or.inl ⟨hcl, hs key hk⟩)⟩
    rw [hs key hk, hcl]
    simp [liesUnder, String.data_append]
  · refine ⟨?_, Or.inl (hs key hk)⟩
    rw [hs key hk]
    have hp : ((Clean d.Path).data ++ ['/']).isPrefixOf
        (Clean d.Path ++ "/" ++ key).data = true := by
      rw [List.isPrefixOf_iff_prefix]
      simp only [String.data_append]
      exact ⟨key.data, rfl⟩
    simp [liesUnder, hp]

/-- Witness of C17: the key `test.txt` under the root `/tmp/test` of the tests. -/
theorem local_path_under_root_witness :
    liesUnder (Clean testStore.Path) (testStore.fullPath "test.txt") = true ∧
      (testStore.fullPath "test.txt" = Clean testStore.Path ++ "/" ++ "test.txt" ∨
        (Clean testStore.Path = "/" ∧ testStore.fullPath "test.txt" = "/" ++ "test.txt") ∨
        (Clean testStore.Path = "." ∧ testStore.fullPath "test.txt" = "test.txt")) :=
  local_path_under_root testStore "test.txt" (by decide)

/-- C17 as stated fails: the key `../x` is mapped to `/tmp/x`, which is neither
the root `/tmp/test` nor inside it. -/
theorem local_path_leaves_root :
    Clean testStore.Path = "/tmp/test" ∧ testStore.fullPath "../x" = "/tmp/x" ∧
      liesUnder (Clean testStore.Path) (testStore.fullPath "../x") = false := by
  decide

/-! ## Lemmas on reading a stream -/

/-- The bytes `io.ReadAtLeast` returns and the bytes it leaves in the stream
make up the stream; the terminal error of the stream and what it can seek to
stay. -/
theorem readAtLeastLoop_split (bufLen min : Nat) :
    ∀ (fuel : Nat) (r : Reader) (acc : List Byte),
      acc ++ r.chunks.flatten
          = (readAtLeastLoop bufLen min fuel r acc).1.1
            ++ (readAtLeastLoop bufLen min fuel r acc).2.chunks.flatten ∧
        (readAtLeastLoop bufLen min fuel r acc).2.final = r.final ∧
        (readAtLeastLoop bufLen min fuel r acc).2.origin = r.origin := by
  intro fuel
  induction fuel with
  | zero => intro r acc; simp [readAtLeastLoop]
  | succ fuel ih =>
    intro r acc
    rcases r with ⟨chunks, final, origin⟩
    unfold readAtLeastLoop
    by_cases hmin : acc.length < min
    · rw [if_pos hmin]
      cases chunks with
      | nil =>
        simp only [Reader.Read]
        split_ifs <;> simp
      | cons c cs =>
        simp only [Reader.Read]
        by_cases hc : c.length ≤ bufLen - acc.length
        · rw [if_pos hc]
          have h := ih { chunks := cs, final := final, origin := origin } (acc ++ c)
          simpa using h
        · rw [if_neg hc]
          have h := ih
            { chunks := c.drop (bufLen - acc.length) :: cs, final := final, origin := origin }
            (acc ++ c.take (bufLen - acc.length))
          have hc2 : c.take (bufLen - acc.length) ++ (c.drop (bufLen - acc.length) ++ cs.flatten)
              = c ++ cs.flatten := by
            rw [← List.append_assoc, List.take_append_drop]
          simpa [hc2] using h
    · rw [if_neg hmin]
      simp

/-- The call `io.ReadAtLeast` never returns more bytes than the buffer holds. -/
theorem readAtLeastLoop_length (bufLen min : Nat) :
    ∀ (fuel : Nat) (r : Reader) (acc : List Byte), acc.length ≤ bufLen →
      (readAtLeastLoop bufLen min fuel r acc).1.1.length ≤ bufLen := by
  intro fuel
  induction fuel with
  | zero => intro r acc h; simpa [readAtLeastLoop] using h
  | succ fuel ih =>
    intro r acc hacc
    rcases r with ⟨chunks, final, origin⟩
    unfold readAtLeastLoop
    by_cases hmin : acc.length < min
    · rw [if_pos hmin]
      cases chunks with
      | nil =>
        simp only [Reader.Read]
        split_ifs <;> simpa using hacc
      | cons c cs =>
        simp only [Reader.Read]
        by_cases hc : c.length ≤ bufLen - acc.length
        · rw [if_pos hc]
          exact ih _ _ (by simp only [List.length_append]; omega)
        · rw [if_neg hc]
          exact ih _ _ (by simp only [List.length_append, List.length_take]; omega)
    · rw [if_neg hmin]
      simpa using hacc

/-- Once the minimum is read the loop of `io.ReadAtLeast` returns. -/
theorem readAtLeastLoop_done (bufLen min : Nat) (fuel : Nat) (r : Reader) (acc : List Byte)
    (h : ¬ acc.length < min) : readAtLeastLoop bufLen min fuel r acc = ((acc, none), r) := by
  cases fuel with
  | zero => rfl
  | succ fuel => simp [readAtLeastLoop, h]

/-- The fuel of `io.ReadAtLeast` is enough: with one more than the number of
chunks the loop has ended by itself, and more fuel gives the same result. -/
theorem readAtLeastLoop_fuel (bufLen min : Nat) (hmin : min ≤ bufLen) :
    ∀ (fuel : Nat) (r : Reader) (acc : List Byte), r.chunks.length < fuel →
      readAtLeastLoop bufLen min (fuel + 1) r acc = readAtLeastLoop bufLen min fuel r acc := by
  intro fuel
  induction fuel with
  | zero => intro r acc h; simp at h
  | succ fuel ih =>
    intro r acc hf
    rcases r with ⟨chunks, final, origin⟩
    by_cases hlt : acc.length < min
    · rw [readAtLeastLoop, if_pos hlt]
      conv_rhs => rw [readAtLeastLoop, if_pos hlt]
      cases chunks with
      | nil => simp only [Reader.Read]
      | cons c cs =>
        simp only [Reader.Read]
        by_cases hc : c.length ≤ bufLen - acc.length
        · simp only [if_pos hc]
          exact ih _ _ (by simpa using hf)
        · simp only [if_neg hc]
          have hdone : ¬ (acc ++ c.take (bufLen - acc.length)).length < min := by
            simp only [List.length_append, List.length_take]
            omega
          rw [readAtLeastLoop_done _ _ _ _ _ hdone, readAtLeastLoop_done _ _ _ _ _ hdone]
    · rw [readAtLeastLoop_done _ _ _ _ _ hlt, readAtLeastLoop_done _ _ _ _ _ hlt]

/-- A stream that holds no more than the buffer is read whole by `io.ReadFull`:
the bytes returned are those of the stream, none is left, and the error is
nil, the terminal error of the stream, or `io.ErrUnexpectedEOF` in place of
`io.EOF`. -/
theorem readFullLoop_all (bufLen : Nat) (final : GoError) (origin : Option (List Byte)) :
    ∀ (chunks : List (List Byte)) (fuel : Nat) (acc : List Byte), chunks.length < fuel →
      acc.length + chunks.flatten.length ≤ bufLen →
      (readAtLeastLoop bufLen bufLen fuel ⟨chunks, final, origin⟩ acc).1.1
          = acc ++ chunks.flatten ∧
        (readAtLeastLoop bufLen bufLen fuel ⟨chunks, final, origin⟩ acc).2.chunks.flatten = [] ∧
        ((readAtLeastLoop bufLen bufLen fuel ⟨chunks, final, origin⟩ acc).1.2 = none ∨
          (readAtLeastLoop bufLen bufLen fuel ⟨chunks, final, origin⟩ acc).1.2 = some final ∨
          ((readAtLeastLoop bufLen bufLen fuel ⟨chunks, final, origin⟩ acc).1.2
              = some ioErrUnexpectedEOF ∧ final = ioEOF)) := by
  intro chunks
  induction chunks with
  | nil =>
    intro fuel acc hf _
    cases fuel with
    | zero => simp at hf
    | succ fuel =>
      unfold readAtLeastLoop
      by_cases hmin : acc.length < bufLen
      · rw [if_pos hmin]
        simp only [Reader.Read]
        split_ifs with h1 h2
        · simp
        · simp [h2.2]
        · simp
      · rw [if_neg hmin]
        simp
  | cons c cs ih =>
    intro fuel acc hf hlen
    cases fuel with
    | zero => simp at hf
    | succ fuel =>
      have hf1 : cs.length < fuel := by simpa using hf
      simp only [List.flatten_cons, List.length_append] at hlen
      unfold readAtLeastLoop
      by_cases hmin : acc.length < bufLen
      · rw [if_pos hmin]
        have hc : c.length ≤ bufLen - acc.length := by omega
        simp only [Reader.Read, if_pos hc]
        have h := ih fuel (acc ++ c) hf1 (by simp only [List.length_append]; omega)
        simpa [List.append_assoc] using h
      · rw [if_neg hmin]
        have hc0 : c = [] := List.length_eq_zero.1 (by omega)
        have hcs0 : cs.flatten = [] := List.length_eq_zero.1 (by omega)
        simp [hc0, hcs0]

/-- The reader `utils.MimeType` leaves is the one `io.ReadFull` left. -/
theorem MimeType_reader (sniff : List Byte → String) (value : Reader) :
    (MimeType sniff value).2 = (ReadFull value readLimit).2 ∧
    (DetectReader sniff value).2 = (ReadFull value readLimit).2 := by
  unfold MimeType DetectReader
  rcases ReadFull value readLimit with ⟨⟨input, e⟩, r1⟩
  cases e with
  | none => simp
  | some e => by_cases h : e ≠ ioEOF ∧ e ≠ ioErrUnexpectedEOF <;> simp [h]

/-- What `io.ReadFull` with the detector's buffer does, on the loop. -/
theorem ReadFull_eq (r : Reader) :
    ReadFull r readLimit = readAtLeastLoop readLimit readLimit (r.chunks.length + 1) r [] := by
  have hlim : ¬ readLimit < readLimit := Nat.lt_irrefl _
  simp [ReadFull, ReadAtLeast, hlim]

/-- Detection on a stream of at most `readLimit` bytes that ends normally reads
all of it and succeeds. -/
theorem DetectReader_short (sniff : List Byte → String) (r : Reader)
    (hlen : r.chunks.flatten.length ≤ readLimit) (hfin : r.final = ioEOF) :
    (DetectReader sniff r).1 = (some (sniff r.chunks.flatten), none) ∧
    (DetectReader sniff r).2.chunks.flatten = [] ∧
    (DetectReader sniff r).2.final = ioEOF ∧
    (DetectReader sniff r).2.origin = r.origin := by
  rcases r with ⟨chunks, final, origin⟩
  simp only at hlen hfin
  subst hfin
  have hall := readFullLoop_all readLimit ioEOF origin chunks (chunks.length + 1) []
    (Nat.lt_succ_self _) (by simpa using hlen)
  have hsplit := readAtLeastLoop_split readLimit readLimit (chunks.length + 1)
    ⟨chunks, ioEOF, origin⟩ []
  unfold DetectReader
  rw [ReadFull_eq]
  simp only at hall hsplit ⊢
  rcases hres : readAtLeastLoop readLimit readLimit (chunks.length + 1)
    ⟨chunks, ioEOF, origin⟩ [] with ⟨⟨input, e⟩, r1⟩
  rw [hres] at hall hsplit
  simp only [List.nil_append] at hall hsplit
  obtain ⟨hin, hrest, herr⟩ := hall
  subst hin
  cases e with
  | none =>
    refine ⟨by simp, ?_, ?_, ?_⟩
    · simpa using hrest
    · simpa using hsplit.2.1
    · simpa using hsplit.2.2
  | some e =>
    have he : ¬ (e ≠ ioEOF ∧ e ≠ ioErrUnexpectedEOF) := by
      rcases herr with h | h | h
      · simp at h
      · simp only [Option.some.injEq] at h
        simp [h]
      · simp only [Option.some.injEq] at h
        simp [h.1]
    simp only [if_neg he]
    refine ⟨by simp, ?_, ?_, ?_⟩
    · simpa using hrest
    · simpa using hsplit.2.1
    · simpa using hsplit.2.2

/-- Detection on a reader that holds more than `readLimit` bytes in one piece
takes the first `readLimit` of them. -/
theorem DetectReader_long (sniff : List Byte → String) (b : List Byte) (final : GoError)
    (origin : Option (List Byte)) (hb : readLimit < b.length) :
    DetectReader sniff ⟨[b], final, origin⟩
      = ((some (sniff (b.take readLimit)), none), ⟨[b.drop readLimit], final, origin⟩) := by
  have h1 : ¬ b.length ≤ readLimit := by omega
  have h2 : ¬ (b.take readLimit).length < readLimit := by
    rw [List.length_take]
    omega
  have h0 : (0 : Nat) < readLimit := by decide
  have h3 : ¬ b.length < readLimit := by omega
  unfold DetectReader
  rw [ReadFull_eq]
  simp [readAtLeastLoop, Reader.Read, h0, h1, h2, h3]

/-- The object just stored is the one the provider finds. -/
theorem memGet_memPut_same (st : MemS3) (bk : String × String) (o : StoredObject) :
    memGet (memPut st bk o) bk = some o := by
  simp [memPut, memGet]

/-- A successful detection is what `utils.MimeType` returns. -/
theorem MimeType_of_detect (sniff : List Byte → String) (v : Reader) (m : String)
    (h : (DetectReader sniff v).1 = (some m, none)) : (MimeType sniff v).1 = (m, none) := by
  rcases hd : DetectReader sniff v with ⟨res, r1⟩
  rw [hd] at h
  simp only at h
  subst h
  simp [MimeType, hd]

/-- After a successful detection `S3.Write` is the one upload of the reader as
detection left it. -/
theorem S3_Write_detected {τ : Type} (s3def : S3) (printable : Char → Bool)
    (sniff : List Byte → String) (a : S3API τ) (s : τ) (key : String) (v : Reader)
    (mType : String) (hm : (MimeType sniff v).1 = (mType, none)) :
    s3def.Write printable sniff a s key v
      = (match a.Upload s ⟨s3def.Bucket, key, (DetectReader sniff v).2, mType⟩ with
        | (some err, s1) => (some (errorfKey printable "unable to upload" key err), s1)
        | (none, s1) => (none, s1)) := by
  have hr := (MimeType_reader sniff v).1.trans (MimeType_reader sniff v).2.symm
  rcases hmt : MimeType sniff v with ⟨res, v1⟩
  rw [hmt] at hm hr
  simp only at hm hr
  subst hm
  subst hr
  simp only [S3.Write, hmt]

/-- A `strings.Reader` of more than `readLimit` bytes: the uploader stores the
first `len - readLimit` bytes of the content. -/
theorem S3_Write_seekable_long (s3def : S3) (printable : Char → Bool)
    (sniff : List Byte → String) (mem : MemS3) (key : String) (b : List Byte)
    (hb : readLimit < b.length) :
    s3def.Write printable sniff memS3 mem key (Reader.ofString b)
      = (none, memPut mem (s3def.Bucket, key)
          ⟨b.take (b.length - readLimit), sniff (b.take readLimit)⟩) := by
  have hne : b ≠ [] := by
    intro e
    rw [e] at hb
    simp at hb
  have hrd : Reader.ofString b = ⟨[b], ioEOF, some b⟩ := by simp [Reader.ofString, hne]
  have hd := DetectReader_long sniff b ioEOF (some b) hb
  rw [hrd, S3_Write_detected s3def printable sniff memS3 mem key _ (sniff (b.take readLimit))
    (MimeType_of_detect sniff _ _ (by rw [hd])), hd]
  simp [memS3, uploadBody]

/-- A `bytes.Buffer` of more than `readLimit` bytes: the uploader stores what
follows the first `readLimit` bytes. -/
theorem S3_Write_buffer_long (s3def : S3) (printable : Char → Bool)
    (sniff : List Byte → String) (mem : MemS3) (key : String) (b : List Byte)
    (hb : readLimit < b.length) :
    s3def.Write printable sniff memS3 mem key (Reader.ofBytes b)
      = (none, memPut mem (s3def.Bucket, key)
          ⟨b.drop readLimit, sniff (b.take readLimit)⟩) := by
  have hne : b ≠ [] := by
    intro e
    rw [e] at hb
    simp at hb
  have hrd : Reader.ofBytes b = ⟨[b], ioEOF, none⟩ := by simp [Reader.ofBytes, hne]
  have hd := DetectReader_long sniff b ioEOF none hb
  rw [hrd, S3_Write_detected s3def printable sniff memS3 mem key _ (sniff (b.take readLimit))
    (MimeType_of_detect sniff _ _ (by rw [hd])), hd]
  simp [memS3, uploadBody, ReadAll]

/-! ## Claims on the error context -/

/-- A stretch between two others occurs in the whole. -/
theorem hasInfix_append (a n b : List Char) : hasInfix (a ++ n ++ b) n = true := by
  induction a with
  | nil =>
    have hp : n.isPrefixOf (n ++ b) = true := by
      rw [List.isPrefixOf_iff_prefix]
      exact ⟨b, rfl⟩
    cases hnb : n ++ b with
    | nil =>
      rw [hnb] at hp
      simp only [List.nil_append, hnb, hasInfix, hp]
    | cons x xs =>
      rw [hnb] at hp
      simp only [List.nil_append, hnb, hasInfix, hp, Bool.true_or]
  | cons x xs ih =>
    simp only [List.cons_append, hasInfix, Bool.or_eq_true]
    right
    simpa using ih

/-- A plain key is printed by `%q` as it is, between double quotes. -/
theorem strconvQuote_plain (printable : Char → Bool) (key : String) (h : plainKey printable key) :
    (strconvQuote printable key).data = [Char.ofNat 34] ++ key.data ++ [Char.ofNat 34] := by
  have hflat : ∀ l : List Char, (∀ c ∈ l, quoteRune printable c = [c]) →
      (l.map (quoteRune printable)).flatten = l := by
    intro l
    induction l with
    | nil => intro _; rfl
    | cons c cs ih =>
      intro hl
      rw [List.map_cons, List.flatten_cons, hl c (List.mem_cons_self _ _),
        ih (fun x hx => hl x (List.mem_cons_of_mem _ hx))]
      rfl
  show [Char.ofNat 34] ++ (key.data.map (quoteRune printable)).flatten ++ [Char.ofNat 34] = _
  rw [hflat key.data h]

/-- A message around the quoted form of a plain key contains the key. -/
theorem strContains_quoted (printable : Char → Bool) (pre post key : String) (h : plainKey printable key) :
    strContains (pre ++ strconvQuote printable key ++ post) key = true := by
  unfold strContains
  simp only [String.data_append, strconvQuote_plain printable key h]
  have := hasInfix_append (pre.data ++ [Char.ofNat 34]) key.data ([Char.ofNat 34] ++ post.data)
  simpa [List.append_assoc] using this

/-- A key of printable ASCII without quote and backslash is printed by `%q` as
it is, whatever the Unicode tables say. -/
theorem plainKey_of_ascii (printable : Char → Bool) (key : String) (h : asciiKey key) :
    plainKey printable key := by
  intro c hc
  obtain ⟨h1, h2, h3, h4⟩ := h c hc
  have hp : IsPrint printable c = true := by
    have h255 : c.toNat ≤ 255 := by omega
    simp [IsPrint, h255, h1, h2]
  have hq : ¬ (c = Char.ofNat 34 ∨ c = Char.ofNat 92) := by
    rintro (e | e)
    · exact h3 e
    · exact h4 e
  simp only [quoteRune, if_neg hq, hp, if_true]

/-- C18 (as amended): error context.  Every non-nil error of an operation of
either backend wraps the error of the call that failed: the file function for
the local store; for the remote store the request, the read of the response
body in `Read`, and in `Write` the read of the detector or the upload.  For the
local store the message is that error's message, `: ` and the mapped path (the
root path for `List`).  For the remote store the messages of `Read`, `Delete`,
`Exists` and of a failed upload in `Write` carry the key as `%q` prints it,
which contains the key itself when no character of it needs escaping, as is so
for every key of printable ASCII without quote and backslash; the message of a
failed detection in `Write` is `unable to detect MimeType: ` and the cause, and
the message of `List` is `unable to list objects: ` and the cause. -/
theorem error_context {σ : Type} (d : LocalStorage) (proc : Proc) (fs : FS) (s3def : S3)
    (printable : Char → Bool) (sniff : List Byte → String) (api : S3API σ) (st : σ) (key : String) (value : Reader) :
    (∀ err, (d.Read proc fs key).2 = some err →
      ∃ cause, ReadFile proc fs (d.fullPath key) = .error cause ∧ err.Unwrap = some cause ∧
        err.Error = cause.Error ++ ": " ++ d.fullPath key) ∧
    (∀ err, (d.Write proc fs key value).1 = some err →
      ∃ cause, ((ReadAll value).2 = some cause ∨
          (WriteFile proc fs (d.fullPath key) (ReadAll value).1 d.filePermissions).1
            = some cause) ∧
        err.Unwrap = some cause ∧ err.Error = cause.Error ++ ": " ++ d.fullPath key) ∧
    (∀ err, (d.Delete proc fs key).1 = some err →
      ∃ cause, (Remove proc fs (d.fullPath key)).1 = some cause ∧ err.Unwrap = some cause ∧
        err.Error = cause.Error ++ ": " ++ d.fullPath key) ∧
    (∀ err, (d.Exists proc fs key).2 = some err →
      ∃ cause, Stat proc fs (d.fullPath key) = .error cause ∧ err.Unwrap = some cause ∧
        err.Error = cause.Error ++ ": " ++ d.fullPath key) ∧
    (∀ err, (d.List proc fs).2 = some err →
      ∃ cause, ReadDir proc fs d.Path = .error cause ∧ err.Unwrap = some cause ∧
        err.Error = cause.Error ++ ": " ++ d.Path) ∧
    (∀ err, (s3def.Read printable api st key).1.2 = some err →
      ∃ cause, err.Unwrap = some cause ∧
        (((api.GetObject st ⟨s3def.Bucket, key⟩).1 = .error cause ∧
            err.Error
              = "unable to read object " ++ strconvQuote printable key ++ ": " ++ cause.Error) ∨
          (∃ out, (api.GetObject st ⟨s3def.Bucket, key⟩).1 = .ok out ∧
            (ReadAll out.Body).2 = some cause ∧
            err.Error = "unable to read bytes from object " ++ strconvQuote printable key
              ++ ": " ++ cause.Error))) ∧
    (∀ err, (s3def.Write printable sniff api st key value).1 = some err →
      ∃ cause, err.Unwrap = some cause ∧
        (((DetectReader sniff value).1.2 = some cause ∧
            err.Error = "unable to detect MimeType: " ++ cause.Error) ∨
          ((DetectReader sniff value).1.2 = none ∧
            (api.Upload st
              ⟨s3def.Bucket, key, (DetectReader sniff value).2, (MimeType sniff value).1.1⟩).1
              = some cause ∧
            err.Error
              = "unable to upload " ++ strconvQuote printable key ++ ": " ++ cause.Error))) ∧
    (∀ err, (MimeType sniff value).1.2 = none →
      (s3def.Write printable sniff api st key value).1 = some err →
      ∃ cause, err.Unwrap = some cause ∧
        err.Error = "unable to upload " ++ strconvQuote printable key ++ ": " ++ cause.Error) ∧
    (∀ err, (s3def.Delete printable api st key).1 = some err →
      ∃ cause, (api.DeleteObject st ⟨s3def.Bucket, key⟩).1 = some cause ∧
        err.Unwrap = some cause ∧
        err.Error = "unable to delete object " ++ strconvQuote printable key ++ ": " ++ cause.Error) ∧
    (∀ b err, (s3def.Exists printable api st key).1 = .returns (b, some err) →
      ∃ cause, (api.HeadObject st ⟨s3def.Bucket, key⟩).1 = .error cause ∧
        err.Unwrap = some cause ∧
        err.Error
          = "unable to check if object " ++ strconvQuote printable key ++ " exists: " ++ cause.Error) ∧
    (∀ ks err, (s3def.List api st).1 = .returns (ks, some err) →
      ∃ cause, (api.ListObjectsV2 st ⟨s3def.Bucket, s3def.PathPrefix⟩).1 = .error cause ∧
        err.Unwrap = some cause ∧ err.Error = "unable to list objects: " ++ cause.Error) ∧
    (plainKey printable key → ∀ pre post : String,
      strContains (pre ++ strconvQuote printable key ++ post) key = true) ∧
    (asciiKey key → plainKey printable key) := by
  refine ⟨?_, ?_, ?_, ?_, ?_, ?_, ?_, ?_, ?_, ?_, ?_, ?_, plainKey_of_ascii printable key⟩
  · intro err h
    unfold LocalStorage.Read at h
    cases hrf : ReadFile proc fs (d.fullPath key) with
    | ok bts => simp [hrf] at h
    | error cause =>
      simp only [hrf, Option.some.injEq] at h
      subst h
      exact ⟨cause, rfl, rfl, rfl⟩
  · intro err h
    unfold LocalStorage.Write at h
    rcases hra : ReadAll value with ⟨bts, rerr⟩
    cases rerr with
    | some cause =>
      simp only [hra, Option.some.injEq] at h
      subst h
      exact ⟨cause, Or.inl rfl, rfl, rfl⟩
    | none =>
      simp only [hra] at h
      rcases hwf : WriteFile proc fs (d.fullPath key) bts d.filePermissions with ⟨werr, fs1⟩
      cases werr with
      | none => simp [hwf] at h
      | some cause =>
        simp only [hwf, Option.some.injEq] at h
        subst h
        exact ⟨cause, Or.inr rfl, rfl, rfl⟩
  · intro err h
    unfold LocalStorage.Delete at h
    rcases hrm : Remove proc fs (d.fullPath key) with ⟨rerr, fs1⟩
    cases rerr with
    | none => simp [hrm] at h
    | some cause =>
      simp only [hrm, Option.some.injEq] at h
      subst h
      exact ⟨cause, rfl, rfl, rfl⟩
  · intro err h
    unfold LocalStorage.Exists at h
    cases hs : Stat proc fs (d.fullPath key) with
    | ok n =>
      simp only [hs] at h
      split_ifs at h
    | error cause =>
      simp only [hs, Option.some.injEq] at h
      subst h
      exact ⟨cause, rfl, rfl, rfl⟩
  · intro err h
    unfold LocalStorage.List at h
    cases hrd : ReadDir proc fs d.Path with
    | ok files => simp [hrd] at h
    | error cause =>
      simp only [hrd, Option.some.injEq] at h
      subst h
      exact ⟨cause, rfl, rfl, rfl⟩
  · intro err h
    unfold S3.Read at h
    rcases hg : api.GetObject st { Bucket := s3def.Bucket, Key := key } with ⟨res, st1⟩
    cases res with
    | error cause =>
      simp only [hg, Option.some.injEq] at h
      subst h
      exact ⟨cause, rfl, Or.inl ⟨rfl, rfl⟩⟩
    | ok out =>
      simp only [hg] at h
      rcases hra : ReadAll out.Body with ⟨bts, rerr⟩
      cases rerr with
      | none => simp [hra] at h
      | some cause =>
        simp only [hra, Option.some.injEq] at h
        subst h
        exact ⟨cause, rfl, Or.inr ⟨out, rfl, by rw [hra], rfl⟩⟩
  · intro err h
    rcases hd : DetectReader sniff value with ⟨⟨m, derr⟩, r1⟩
    cases derr with
    | some cause =>
      have hm : MimeType sniff value
          = (("", some (.wrapError ("unable to detect MimeType: " ++ cause.Error) cause)),
              r1) := by
        simp [MimeType, hd]
      simp only [S3.Write, hm, Option.some.injEq] at h
      subst h
      exact ⟨cause, rfl, Or.inl ⟨rfl, rfl⟩⟩
    | none =>
      have hm : (MimeType sniff value).1.2 = none := by
        cases m <;> simp [MimeType, hd]
      have hm1 : (MimeType sniff value).1
          = ((MimeType sniff value).1.1, none) := by
        rw [← hm]
      rw [S3_Write_detected s3def printable sniff api st key value _ hm1, hd] at h
      simp only at h
      rcases hu : api.Upload st ⟨s3def.Bucket, key, r1, (MimeType sniff value).1.1⟩
        with ⟨uerr, st1⟩
      rw [hu] at h
      cases uerr with
      | none => simp at h
      | some cause =>
        simp only [Option.some.injEq] at h
        subst h
        exact ⟨cause, rfl, Or.inr ⟨rfl, rfl, rfl⟩⟩
  · intro err hmt h
    unfold S3.Write at h
    rcases hm : MimeType sniff value with ⟨⟨mType, merr⟩, value1⟩
    rw [hm] at hmt
    simp only at hmt
    subst hmt
    simp only [hm] at h
    rcases hu : api.Upload st ⟨s3def.Bucket, key, value1, mType⟩ with ⟨uerr, st1⟩
    cases uerr with
    | none => simp [hu] at h
    | some cause =>
      simp only [hu, Option.some.injEq] at h
      subst h
      exact ⟨cause, rfl, rfl⟩
  · intro err h
    unfold S3.Delete at h
    rcases hdl : api.DeleteObject st { Bucket := s3def.Bucket, Key := key } with ⟨derr, st1⟩
    cases derr with
    | none => simp [hdl] at h
    | some cause =>
      simp only [hdl, Option.some.injEq] at h
      subst h
      exact ⟨cause, rfl, rfl, rfl⟩
  · intro b err h
    unfold S3.Exists at h
    rcases hh : api.HeadObject st { Bucket := s3def.Bucket, Key := key } with ⟨res, st1⟩
    cases res with
    | error cause =>
      simp only [hh, Outcome.returns.injEq, Prod.mk.injEq, Option.some.injEq] at h
      obtain ⟨_, h2⟩ := h
      subst h2
      exact ⟨cause, rfl, rfl, rfl⟩
    | ok ho =>
      simp only [hh] at h
      cases hl : ho.ContentLength <;> simp [hl] at h
  · intro ks err h
    unfold S3.List at h
    rcases hl : api.ListObjectsV2 st
      { Bucket := s3def.Bucket, Prefix := s3def.PathPrefix } with ⟨res, st1⟩
    cases res with
    | error cause =>
      simp only [hl, Outcome.returns.injEq, Prod.mk.injEq, Option.some.injEq] at h
      obtain ⟨_, h2⟩ := h
      subst h2
      exact ⟨cause, rfl, rfl, rfl⟩
    | ok loo =>
      simp only [hl] at h
      cases hk : keysLoop loo.Contents none <;> simp [hk] at h
  · intro hp pre post
    exact strContains_quoted printable pre post key hp

/-- Witness of C18: reading the missing `test.txt` of the tests gives the
message of the failed `open`, `: ` and the path; deleting it on a provider that
refuses gives a message that contains the key. -/
theorem error_context_witness :
    (∃ cause, ReadFile userProc tmpTestFS (testStore.fullPath "test.txt") = .error cause ∧
      (errorfWrapPath (.pathError "open" "/tmp/test/test.txt" (.errno .ENOENT))
        "/tmp/test/test.txt").Unwrap = some cause ∧
      (errorfWrapPath (.pathError "open" "/tmp/test/test.txt" (.errno .ENOENT))
        "/tmp/test/test.txt").Error = cause.Error ++ ": " ++ testStore.fullPath "test.txt") ∧
    strContains ("unable to delete object " ++ strconvQuote anyPrintable "test.txt" ++ ": denied")
      "test.txt" = true :=
  ⟨(error_context testStore userProc tmpTestFS testS3 anyPrintable (fun _ => "") deniedS3 () "test.txt"
      (readerOf "test")).1 _ (by decide),
   (error_context testStore userProc tmpTestFS testS3 anyPrintable (fun _ => "") deniedS3 ()
      "test.txt" (readerOf "test")).2.2.2.2.2.2.2.2.2.2.2.1 (by decide) _ _⟩

/-- C18 as stated fails.  When MIME detection fails, the error of `S3.Write` does
not mention the key; the error of `S3.List` mentions neither bucket nor
prefix; and a key with a double quote appears in the message only in its
escaped form. -/
theorem error_without_key :
    (testS3.Write anyPrintable (fun _ => "text/plain") memS3 [] "test.txt" failingReader).1
      = some (.wrapError "unable to detect MimeType: boom" (.plain "boom")) ∧
    strContains "unable to detect MimeType: boom" "test.txt" = false ∧
    (prefixedS3.List deniedS3 ()).1
      = .returns (none, some (.wrapError
          "unable to list objects: AccessDenied: Access Denied" errDenied)) ∧
    strContains "unable to list objects: AccessDenied: Access Denied" "backup/" = false ∧
    strContains "unable to list objects: AccessDenied: Access Denied" "test-bucket" = false ∧
    (∃ err, (testS3.Delete anyPrintable deniedS3 () quotedKey).1 = some err ∧
      strContains err.Error quotedKey = false) := by
  refine ⟨by decide, by decide, by decide, by decide, by decide, ?_⟩
  exact ⟨errorfKey anyPrintable "unable to delete object" quotedKey errDenied, by decide,
    by decide⟩

/-! ## Claims on MIME detection -/

/-- C21: MIME detection of empty input.  For a stream that ends without
delivering a byte, `utils.MimeType` returns `text/plain` and a nil error: the
end of the stream is not taken for a failure, and the detector maps no bytes to
`text/plain`.  When detection returns an error, `utils.MimeType` returns the
empty string and an error that wraps it, with the prefix
`unable to detect MimeType: `. -/
theorem mimetype_empty_input (table sniff : List Byte → String) (r : Reader) :
    (r.chunks.flatten = [] → r.final = ioEOF →
      (MimeType (specSniff table) r).1 = ("text/plain", none)) ∧
    (∀ e, (DetectReader sniff r).1.2 = some e →
      (MimeType sniff r).1
        = ("", some (.wrapError ("unable to detect MimeType: " ++ e.Error) e)) ∧
      errorsIs (.wrapError ("unable to detect MimeType: " ++ e.Error) e) e = true) := by
  constructor
  · intro hnil hfin
    have h := (DetectReader_short (specSniff table) r (by rw [hnil]; simp) hfin).1
    rw [hnil] at h
    rw [MimeType_of_detect (specSniff table) r _ h]
    simp [specSniff]
  · intro e he
    rcases hd : DetectReader sniff r with ⟨⟨m, derr⟩, r1⟩
    rw [hd] at he
    simp only at he
    subst he
    refine ⟨by simp [MimeType, hd], ?_⟩
    exact errorsIs_wrapError _ _

/-- Witness of C21: the empty buffer of the test `empty string` gives
`text/plain`, and a stream whose first read fails gives the wrapped error. -/
theorem mimetype_empty_input_witness :
    (MimeType (specSniff (fun _ => "application/octet-stream")) (readerOf "")).1
      = ("text/plain", none) ∧
    (MimeType (fun _ => "text/plain") failingReader).1
      = ("", some (.wrapError "unable to detect MimeType: boom" (.plain "boom"))) :=
  ⟨(mimetype_empty_input (fun _ => "application/octet-stream") (fun _ => "text/plain")
      (readerOf "")).1 (by decide) (by decide),
   ((mimetype_empty_input (fun _ => "application/octet-stream") (fun _ => "text/plain")
      failingReader).2 (.plain "boom") (by decide)).1⟩

/-! ## Claims on what a write consumes -/

/-- C22, as the code has it: what `S3.Write` uploads.  The body of the upload
request is the caller's reader in the state detection left it.  Detection has
read a prefix of at most `readLimit` bytes, and the bytes still to be read from
that body are the rest of the input.  The uploader sends that rest when the
body is a plain stream; when the body can seek and read at an offset it sends,
from offset 0, as many bytes as are still to be read: for a `strings.Reader` of
more than `readLimit` bytes the first `len - readLimit` of them, where a
`bytes.Buffer` gives what follows the first `readLimit`.  For every input of at
most `readLimit` bytes that ends normally, however it is delivered, the
uploader sends nothing, the stored object is empty, and `S3.Exists` on the key
then reports `(false, nil)`. -/
theorem s3_write_uploads_remainder {σ : Type} (s3def : S3) (printable : Char → Bool)
    (sniff : List Byte → String) (api : S3API σ) (st : σ) (key : String) (value : Reader) :
    (∀ mType, (MimeType sniff value).1 = (mType, none) → ∀ log,
      (s3def.Write printable sniff (recording api) (st, log) key value).2.2
        = log ++ [.upload ⟨s3def.Bucket, key, (DetectReader sniff value).2, mType⟩]) ∧
    ((ReadAll value).1
        = (ReadFull value readLimit).1.1 ++ (ReadAll (DetectReader sniff value).2).1 ∧
      (ReadFull value readLimit).1.1.length ≤ readLimit ∧
      (DetectReader sniff value).2.origin = value.origin) ∧
    (value.origin = none →
      uploadBody (DetectReader sniff value).2 = ReadAll (DetectReader sniff value).2) ∧
    (∀ content, value.origin = some content →
      uploadBody (DetectReader sniff value).2
        = (content.take (ReadAll (DetectReader sniff value).2).1.length, none)) ∧
    (∀ (b : List Byte) (mem : MemS3), readLimit < b.length →
      s3def.Write printable sniff memS3 mem key (Reader.ofBytes b)
        = (none, memPut mem (s3def.Bucket, key) ⟨b.drop readLimit, sniff (b.take readLimit)⟩) ∧
      s3def.Write printable sniff memS3 mem key (Reader.ofString b)
        = (none, memPut mem (s3def.Bucket, key)
            ⟨b.take (b.length - readLimit), sniff (b.take readLimit)⟩)) ∧
    (value.chunks.flatten.length ≤ readLimit → value.final = ioEOF →
      (∀ log, (s3def.Write printable sniff (recording api) (st, log) key value).2.2
        = log ++ [.upload ⟨s3def.Bucket, key, (DetectReader sniff value).2,
            sniff value.chunks.flatten⟩]) ∧
      uploadBody (DetectReader sniff value).2 = ([], none) ∧
      ∀ mem : MemS3,
        s3def.Write printable sniff memS3 mem key value
          = (none, memPut mem (s3def.Bucket, key) ⟨[], sniff value.chunks.flatten⟩) ∧
        (s3def.Exists printable memS3
            (s3def.Write printable sniff memS3 mem key value).2 key).1
          = .returns (false, none)) := by
  have hlog : ∀ mType, (MimeType sniff value).1 = (mType, none) → ∀ log,
      (s3def.Write printable sniff (recording api) (st, log) key value).2.2
        = log ++ [.upload ⟨s3def.Bucket, key, (DetectReader sniff value).2, mType⟩] := by
    intro mType hm log
    rw [S3_Write_detected s3def printable sniff (recording api) (st, log) key value mType hm]
    rcases hu : api.Upload st ⟨s3def.Bucket, key, (DetectReader sniff value).2, mType⟩
      with ⟨e, st1⟩
    cases e <;> simp [recording, hu]
  have hsplit := readAtLeastLoop_split readLimit readLimit (value.chunks.length + 1) value []
  have horigin : (DetectReader sniff value).2.origin = value.origin := by
    rw [(MimeType_reader sniff value).2, ReadFull_eq]
    exact hsplit.2.2
  refine ⟨hlog, ⟨?_, ?_, horigin⟩, ?_, ?_, ?_, ?_⟩
  · rw [(MimeType_reader sniff value).2, ReadFull_eq]
    simpa [ReadAll] using hsplit.1
  · rw [ReadFull_eq]
    exact readAtLeastLoop_length readLimit readLimit (value.chunks.length + 1) value []
      (Nat.zero_le _)
  · intro hplain
    simp [uploadBody, horigin, hplain]
  · intro content hseek
    simp [uploadBody, horigin, hseek, ReadAll]
  · intro b mem hb
    exact ⟨S3_Write_buffer_long s3def printable sniff mem key b hb,
      S3_Write_seekable_long s3def printable sniff mem key b hb⟩
  · intro hlen hfin
    obtain ⟨hres, hrest, hfinal, _⟩ := DetectReader_short sniff value hlen hfin
    have hm := MimeType_of_detect sniff value _ hres
    have hbody : uploadBody (DetectReader sniff value).2 = ([], none) := by
      unfold uploadBody
      cases ho : (DetectReader sniff value).2.origin with
      | none => simp [ReadAll, hrest, hfinal]
      | some content => simp [hrest]
    refine ⟨hlog _ hm, hbody, ?_⟩
    intro mem
    have hw : s3def.Write printable sniff memS3 mem key value
        = (none, memPut mem (s3def.Bucket, key) ⟨[], sniff value.chunks.flatten⟩) := by
      rw [S3_Write_detected s3def printable sniff memS3 mem key value _ hm]
      simp [memS3, hbody]
    refine ⟨hw, ?_⟩
    rw [hw]
    simp [S3.Exists, memS3, memGet_memPut_same]

/-- Witness of C22: the write of the remote tests, `strings.NewReader("test")`,
issues an upload for which the uploader sends nothing, and the key is then
reported as missing. -/
theorem s3_write_uploads_remainder_witness :
    uploadBody (DetectReader (fun _ => "text/plain") (Reader.ofString (bytesOf "test"))).2
      = ([], none) ∧
    (testS3.Exists anyPrintable memS3
        (testS3.Write anyPrintable (fun _ => "text/plain") memS3 [] "test.txt"
          (Reader.ofString (bytesOf "test"))).2
        "test.txt").1 = .returns (false, none) :=
  ⟨((s3_write_uploads_remainder testS3 anyPrintable (fun _ => "text/plain") memS3 []
      "test.txt" (Reader.ofString (bytesOf "test"))).2.2.2.2.2 (by decide) (by decide)).2.1,
   (((s3_write_uploads_remainder testS3 anyPrintable (fun _ => "text/plain") memS3 []
      "test.txt" (Reader.ofString (bytesOf "test"))).2.2.2.2.2 (by decide) (by decide)).2.2
      []).2⟩

/-- C22 as stated fails for a body that can seek.  A `strings.Reader` holds
`readLimit` zero bytes and then a one; detection reads the zeros, so the input
minus the prefix that detection read is the one, but the uploader sizes the
body as one byte and reads it from offset 0: the stored object is a zero. -/
theorem s3_write_seekable_body :
    (List.replicate readLimit (0 : Byte) ++ [1]).drop readLimit = [1] ∧
    testS3.Write anyPrintable (fun _ => "application/octet-stream") memS3 [] "big.bin"
        (Reader.ofString (List.replicate readLimit (0 : Byte) ++ [1]))
      = (none, [(("test-bucket", "big.bin"),
          { Body := [0], ContentType := "application/octet-stream" })]) ∧
    ([0] : List Byte) ≠ [1] := by
  have hlen : readLimit < (List.replicate readLimit (0 : Byte) ++ [1]).length := by simp
  refine ⟨?_, ?_, by decide⟩
  · rw [List.drop_left' (by simp)]
  · rw [S3_Write_seekable_long testS3 anyPrintable _ [] "big.bin" _ hlen]
    have h0 : (0 : Nat) < readLimit := by decide
    have ht : List.take 1 (List.replicate readLimit (0 : Byte) ++ [1]) = [0] := by
      rw [List.take_append_of_le_length (by simp; exact h0), List.take_replicate]
      simp [Nat.min_eq_left h0]
    simp [memPut, testS3, ht]

/-- C23: local write and a failing input.  `LocalStorage.Write` reads the
whole stream before it touches the filesystem: for every key and every stream
whose reading ends with an error, `Write` returns an error that wraps it and
the filesystem is left exactly as it was. -/
theorem local_write_input_failure (d : LocalStorage) (proc : Proc) (fs : FS) (key : String)
    (value : Reader) (hfail : value.final ≠ ioEOF) :
    d.Write proc fs key value
      = (some (errorfWrapPath value.final (d.fullPath key)), fs) ∧
    errorsIs (errorfWrapPath value.final (d.fullPath key)) value.final = true := by
  refine ⟨?_, errorsIs_wrapError _ _⟩
  simp [LocalStorage.Write, ReadAll, hfail]

/-- Witness of C23: a stream that fails after two bytes leaves the file of the
tests with its content, and creates no file where there was none. -/
theorem local_write_input_failure_witness :
    testStore.Write userProc (tmpTestFileFS (bytesOf "old")) "test.txt" brokenReader
      = (some (errorfWrapPath (.plain "boom") "/tmp/test/test.txt"),
          tmpTestFileFS (bytesOf "old")) ∧
    (testStore.Write userProc tmpTestFS "test.txt" brokenReader).2 = tmpTestFS :=
  ⟨(local_write_input_failure testStore userProc (tmpTestFileFS (bytesOf "old")) "test.txt"
      brokenReader (by decide)).1,
   congrArg Prod.snd (local_write_input_failure testStore userProc tmpTestFS "test.txt"
      brokenReader (by decide)).1⟩

/-! ## Claims on directories -/

/-- C24, as the code has it: local delete of an empty directory.  For every key
whose mapped path names an empty directory as an entry of another directory
(not by a last component `.`, and not the root of the filesystem), in a
directory the process may modify, `LocalStorage.Delete` returns nil and removes
exactly that directory, which no longer exists afterwards; beforehand
`LocalStorage.Exists` returns `(false, nil)` and `LocalStorage.Read` returns an
error for the same key. -/
theorem local_delete_empty_directory (d : LocalStorage) (proc : Proc) (fs : FS) (key : String)
    (hdir : emptyDirectory proc fs (d.fullPath key) = true)
    (hname : namesEntry proc fs (d.fullPath key) = true)
    (hpar : parentModifiable proc fs (d.fullPath key) = true) :
    (∃ q, resolve proc fs (d.fullPath key) = .ok q ∧
      d.Delete proc fs key = (none, fsErase fs q)) ∧
    sysStat proc (d.Delete proc fs key).2 (d.fullPath key) = .error .ENOENT ∧
    d.Exists proc fs key = (false, none) ∧
    ∃ err, d.Read proc fs key = (none, some err) := by
  rcases hr : resolve proc fs (d.fullPath key) with e | q
  · simp [emptyDirectory, hr] at hdir
  · simp only [emptyDirectory, hr] at hdir
    simp only [namesEntry, hr, Bool.and_eq_true, decide_eq_true_eq] at hname
    simp only [parentModifiable, hr] at hpar
    obtain ⟨hlast, hq⟩ := hname
    rcases hg : fsGet fs q with _ | n
    · simp [hg] at hdir
    · cases n with
      | file mode data => simp [hg] at hdir
      | dir mode =>
        simp only [hg, List.isEmpty_iff] at hdir
        have hrm : Remove proc fs (d.fullPath key) = (none, fsErase fs q) := by
          simp [Remove, sysUnlink, sysRmdir, hr, hg, hlast, hq, hpar, hdir]
        have hdel : d.Delete proc fs key = (none, fsErase fs q) := by
          simp [LocalStorage.Delete, hrm]
        refine ⟨⟨q, rfl, hdel⟩, ?_, ?_, ?_⟩
        · rw [hdel]
          exact sysStat_after_erase proc fs q _ hr
        · simp [LocalStorage.Exists, Stat, sysStat, hr, hg, Node.IsDir]
        · by_cases hread : mayRead proc mode = true
          · exact ⟨_, by simp [LocalStorage.Read, ReadFile, hr, hg, hread]; rfl⟩
          · exact ⟨_, by simp [LocalStorage.Read, ReadFile, hr, hg, hread]; rfl⟩

/-- Witness of C24: the empty subdirectory `sub` of the test root is removed by
`Delete("sub")`, and the empty test root itself by `Delete("")`. -/
theorem local_delete_empty_directory_witness :
    testStore.Exists userProc emptySubdirFS "sub" = (false, none) ∧
    sysStat userProc (testStore.Delete userProc emptySubdirFS "sub").2 "/tmp/test/sub"
      = .error .ENOENT ∧
    sysStat userProc (testStore.Delete userProc tmpTestFS "").2 "/tmp/test"
      = .error .ENOENT :=
  ⟨(local_delete_empty_directory testStore userProc emptySubdirFS "sub"
      (by decide) (by decide) (by decide)).2.2.1,
   (local_delete_empty_directory testStore userProc emptySubdirFS "sub"
      (by decide) (by decide) (by decide)).2.1,
   (local_delete_empty_directory testStore userProc tmpTestFS ""
      (by decide) (by decide) (by decide)).2.1⟩

/-- Counterexample to C24 as stated: two empty directories that `Delete` does
not remove.  Under the root `.` the empty key maps to `.`, which `rmdir`
refuses as a name (`EINVAL`) although the working directory is empty and its
parent may be modified; and the empty directory `/ro/sub` stays because the
process may not modify `/ro`.  Both calls return an error and change nothing. -/
theorem local_delete_directory_refused :
    (dotStore.fullPath "" = "." ∧
      emptyDirectory testDirProc tmpTestFS (dotStore.fullPath "") = true ∧
      parentModifiable testDirProc tmpTestFS (dotStore.fullPath "") = true ∧
      dotStore.Delete testDirProc tmpTestFS ""
        = (some (errorfWrapPath (.pathError "remove" "." (.errno .EINVAL)) "."), tmpTestFS)) ∧
    (emptyDirectory userProc readOnlySubdirFS (roStore.fullPath "sub") = true ∧
      roStore.Delete userProc readOnlySubdirFS "sub"
        = (some (errorfWrapPath (.pathError "remove" "/ro/sub" (.errno .EACCES)) "/ro/sub"),
            readOnlySubdirFS)) := by
  decide

/-! ## Claims on what a write leaves alone -/

/-- A failing `WriteFile` leaves the filesystem as it was. -/
theorem WriteFile_err (proc : Proc) (fs fs1 : FS) (name : String) (data : List Byte)
    (perm : Nat) (e : GoError) (h : WriteFile proc fs name data perm = (some e, fs1)) :
    fs1 = fs := by
  unfold WriteFile at h
  cases hr : resolve proc fs name with
  | error e1 =>
    simp only [hr] at h
    exact (Prod.mk.inj h).2.symm
  | ok q =>
    simp only [hr] at h
    cases hg : fsGet fs q with
    | some n =>
      cases n with
      | dir pm =>
        simp only [hg] at h
        exact (Prod.mk.inj h).2.symm
      | file mode old =>
        simp only [hg] at h
        by_cases hw : mayWrite proc mode = true
        · simp [hw] at h
        · simp only [hw] at h
          exact (Prod.mk.inj h).2.symm
    | none =>
      simp only [hg] at h
      cases hp : fsGet fs q.dropLast with
      | none =>
        simp only [hp] at h
        exact (Prod.mk.inj h).2.symm
      | some n =>
        cases n with
        | file m0 d0 =>
          simp only [hp] at h
          exact (Prod.mk.inj h).2.symm
        | dir pmode =>
          simp only [hp] at h
          by_cases hw : (mayWrite proc pmode && maySearch proc pmode) = true
          · simp [hw] at h
          · simp only [hw] at h
            exact (Prod.mk.inj h).2.symm

/-- A `WriteFile` that succeeds where no node was found the directory of the new
file in place. -/
theorem WriteFile_parent (proc : Proc) (fs fs1 : FS) (name : String) (data : List Byte)
    (perm : Nat) (q : AbsPath) (h : WriteFile proc fs name data perm = (none, fs1))
    (hr : resolve proc fs name = .ok q) (hg : fsGet fs q = none) :
    ∃ pm, fsGet fs q.dropLast = some (.dir pm) := by
  unfold WriteFile at h
  simp only [hr, hg] at h
  cases hp : fsGet fs q.dropLast with
  | none => simp [hp] at h
  | some n =>
    cases n with
    | file m0 d0 => simp [hp] at h
    | dir pmode => exact ⟨pmode, rfl⟩

/-- What `Write` of the local driver does to the filesystem: nothing when it
fails, and on success it puts a regular file at the location of the mapped
path, where no directory was, inside a directory that was there. -/
theorem Write_effect (d : LocalStorage) (proc : Proc) (fs : FS) (key : String) (value : Reader) :
    ((d.Write proc fs key value).1 ≠ none ∧ (d.Write proc fs key value).2 = fs) ∨
    ((d.Write proc fs key value).1 = none ∧
      ∃ q mode data, resolve proc fs (d.fullPath key) = .ok q ∧
        (∀ pm, fsGet fs q ≠ some (.dir pm)) ∧
        (d.Write proc fs key value).2 = fsPut fs q (.file mode data) ∧
        (fsGet fs q = none → ∃ pm, fsGet fs q.dropLast = some (.dir pm))) := by
  rcases hw : d.Write proc fs key value with ⟨e, fs1⟩
  cases e with
  | some e =>
    left
    refine ⟨by simp, ?_⟩
    unfold LocalStorage.Write at hw
    rcases hra : ReadAll value with ⟨bts, err⟩
    cases err with
    | some e1 =>
      simp only [hra] at hw
      exact (Prod.mk.inj hw).2.symm
    | none =>
      simp only [hra] at hw
      rcases hwf : WriteFile proc fs (d.fullPath key) bts d.filePermissions with ⟨e2, fs2⟩
      cases e2 with
      | none => simp [hwf] at hw
      | some e2 =>
        simp only [hwf] at hw
        rw [← (Prod.mk.inj hw).2]
        exact WriteFile_err proc fs fs2 _ _ _ e2 hwf
  | none =>
    right
    obtain ⟨_, hwf⟩ := Write_ok d proc fs fs1 key value hw
    obtain ⟨q, mode, hr, hnd, hfs, _⟩ := WriteFile_ok proc fs fs1 _ _ _ hwf
    exact ⟨rfl, q, mode, (ReadAll value).1, hr, hnd, hfs,
      fun hg => WriteFile_parent proc fs fs1 _ _ _ q hwf hr hg⟩

/-- C25: local write frame.  After `LocalStorage.Write(k, v)`, whether it
succeeds or fails: every location other than the one the mapped path of `k`
names holds what it held before; the directories are the same as before; and
every path that named another location names it still, with the same node.  A
failing `Write` changes nothing at all, and a `Write` succeeds only when the
mapped path resolves, to an existing file or to a name inside an existing
directory: a missing directory on the way makes it fail and is not created.
`Read`, `Exists` and `List` are functions of the filesystem and produce no new
one. -/
theorem local_write_frame (d : LocalStorage) (proc : Proc) (fs : FS) (key : String)
    (value : Reader) :
    (∀ p, resolve proc fs (d.fullPath key) ≠ .ok p →
      fsGet (d.Write proc fs key value).2 p = fsGet fs p) ∧
    (∀ p m, fsGet (d.Write proc fs key value).2 p = some (.dir m) ↔
      fsGet fs p = some (.dir m)) ∧
    (∀ path p, resolve proc fs path = .ok p → resolve proc fs (d.fullPath key) ≠ .ok p →
      resolve proc (d.Write proc fs key value).2 path = .ok p ∧
      sysStat proc (d.Write proc fs key value).2 path = sysStat proc fs path) ∧
    ((d.Write proc fs key value).1 ≠ none → (d.Write proc fs key value).2 = fs) ∧
    ((d.Write proc fs key value).1 = none →
      ∃ q, resolve proc fs (d.fullPath key) = .ok q ∧
        ((∃ mode old, fsGet fs q = some (.file mode old)) ∨
          (fsGet fs q = none ∧ ∃ pm, fsGet fs q.dropLast = some (.dir pm)))) := by
  rcases Write_effect d proc fs key value with ⟨herr, hfs⟩ | ⟨hok, q, mode, data, hr, hnd, hfs, hpar⟩
  · rw [hfs]
    refine ⟨fun _ _ => rfl, fun _ _ => Iff.rfl, fun _ _ h _ => ⟨h, rfl⟩, fun _ => rfl, ?_⟩
    intro h
    exact absurd h herr
  · rw [hfs]
    have hother : ∀ p, resolve proc fs (d.fullPath key) ≠ .ok p →
        fsGet (fsPut fs q (.file mode data)) p = fsGet fs p := by
      intro p hp
      have hpq : p ≠ q := by
        intro e
        rw [e] at hp
        exact hp hr
      exact fsGet_fsPut_ne fs q p _ hpq
    have hkept := dirs_kept_fsPut_file fs q mode data hnd
    refine ⟨hother, ?_, ?_, ?_, ?_⟩
    · intro p m
      constructor
      · intro h
        by_cases hpq : p = q
        · rw [hpq, fsGet_fsPut_same] at h
          simp at h
        · rwa [fsGet_fsPut_ne fs q p _ hpq] at h
      · exact hkept p m
    · intro path p hp hne
      have hres := resolve_of_dirs_kept proc fs _ hkept path p hp
      refine ⟨hres, ?_⟩
      simp only [sysStat, hres, hp, hother p hne]
    · intro h
      exact absurd hok h
    · intro _
      refine ⟨q, hr, ?_⟩
      cases hg : fsGet fs q with
      | none => exact Or.inr ⟨rfl, hpar hg⟩
      | some n =>
        cases n with
        | dir pm => exact absurd hg (hnd pm)
        | file m0 old => exact Or.inl ⟨m0, old, rfl⟩

/-- Witness of C25: the key `sub/test.txt` under the test root, where `sub` is
missing, makes `Write` fail and creates nothing; the write of `test.txt` leaves
the directory `/tmp/test` and the other locations as they were. -/
theorem local_write_frame_witness :
    (testStore.Write userProc tmpTestFS "sub/test.txt" (readerOf "test")).2 = tmpTestFS ∧
    fsGet (testStore.Write userProc tmpTestFS "test.txt" (readerOf "test")).2 ["tmp", "test"]
      = fsGet tmpTestFS ["tmp", "test"] :=
  ⟨(local_write_frame testStore userProc tmpTestFS "sub/test.txt" (readerOf "test")).2.2.2.1
      (by decide),
   (local_write_frame testStore userProc tmpTestFS "test.txt" (readerOf "test")).1
      ["tmp", "test"] (by decide)⟩

/-! ## Lemmas on the normal form of `path.Clean` -/

/-- Segments that are not empty join to the empty path only when there are none. -/
theorem joinSlash_eq_nil (segs : List (List Char)) (h : ∀ s ∈ segs, s ≠ [])
    (hj : joinSlash segs = []) : segs = [] := by
  cases segs with
  | nil => rfl
  | cons s rest =>
    cases rest with
    | nil =>
      simp only [joinSlash] at hj
      exact absurd hj (h s (List.mem_cons_self _ _))
    | cons s2 rest2 =>
      rw [joinSlash_cons_cons] at hj
      simp at hj

/-- Joining one more segment adds a slash and the segment. -/
theorem joinSlash_concat (segs : List (List Char)) (s : List Char) (h : segs ≠ []) :
    joinSlash (segs ++ [s]) = joinSlash segs ++ '/' :: s := by
  rw [joinSlash_append segs [s] h (by simp)]
  rfl

/-- The segments of a normal form are not empty and hold no slash. -/
theorem normSegs_segments (rooted : Bool) (st : Nat × List (List Char))
    (hv : normValid rooted st) : ∀ s ∈ normSegs st, s ≠ [] ∧ '/' ∉ s := by
  intro s hs
  unfold normSegs at hs
  rcases List.mem_append.1 hs with h | h
  · rw [List.eq_of_mem_replicate h]
    exact ⟨by simp, by decide⟩
  · exact ⟨(hv.1 s h).1, (hv.1 s h).2.1⟩

/-- The segments after an ordinary segment was added. -/
theorem normSegs_push (st : Nat × List (List Char)) (seg : List Char) :
    normSegs (st.1, st.2 ++ [seg]) = normSegs st ++ [seg] := by
  simp [normSegs, List.append_assoc]

/-- Writing an ordinary segment to the buffer of `path.Clean` gives the buffer for
the normal form with that segment added. -/
theorem render_push (rooted : Bool) (st : Nat × List (List Char)) (seg : List Char)
    (hv : normValid rooted st) :
    renderOut rooted st ++ sepFor rooted (renderOut rooted st) ++ seg
      = renderOut rooted (st.1, st.2 ++ [seg]) := by
  unfold renderOut
  rw [normSegs_push]
  by_cases hL : normSegs st = []
  · rw [hL]
    cases rooted <;> simp [joinSlash, sepFor]
  · have hj : joinSlash (normSegs st) ≠ [] := fun e =>
      hL (joinSlash_eq_nil _ (fun s hs => (normSegs_segments rooted st hv s hs).1) e)
    have hlen : 0 < (joinSlash (normSegs st)).length := List.length_pos.2 hj
    rw [joinSlash_concat _ _ hL]
    cases rooted
    · have : (joinSlash (normSegs st)).length ≠ 0 := by omega
      simp [sepFor, this]
    · have : (joinSlash (normSegs st)).length + 1 ≠ 1 := by omega
      simp [sepFor, this]

/-- No index of a segment without a slash holds a slash. -/
theorem getD_no_slash (s : List Char) (h : '/' ∉ s) : ∀ i, s.getD i ' ' ≠ '/' := by
  induction s with
  | nil => intro i; simp
  | cons x xs ih =>
    intro i
    have hx : x ≠ '/' := fun e => h (by simp [e])
    have hxs : '/' ∉ xs := fun e => h (List.mem_cons_of_mem _ e)
    cases i with
    | zero => simpa using hx
    | succ j => simpa using ih hxs j

/-- The backward scan of the `..` case stops at `k` when `k` is `dotdot` or holds
a slash and nothing between `k` and the start of the scan is a slash. -/
theorem backtrackIdx_scan (buf : List Char) (d k : Nat) (hdk : d ≤ k)
    (hk : k = d ∨ buf.getD k ' ' = '/') :
    ∀ w, k ≤ w → (∀ i, k < i → i ≤ w → buf.getD i ' ' ≠ '/') → backtrackIdx buf d w = k := by
  intro w
  induction w with
  | zero =>
    intro hkw _
    have : k = 0 := by omega
    simp [backtrackIdx, this]
  | succ w ih =>
    intro hkw hall
    unfold backtrackIdx
    by_cases hkw1 : k = w + 1
    · have hcond : ¬ (w + 1 > d ∧ buf.getD (w + 1) ' ' ≠ '/') := by
        rintro ⟨h1, h2⟩
        rcases hk with hk | hk
        · omega
        · rw [hkw1] at hk
          exact h2 hk
      rw [if_neg hcond, hkw1]
    · have hle : k ≤ w := by omega
      have hcond : w + 1 > d ∧ buf.getD (w + 1) ' ' ≠ '/' :=
        ⟨by omega, hall (w + 1) (by omega) (Nat.le_refl _)⟩
      rw [if_pos hcond]
      exact ih hle (fun i h1 h2 => hall i h1 (by omega))

/-- The `..` case drops the last segment of the buffer, with the slash before it. -/
theorem backtrack_segment (base sep s : List Char) (d : Nat) (hs : '/' ∉ s) (hne : s ≠ [])
    (hd : d ≤ base.length) (hsep : sep = ['/'] ∨ (sep = [] ∧ d = base.length)) :
    backtrack (base ++ sep ++ s) d = base := by
  unfold backtrack
  have hpos : 0 < s.length := List.length_pos.2 hne
  have hidx : backtrackIdx (base ++ sep ++ s) d ((base ++ sep ++ s).length - 1) = base.length := by
    apply backtrackIdx_scan _ _ _ hd
    · rcases hsep with h | ⟨h, h2⟩
      · right
        rw [h, List.append_assoc, List.getD_append_right _ _ _ _ (Nat.le_refl _)]
        simp
      · left
        exact h2.symm
    · simp only [List.length_append]
      omega
    · intro i h1 h2
      rcases hsep with h | ⟨h, _⟩
      · rw [h, List.append_assoc, List.getD_append_right _ _ _ _ (by omega)]
        have : i - base.length = (i - base.length - 1) + 1 := by omega
        rw [this]
        simpa using getD_no_slash s hs _
      · rw [h, List.append_nil, List.getD_append_right _ _ _ _ (by omega)]
        exact getD_no_slash s hs _
  rw [hidx, List.append_assoc, List.take_left']
  rfl

/-- The index `dotdot` lies inside the buffer. -/
theorem dotdotOf_le (rooted : Bool) (st : Nat × List (List Char)) :
    dotdotOf rooted st ≤ (renderOut rooted st).length := by
  obtain ⟨n, ord⟩ := st
  unfold dotdotOf renderOut normSegs
  cases rooted
  · simp only [Bool.false_eq_true, if_false, List.nil_append]
    by_cases h1 : ord = []
    · simp [h1]
    · by_cases h2 : List.replicate n ['.', '.'] = []
      · simp [h2, joinSlash]
      · rw [joinSlash_append _ _ h2 h1]
        simp only [List.length_append]
        omega
  · simp

/-- The `..` case of `path.Clean` on the buffer of a normal form gives the buffer
and the index of the normal form after `..`. -/
theorem dotdot_render (rooted : Bool) (st : Nat × List (List Char))
    (hv : normValid rooted st) :
    dotdotStep rooted (renderOut rooted st) (dotdotOf rooted st)
      = (renderOut rooted (normStep rooted st ['.', '.']),
          dotdotOf rooted (normStep rooted st ['.', '.'])) := by
  obtain ⟨n, ord⟩ := st
  have hstep0 : ¬ ((['.', '.'] : List Char) = [] ∨ (['.', '.'] : List Char) = ['.']) := by decide
  rcases List.eq_nil_or_concat ord with h | ⟨ord1, s, h⟩
  · subst h
    cases rooted
    · have hnorm : normStep false (n, []) ['.', '.'] = (n + 1, []) := by
        simp [normStep]
      rw [hnorm]
      have hr1 : renderOut false (n, []) = joinSlash (List.replicate n ['.', '.']) := by
        simp [renderOut, normSegs]
      have hd1 : dotdotOf false (n, [])
          = (joinSlash (List.replicate n ['.', '.'])).length := by
        simp [dotdotOf]
      have hr2 : renderOut false (n + 1, [])
          = (if (joinSlash (List.replicate n ['.', '.'])).length > 0
              then joinSlash (List.replicate n ['.', '.']) ++ ['/']
              else joinSlash (List.replicate n ['.', '.'])) ++ ['.', '.'] := by
        simp only [renderOut, normSegs, Bool.false_eq_true, if_false, List.nil_append,
          List.append_nil, List.replicate_succ']
        by_cases hn : List.replicate n ['.', '.'] = []
        · simp [hn, joinSlash]
        · have hj : joinSlash (List.replicate n ['.', '.']) ≠ [] := fun e =>
            hn (joinSlash_eq_nil _ (fun s hs => by
              rw [List.eq_of_mem_replicate hs]; simp) e)
          have hlen : (joinSlash (List.replicate n ['.', '.'])).length > 0 :=
            List.length_pos.2 hj
          rw [joinSlash_concat _ _ hn, if_pos hlen]
          simp
      have hd2 : dotdotOf false (n + 1, []) = (renderOut false (n + 1, [])).length := by
        simp [dotdotOf, renderOut, normSegs]
      rw [hd2, hr2, hr1, hd1]
      simp [dotdotStep]
    · have hn : n = 0 := hv.2 rfl
      subst hn
      have hnorm : normStep true (0, []) ['.', '.'] = (0, []) := by
        simp [normStep]
      rw [hnorm]
      simp [dotdotStep, renderOut, normSegs, dotdotOf, joinSlash]
  · rw [List.concat_eq_append] at h
    subst h
    have hv1 : normValid rooted (n, ord1) :=
      ⟨fun x hx => hv.1 x (List.mem_append_left _ hx), hv.2⟩
    have hs : ordinarySegment s := hv.1 s (by simp)
    have hnorm : normStep rooted (n, ord1 ++ [s]) ['.', '.'] = (n, ord1) := by
      simp [normStep]
    rw [hnorm]
    have hr := render_push rooted (n, ord1) s hv1
    simp only at hr
    rw [← hr]
    have hd : dotdotOf rooted (n, ord1 ++ [s]) = dotdotOf rooted (n, ord1) := rfl
    rw [hd]
    have hle := dotdotOf_le rooted (n, ord1)
    have hspos : 0 < s.length := List.length_pos.2 hs.1
    have hgt : (renderOut rooted (n, ord1) ++ sepFor rooted (renderOut rooted (n, ord1))
        ++ s).length > dotdotOf rooted (n, ord1) := by
      simp only [List.length_append]
      omega
    rw [dotdotStep, if_pos hgt]
    have hsep : sepFor rooted (renderOut rooted (n, ord1)) = ['/'] ∨
        (sepFor rooted (renderOut rooted (n, ord1)) = [] ∧
          dotdotOf rooted (n, ord1) = (renderOut rooted (n, ord1)).length) := by
      unfold sepFor
      by_cases hc : (rooted = true ∧ (renderOut rooted (n, ord1)).length ≠ 1) ∨
          (¬ rooted = true ∧ (renderOut rooted (n, ord1)).length ≠ 0)
      · left
        rw [if_pos hc]
      · right
        rw [if_neg hc]
        refine ⟨rfl, ?_⟩
        cases rooted
        · have h0 : (renderOut false (n, ord1)).length = 0 := by
            by_contra h
            exact hc (Or.inr ⟨by simp, h⟩)
          omega
        · have h1 : (renderOut true (n, ord1)).length = 1 := by
            by_contra h
            exact hc (Or.inl ⟨rfl, h⟩)
          rw [h1]
          simp [dotdotOf]
    rw [backtrack_segment _ _ s _ hs.2.1 hs.1 hle hsep]

/-- A component without a slash keeps the state valid. -/
theorem normStep_valid (rooted : Bool) (st : Nat × List (List Char)) (seg : List Char)
    (hv : normValid rooted st) (hseg : '/' ∉ seg) : normValid rooted (normStep rooted st seg) := by
  unfold normStep
  by_cases h1 : seg = [] ∨ seg = ['.']
  · rw [if_pos h1]
    exact hv
  · rw [if_neg h1]
    by_cases h2 : seg = ['.', '.']
    · rw [if_pos h2]
      by_cases h3 : st.2 ≠ []
      · rw [if_pos h3]
        exact ⟨fun x hx => hv.1 x (List.mem_of_mem_dropLast hx), hv.2⟩
      · rw [if_neg h3]
        cases rooted
        · exact ⟨by simp, by simp⟩
        · exact hv
    · rw [if_neg h2]
      refine ⟨?_, hv.2⟩
      intro x hx
      rcases List.mem_append.1 hx with h | h
      · exact hv.1 x h
      · rw [List.mem_singleton.1 h]
        exact ⟨fun e => h1 (Or.inl e), hseg, fun e => h1 (Or.inr e), h2⟩

/-- One iteration of `path.Clean` on a path element is one step of the normal form. -/
theorem cleanStep_render (rooted : Bool) (st : Nat × List (List Char))
    (hv : normValid rooted st) (c : Char) (cs tail : List Char) (hseg : '/' ∉ c :: cs)
    (htail : tail = [] ∨ tail.head? = some '/') :
    cleanStep rooted c (cs ++ tail) (renderOut rooted st) (dotdotOf rooted st)
      = (tail, renderOut rooted (normStep rooted st (c :: cs)),
          dotdotOf rooted (normStep rooted st (c :: cs))) := by
  have hc : c ≠ '/' := fun e => hseg (by simp [e])
  by_cases h1 : c :: cs = ['.']
  · obtain ⟨hc1, hcs⟩ := List.cons.inj h1
    subst hc1
    subst hcs
    have hnorm : normStep rooted st ['.'] = st := by simp [normStep]
    rw [hnorm]
    have h2 : '.' = '.' ∧ (tail = [] ∨ tail.head? = some '/') := ⟨rfl, htail⟩
    show cleanStep rooted '.' tail _ _ = _
    unfold cleanStep
    rw [if_neg hc, if_pos h2]
  · by_cases h2 : c :: cs = ['.', '.']
    · obtain ⟨hc1, hcs⟩ := List.cons.inj h2
      subst hc1
      subst hcs
      have hc2 : ¬ ('.' = '.' ∧ ('.' :: tail = [] ∨ ('.' :: tail).head? = some '/')) := by
        simp
      have hc3 : '.' = '.' ∧ ('.' :: tail).head? = some '.' ∧
          (('.' :: tail).tail = [] ∨ ('.' :: tail).tail.head? = some '/') :=
        ⟨rfl, rfl, htail⟩
      show cleanStep rooted '.' ('.' :: tail) _ _ = _
      unfold cleanStep
      rw [if_neg hc, if_neg hc2, if_pos hc3, dotdot_render rooted st hv]
      rfl
    · have hord : ordinarySegment (c :: cs) := ⟨by simp, hseg, h1, h2⟩
      rw [cleanStep_ordinary rooted c cs tail _ _ hord htail]
      have hnorm : normStep rooted st (c :: cs) = (st.1, st.2 ++ [c :: cs]) := by
        have h0 : ¬ (c :: cs = [] ∨ c :: cs = ['.']) := by
          rintro (h | h)
          · simp at h
          · exact h1 h
        simp only [normStep, if_neg h0, if_neg h2]
      rw [hnorm, render_push rooted st (c :: cs) hv]
      rfl

/-- An empty component changes nothing. -/
theorem normStep_nil (rooted : Bool) (st : Nat × List (List Char)) :
    normStep rooted st [] = st := by
  simp [normStep]

/-- The components of a path that starts with an element. -/
theorem splitSlash_segment (seg tail : List Char) (hseg : '/' ∉ seg)
    (htail : tail = [] ∨ tail.head? = some '/') :
    splitSlash (seg ++ tail) = seg :: (splitSlash tail).tail := by
  rcases htail with h | h
  · subst h
    rw [List.append_nil, splitSlash_no_slash seg hseg]
    rfl
  · cases tail with
    | nil => simp at h
    | cons x xs =>
      simp only [List.head?_cons, Option.some.injEq] at h
      subst h
      rw [splitSlash_append, splitSlash_no_slash seg hseg]
      simp [splitSlash]

/-- The empty component before the slash that ends an element changes nothing. -/
theorem foldl_norm_tail (rooted : Bool) (tail : List Char) (st : Nat × List (List Char))
    (htail : tail = [] ∨ tail.head? = some '/') :
    (splitSlash tail).tail.foldl (normStep rooted) st
      = (splitSlash tail).foldl (normStep rooted) st := by
  rcases htail with h | h
  · subst h
    simp [splitSlash, normStep_nil]
  · cases tail with
    | nil => simp at h
    | cons x xs =>
      simp only [List.head?_cons, Option.some.injEq] at h
      subst h
      simp [splitSlash, normStep_nil]

/-- The loop of `path.Clean` computes the normal form of the components it reads. -/
theorem cleanLoop_norm (rooted : Bool) :
    ∀ (n : Nat) (rest : List Char), rest.length ≤ n → ∀ st, normValid rooted st →
      cleanLoop rooted rest.length rest (renderOut rooted st) (dotdotOf rooted st)
        = renderOut rooted ((splitSlash rest).foldl (normStep rooted) st) := by
  intro n
  induction n with
  | zero =>
    intro rest hlen st _
    have : rest = [] := List.length_eq_zero.1 (Nat.le_zero.1 hlen)
    subst this
    simp [cleanLoop, splitSlash, normStep_nil]
  | succ n ih =>
    intro rest hlen st hv
    cases rest with
    | nil => simp [cleanLoop, splitSlash, normStep_nil]
    | cons c cs =>
      have hcs : cs.length ≤ n := by simpa using hlen
      rw [List.length_cons, cleanLoop_succ]
      by_cases hc : c = '/'
      · subst hc
        have hstep : cleanStep rooted '/' cs (renderOut rooted st) (dotdotOf rooted st)
            = (cs, renderOut rooted st, dotdotOf rooted st) := by
          simp [cleanStep]
        rw [hstep]
        simp only
        rw [ih cs hcs st hv]
        simp [splitSlash, normStep_nil]
      · have hsplit : cs = cs.takeWhile (· ≠ '/') ++ cs.dropWhile (· ≠ '/') :=
          (List.takeWhile_append_dropWhile _ _).symm
        have hseg : '/' ∉ c :: cs.takeWhile (· ≠ '/') := by
          intro h
          rcases List.mem_cons.1 h with h | h
          · exact hc h.symm
          · have := List.mem_takeWhile_imp h
            simp at this
        have htail : cs.dropWhile (· ≠ '/') = [] ∨
            (cs.dropWhile (· ≠ '/')).head? = some '/' := by
          cases hd : cs.dropWhile (· ≠ '/') with
          | nil => exact Or.inl rfl
          | cons x xs =>
            right
            have hx := List.head_dropWhile_not (· ≠ '/') cs (by rw [hd]; simp)
            simp only [hd, List.head_cons] at hx
            simpa using hx
        have hstep := cleanStep_render rooted st hv c (cs.takeWhile (· ≠ '/'))
          (cs.dropWhile (· ≠ '/')) hseg htail
        rw [← hsplit] at hstep
        rw [hstep]
        simp only
        have hdl : (cs.dropWhile (· ≠ '/')).length ≤ cs.length := by
          have := congrArg List.length hsplit
          simp only [List.length_append] at this
          omega
        rw [cleanLoop_fuel rooted cs.length _ _ _ hdl]
        rw [ih _ (by omega) _ (normStep_valid rooted st _ hv hseg)]
        have hsp : splitSlash (c :: cs)
            = (c :: cs.takeWhile (· ≠ '/')) :: (splitSlash (cs.dropWhile (· ≠ '/'))).tail := by
          have := splitSlash_segment (c :: cs.takeWhile (· ≠ '/')) (cs.dropWhile (· ≠ '/'))
            hseg htail
          rw [List.cons_append, ← hsplit] at this
          exact this
        rw [hsp, List.foldl_cons, foldl_norm_tail rooted _ _ htail]

/-- Splitting what was joined from segments without a slash gives the segments. -/
theorem splitSlash_joinSlash (segs : List (List Char)) (h : ∀ s ∈ segs, '/' ∉ s)
    (hne : segs ≠ []) : splitSlash (joinSlash segs) = segs := by
  induction segs with
  | nil => exact absurd rfl hne
  | cons s rest ih =>
    cases rest with
    | nil => exact splitSlash_no_slash s (h s (List.mem_cons_self _ _))
    | cons s2 rest2 =>
      rw [joinSlash_cons_cons, splitSlash_append,
        splitSlash_no_slash s (h s (List.mem_cons_self _ _)),
        ih (fun x hx => h x (List.mem_cons_of_mem _ hx)) (by simp)]
      rfl

/-- A component holds no slash, and its characters are characters of the path. -/
theorem splitSlash_mem (a : List Char) :
    ∀ s ∈ splitSlash a, '/' ∉ s ∧ ∀ ch ∈ s, ch ∈ a := by
  induction a with
  | nil =>
    intro s hs
    simp only [splitSlash, List.mem_singleton] at hs
    subst hs
    simp
  | cons c cs ih =>
    intro s hs
    unfold splitSlash at hs
    by_cases hc : c = '/'
    · rw [if_pos hc] at hs
      rcases List.mem_cons.1 hs with h | h
      · subst h
        simp
      · exact ⟨(ih s h).1, fun ch hch => List.mem_cons_of_mem _ ((ih s h).2 ch hch)⟩
    · rw [if_neg hc] at hs
      cases hsp : splitSlash cs with
      | nil => exact absurd hsp (splitSlash_ne_nil cs)
      | cons seg segs =>
        rw [hsp] at hs ih
        simp only at hs
        rcases List.mem_cons.1 hs with h | h
        · subst h
          have hseg := ih seg (List.mem_cons_self _ _)
          constructor
          · intro hm
            rcases List.mem_cons.1 hm with h1 | h1
            · exact hc h1.symm
            · exact hseg.1 h1
          · intro ch hch
            rcases List.mem_cons.1 hch with h1 | h1
            · rw [h1]
              exact List.mem_cons_self _ _
            · exact List.mem_cons_of_mem _ (hseg.2 ch h1)
        · have hseg := ih s (List.mem_cons_of_mem _ h)
          exact ⟨hseg.1, fun ch hch => List.mem_cons_of_mem _ (hseg.2 ch hch)⟩

/-- Reading components keeps the state valid. -/
theorem norm_foldl_valid (rooted : Bool) :
    ∀ (segs : List (List Char)) (st : Nat × List (List Char)), normValid rooted st →
      (∀ s ∈ segs, '/' ∉ s) → normValid rooted (segs.foldl (normStep rooted) st) := by
  intro segs
  induction segs with
  | nil => intro st hv _; exact hv
  | cons seg rest ih =>
    intro st hv h
    rw [List.foldl_cons]
    exact ih _ (normStep_valid rooted st seg hv (h seg (List.mem_cons_self _ _)))
      (fun x hx => h x (List.mem_cons_of_mem _ hx))

/-- What holds of the segments kept so far and of the components read holds of
every segment kept afterwards. -/
theorem norm_foldl_mem (rooted : Bool) (good : List Char → Prop) :
    ∀ (segs : List (List Char)) (st : Nat × List (List Char)), (∀ s ∈ st.2, good s) →
      (∀ s ∈ segs, good s) → ∀ s ∈ (segs.foldl (normStep rooted) st).2, good s := by
  intro segs
  induction segs with
  | nil => intro st hst _; exact hst
  | cons seg rest ih =>
    intro st hst h
    rw [List.foldl_cons]
    apply ih _ _ (fun x hx => h x (List.mem_cons_of_mem _ hx))
    unfold normStep
    split_ifs
    · exact hst
    · exact fun x hx => hst x (List.mem_of_mem_dropLast hx)
    · exact hst
    · simp
    · intro x hx
      rcases List.mem_append.1 hx with h1 | h1
      · exact hst x h1
      · rw [List.mem_singleton.1 h1]
        exact h seg (List.mem_cons_self _ _)

/-- The cleaned form of an absolute path: the slash and the joined normal form. -/
theorem cleanChars_norm_abs (cs : List Char) :
    cleanChars ('/' :: cs)
      = '/' :: joinSlash (((splitSlash cs).foldl (normStep true) (0, [])).2) ∧
    normValid true ((splitSlash cs).foldl (normStep true) (0, [])) := by
  have hv0 : normValid true (0, []) := ⟨by simp, fun _ => rfl⟩
  have hv := norm_foldl_valid true (splitSlash cs) (0, []) hv0
    (fun s hs => (splitSlash_mem cs s hs).1)
  refine ⟨?_, hv⟩
  have h := cleanLoop_norm true cs.length cs (Nat.le_refl _) (0, []) hv0
  have h0 : renderOut true (0, []) = ['/'] := rfl
  have h1 : dotdotOf true (0, []) = 1 := rfl
  rw [h0, h1] at h
  rw [cleanChars_abs, h]
  have hn : ((splitSlash cs).foldl (normStep true) (0, [])).1 = 0 := hv.2 rfl
  simp [renderOut, normSegs, hn]

/-- The cleaned form of a relative path: the joined normal form, or `.` when it is
empty. -/
theorem cleanChars_norm_rel (c : Char) (cs : List Char) (hc : c ≠ '/') :
    cleanChars (c :: cs)
      = (if normSegs ((splitSlash (c :: cs)).foldl (normStep false) (0, [])) = [] then ['.']
        else joinSlash (normSegs ((splitSlash (c :: cs)).foldl (normStep false) (0, [])))) ∧
    normValid false ((splitSlash (c :: cs)).foldl (normStep false) (0, [])) := by
  have hv0 : normValid false (0, []) := ⟨by simp, by simp⟩
  have hv := norm_foldl_valid false (splitSlash (c :: cs)) (0, []) hv0
    (fun s hs => (splitSlash_mem (c :: cs) s hs).1)
  refine ⟨?_, hv⟩
  have h := cleanLoop_norm false (c :: cs).length (c :: cs) (Nat.le_refl _) (0, []) hv0
  have h0 : renderOut false (0, []) = [] := rfl
  have h1 : dotdotOf false (0, []) = 0 := rfl
  rw [h0, h1] at h
  rw [cleanChars_rel c cs hc, h]
  by_cases hn : normSegs ((splitSlash (c :: cs)).foldl (normStep false) (0, [])) = []
  · simp [renderOut, hn, joinSlash]
  · have hj : joinSlash (normSegs ((splitSlash (c :: cs)).foldl (normStep false) (0, []))) ≠ [] :=
      fun e => hn (joinSlash_eq_nil _ (fun s hs => (normSegs_segments false _ hv s hs).1) e)
    simp [renderOut, hn, hj]

/-! ## Lemmas on the path walk over a cleaned path -/

/-- Strings are equal exactly when their characters are. -/
theorem mk_eq_iff (s t : List Char) : String.mk s = String.mk t ↔ s = t :=
  ⟨fun h => congrArg String.data h, fun h => by rw [h]⟩

/-- What a successful walk did at its first component. -/
theorem walk_cons_ok (proc : Proc) (fs : FS) (cur q : AbsPath) (c : String) (cs : List String)
    (h : walk proc fs cur (c :: cs) = .ok q) :
    ∃ mode, fsGet fs cur = some (.dir mode) ∧
      (c = "" → walk proc fs cur cs = .ok q) ∧
      (c ≠ "" → maySearch proc mode = true ∧
        (c = "." → walk proc fs cur cs = .ok q) ∧
        (c = ".." → walk proc fs cur.dropLast cs = .ok q) ∧
        (c ≠ "." → c ≠ ".." → walk proc fs (cur ++ [c]) cs = .ok q)) := by
  cases hg : fsGet fs cur with
  | none =>
    rw [walk_none proc fs cur c cs hg] at h
    exact absurd h (by simp)
  | some n =>
    cases n with
    | file mode data =>
      rw [walk_file proc fs cur c cs mode data hg] at h
      exact absurd h (by simp)
    | dir mode =>
      rw [walk_dir proc fs cur c cs mode hg] at h
      refine ⟨mode, rfl, ?_, ?_⟩
      · intro hc
        rwa [if_pos hc] at h
      · intro hc
        rw [if_neg hc] at h
        by_cases hs : maySearch proc mode = false
        · rw [if_pos hs] at h
          exact absurd h (by simp)
        · rw [if_neg hs] at h
          refine ⟨by simpa using hs, ?_, ?_, ?_⟩
          · intro h1
            rwa [if_pos h1] at h
          · intro h2
            have h1 : c ≠ "." := by rw [h2]; decide
            rwa [if_neg h1, if_pos h2] at h
          · intro h1 h2
            rwa [if_neg h1, if_neg h2] at h

/-- The walk over one component from a directory the process may search. -/
theorem walk_single (proc : Proc) (fs : FS) (cur : AbsPath) (c : String) (mode : Nat)
    (hg : fsGet fs cur = some (.dir mode)) (hs : maySearch proc mode = true) :
    walk proc fs cur [c]
      = .ok (if c = "" ∨ c = "." then cur else if c = ".." then cur.dropLast else cur ++ [c]) := by
  rw [walk_dir proc fs cur c [] mode hg]
  have hs1 : ¬ maySearch proc mode = false := by simp [hs]
  by_cases h0 : c = ""
  · simp [h0, walk]
  · by_cases h1 : c = "."
    · simp [h1, walk, hs]
    · by_cases h2 : c = ".."
      · simp [h2, walk, hs]
      · simp [h0, h1, h2, walk, hs]

/-- The walk over the normal form of the components read arrives where the walk
over the components themselves arrives: every lookup of the former is a lookup
of the latter. -/
theorem walk_norm (proc : Proc) (fs : FS) (rooted : Bool) (start : AbsPath)
    (hroot : rooted = true → start = []) :
    ∀ (segs : List (List Char)) (st : Nat × List (List Char)) (loc q : AbsPath),
      (∀ s ∈ segs, '/' ∉ s) → normValid rooted st →
      walk proc fs start ((normSegs st).map String.mk) = .ok loc →
      walk proc fs loc (segs.map String.mk) = .ok q →
      walk proc fs start
        ((normSegs (segs.foldl (normStep rooted) st)).map String.mk) = .ok q := by
  intro segs
  induction segs with
  | nil =>
    intro st loc q _ _ hst hw
    simp only [List.map_nil, walk] at hw
    have : loc = q := Except.ok.inj hw
    subst this
    exact hst
  | cons seg rest ih =>
    intro st loc q hsegs hv hst hw
    have hrest : ∀ s ∈ rest, '/' ∉ s := fun x hx => hsegs x (List.mem_cons_of_mem _ hx)
    have hseg : '/' ∉ seg := hsegs seg (List.mem_cons_self _ _)
    rw [List.map_cons] at hw
    obtain ⟨mode, hg, h0, h1⟩ := walk_cons_ok proc fs loc q _ _ hw
    rw [List.foldl_cons]
    by_cases e0 : seg = []
    · subst e0
      rw [normStep_nil]
      exact ih st loc q hrest hv hst (h0 rfl)
    · have hne : String.mk seg ≠ "" := fun e => e0 ((mk_eq_iff seg []).1 e)
      obtain ⟨hs, hdot, hdd, hord⟩ := h1 hne
      by_cases e1 : seg = ['.']
      · subst e1
        have hn : normStep rooted st ['.'] = st := by simp [normStep]
        rw [hn]
        exact ih st loc q hrest hv hst (hdot rfl)
      · by_cases e2 : seg = ['.', '.']
        · subst e2
          have hw2 := hdd rfl
          obtain ⟨n, ord⟩ := st
          rcases List.eq_nil_or_concat ord with h | ⟨ord1, s, h⟩
          · subst h
            cases rooted
            · have hn : normStep false (n, []) ['.', '.'] = (n + 1, []) := by simp [normStep]
              rw [hn]
              apply ih (n + 1, []) loc.dropLast q hrest ⟨by simp, by simp⟩ _ hw2
              have hsegs1 : normSegs (n + 1, []) = normSegs (n, []) ++ [['.', '.']] := by
                simp [normSegs, List.replicate_succ']
              rw [hsegs1, List.map_append, walk_append, hst]
              simp only [List.map_cons, List.map_nil]
              rw [walk_single proc fs loc _ mode hg hs]
              rfl
            · have hn : normStep true (n, []) ['.', '.'] = (n, []) := by simp [normStep]
              rw [hn]
              have hn0 : n = 0 := hv.2 rfl
              subst hn0
              have hloc : loc = [] := by
                have hst1 : walk proc fs start [] = .ok loc := hst
                simp only [walk] at hst1
                rw [← Except.ok.inj hst1]
                exact hroot rfl
              subst hloc
              exact ih (0, []) [] q hrest hv hst hw2
          · rw [List.concat_eq_append] at h
            subst h
            have hn : normStep rooted (n, ord1 ++ [s]) ['.', '.'] = (n, ord1) := by
              simp [normStep]
            rw [hn]
            have hv1 : normValid rooted (n, ord1) :=
              ⟨fun x hx => hv.1 x (List.mem_append_left _ hx), hv.2⟩
            have hso : ordinarySegment s := hv.1 s (by simp)
            have hpush := normSegs_push (n, ord1) s
            simp only at hpush
            rw [hpush, List.map_append, walk_append] at hst
            cases hpre : walk proc fs start ((normSegs (n, ord1)).map String.mk) with
            | error e =>
              rw [hpre] at hst
              exact absurd hst (by simp)
            | ok base =>
              rw [hpre] at hst
              simp only [List.map_cons, List.map_nil] at hst
              obtain ⟨m1, _, _, hb⟩ := walk_cons_ok proc fs base loc _ _ hst
              have hs0 : String.mk s ≠ "" := fun e => hso.1 ((mk_eq_iff s []).1 e)
              have hs1 : String.mk s ≠ "." := fun e => hso.2.2.1 ((mk_eq_iff s ['.']).1 e)
              have hs2 : String.mk s ≠ ".." := fun e => hso.2.2.2 ((mk_eq_iff s ['.', '.']).1 e)
              have hlast := (hb hs0).2.2.2 hs1 hs2
              simp only [walk] at hlast
              have hloc : loc = base ++ [String.mk s] := (Except.ok.inj hlast).symm
              have hdl : loc.dropLast = base := by rw [hloc]; simp
              rw [hdl] at hw2
              exact ih (n, ord1) base q hrest hv1 hpre hw2
        · have hc1 : String.mk seg ≠ "." := fun e => e1 ((mk_eq_iff seg ['.']).1 e)
          have hc2 : String.mk seg ≠ ".." := fun e => e2 ((mk_eq_iff seg ['.', '.']).1 e)
          have hw2 := hord hc1 hc2
          have hn : normStep rooted st seg = (st.1, st.2 ++ [seg]) := by
            have h0 : ¬ (seg = [] ∨ seg = ['.']) := by
              rintro (h | h)
              · exact e0 h
              · exact e1 h
            simp only [normStep, if_neg h0, if_neg e2]
          rw [hn]
          have hv1 : normValid rooted (st.1, st.2 ++ [seg]) := by
            rw [← hn]
            exact normStep_valid rooted st seg hv hseg
          apply ih (st.1, st.2 ++ [seg]) (loc ++ [String.mk seg]) q hrest hv1 _ hw2
          rw [normSegs_push, List.map_append, walk_append, hst]
          simp only [List.map_cons, List.map_nil]
          rw [walk_single proc fs loc _ mode hg hs]
          simp [hne, hc1, hc2]

/-- A character of a joined path is a slash or a character of a segment. -/
theorem joinSlash_mem (segs : List (List Char)) (ch : Char) (h : ch ∈ joinSlash segs) :
    ch = '/' ∨ ∃ s ∈ segs, ch ∈ s := by
  induction segs with
  | nil => simp [joinSlash] at h
  | cons s rest ih =>
    cases rest with
    | nil =>
      simp only [joinSlash] at h
      exact Or.inr ⟨s, List.mem_cons_self _ _, h⟩
    | cons s2 rest2 =>
      rw [joinSlash_cons_cons] at h
      rcases List.mem_append.1 h with h1 | h1
      · exact Or.inr ⟨s, List.mem_cons_self _ _, h1⟩
      · rcases List.mem_cons.1 h1 with h2 | h2
        · exact Or.inl h2
        · rcases ih h2 with h3 | ⟨x, hx, hch⟩
          · exact Or.inl h3
          · exact Or.inr ⟨x, List.mem_cons_of_mem _ hx, hch⟩

/-- A path joined from segments starts with the first character of the first. -/
theorem joinSlash_head (segs : List (List Char)) (h : ∀ s ∈ segs, s ≠ [] ∧ '/' ∉ s)
    (hne : segs ≠ []) : ∃ x xs, joinSlash segs = x :: xs ∧ x ≠ '/' := by
  cases segs with
  | nil => exact absurd rfl hne
  | cons s rest =>
    have hs := h s (List.mem_cons_self _ _)
    cases s with
    | nil => exact absurd rfl hs.1
    | cons x xs =>
      have hx : x ≠ '/' := fun e => hs.2 (by simp [e])
      cases rest with
      | nil => exact ⟨x, xs, rfl, hx⟩
      | cons s2 rest2 => exact ⟨x, _, rfl, hx⟩

/-- The characters of a cleaned path are those of the path, slashes and dots. -/
theorem cleanChars_mem (p : List Char) (ch : Char) (h : ch ∈ cleanChars p) :
    ch = '/' ∨ ch = '.' ∨ ch ∈ p := by
  cases p with
  | nil =>
    simp only [cleanChars, List.mem_singleton] at h
    exact Or.inr (Or.inl h)
  | cons c cs =>
    by_cases hc : c = '/'
    · subst hc
      rw [(cleanChars_norm_abs cs).1] at h
      rcases List.mem_cons.1 h with h1 | h1
      · exact Or.inl h1
      · rcases joinSlash_mem _ _ h1 with h2 | ⟨s, hs, hch⟩
        · exact Or.inl h2
        · have := norm_foldl_mem true (fun s => ∀ x ∈ s, x ∈ cs) (splitSlash cs) (0, [])
            (by simp) (fun s hs => (splitSlash_mem cs s hs).2) s hs ch hch
          exact Or.inr (Or.inr (List.mem_cons_of_mem _ this))
    · rw [(cleanChars_norm_rel c cs hc).1] at h
      split_ifs at h with hn
      · exact Or.inr (Or.inl (List.mem_singleton.1 h))
      · rcases joinSlash_mem _ _ h with h2 | ⟨s, hs, hch⟩
        · exact Or.inl h2
        · unfold normSegs at hs
          rcases List.mem_append.1 hs with h3 | h3
          · rw [List.eq_of_mem_replicate h3] at hch
            simp only [List.mem_cons, List.mem_singleton, or_self, List.mem_nil_iff,
              or_false] at hch
            exact Or.inr (Or.inl hch)
          · exact Or.inr (Or.inr (norm_foldl_mem false (fun s => ∀ x ∈ s, x ∈ c :: cs)
              (splitSlash (c :: cs)) (0, []) (by simp)
              (fun s hs => (splitSlash_mem (c :: cs) s hs).2) s h3 ch hch))

/-- The first component of a relative path is not empty. -/
theorem splitSlash_cons_ne (c : Char) (cs : List Char) (hc : c ≠ '/') :
    ∃ seg segs, splitSlash (c :: cs) = (c :: seg) :: segs := by
  unfold splitSlash
  rw [if_neg hc]
  cases splitSlash cs with
  | nil => exact ⟨[], [], rfl⟩
  | cons seg segs => exact ⟨seg, segs, rfl⟩

/-- Without symbolic links the kernel resolves the cleaned path to the location
it resolves the path itself to. -/
theorem resolve_Clean (proc : Proc) (fs : FS) (path : String) (q : AbsPath)
    (h : resolve proc fs path = .ok q) : resolve proc fs (Clean path) = .ok q := by
  unfold resolve at h
  by_cases he : path = ""
  · rw [if_pos he] at h
    exact absurd h (by simp)
  rw [if_neg he] at h
  by_cases hz : Char.ofNat 0 ∈ path.data
  · rw [if_pos hz] at h
    exact absurd h (by simp)
  rw [if_neg hz] at h
  have hz1 : Char.ofNat 0 ∉ (Clean path).data := by
    intro hm
    rcases cleanChars_mem path.data _ hm with h1 | h1 | h1
    · exact absurd h1 (by decide)
    · exact absurd h1 (by decide)
    · exact hz h1
  rcases hd : path.data with _ | ⟨c, cs⟩
  · exact absurd (String.ext hd) he
  have hcdata : (Clean path).data = cleanChars (c :: cs) := by
    simp [Clean, hd]
  unfold components at h
  rw [hd] at h
  by_cases hc : c = '/'
  · subst hc
    simp only [List.head?_cons, if_true] at h
    obtain ⟨hcl, hv⟩ := cleanChars_norm_abs cs
    have hsp : splitSlash ('/' :: cs) = [] :: splitSlash cs := by simp [splitSlash]
    rw [hsp, List.map_cons] at h
    obtain ⟨mode, hg, h0, _⟩ := walk_cons_ok proc fs [] q _ _ h
    have hw := h0 rfl
    have hn := walk_norm proc fs true [] (fun _ => rfl) (splitSlash cs) (0, []) [] q
      (fun s hs => (splitSlash_mem cs s hs).1) ⟨by simp, fun _ => rfl⟩ rfl hw
    have hn0 : ((splitSlash cs).foldl (normStep true) (0, [])).1 = 0 := hv.2 rfl
    have hsegs : normSegs ((splitSlash cs).foldl (normStep true) (0, []))
        = ((splitSlash cs).foldl (normStep true) (0, [])).2 := by
      simp [normSegs, hn0]
    rw [hsegs] at hn
    have hne : Clean path ≠ "" := by
      intro e
      have := congrArg String.data e
      rw [hcdata, hcl] at this
      simp at this
    unfold resolve
    rw [if_neg hne, if_neg hz1]
    unfold components
    rw [hcdata, hcl]
    simp only [List.head?_cons, if_true]
    have hsp2 : splitSlash ('/' :: joinSlash ((splitSlash cs).foldl (normStep true) (0, [])).2)
        = [] :: splitSlash (joinSlash ((splitSlash cs).foldl (normStep true) (0, [])).2) := by
      simp [splitSlash]
    rw [hsp2, List.map_cons, walk_dir proc fs [] _ _ mode hg, if_pos rfl]
    by_cases hord : ((splitSlash cs).foldl (normStep true) (0, [])).2 = []
    · rw [hord] at hn ⊢
      simp only [List.map_nil, walk] at hn
      simp only [joinSlash, splitSlash, List.map_cons, List.map_nil]
      rw [walk_dir proc fs [] _ _ mode hg, if_pos rfl]
      simpa [walk] using hn
    · rw [splitSlash_joinSlash _ (fun s hs => (hv.1 s hs).2.1) hord]
      exact hn
  · have hhead : ¬ ((c :: cs).head? = some '/') := by simpa using hc
    rw [if_neg hhead] at h
    obtain ⟨hcl, hv⟩ := cleanChars_norm_rel c cs hc
    have hn := walk_norm proc fs false proc.cwd (by simp) (splitSlash (c :: cs)) (0, [])
      proc.cwd q (fun s hs => (splitSlash_mem (c :: cs) s hs).1) ⟨by simp, by simp⟩ rfl h
    unfold resolve
    by_cases hnil : normSegs ((splitSlash (c :: cs)).foldl (normStep false) (0, [])) = []
    · rw [if_pos hnil] at hcl
      have hdot : Clean path = "." := String.ext (by rw [hcdata, hcl])
      rw [hnil] at hn
      simp only [List.map_nil, walk] at hn
      obtain ⟨seg, segs, hsp⟩ := splitSlash_cons_ne c cs hc
      rw [hsp, List.map_cons] at h
      obtain ⟨mode, hg, _, h1⟩ := walk_cons_ok proc fs proc.cwd q _ _ h
      have hne0 : String.mk (c :: seg) ≠ "" := fun e => by
        have := (mk_eq_iff (c :: seg) []).1 e
        simp at this
      have hs := (h1 hne0).1
      rw [hdot]
      have hcomp : components "." = ["."] := by decide
      have hd1 : ¬ ("." = "") := by decide
      have hd2 : Char.ofNat 0 ∉ (".": String).data := by decide
      have hd3 : ¬ ((".": String).data.head? = some '/') := by decide
      rw [if_neg hd1, if_neg hd2, if_neg hd3, hcomp, walk_single proc fs proc.cwd _ mode hg hs]
      simpa using hn
    · rw [if_neg hnil] at hcl
      obtain ⟨x, xs, hj, hx⟩ := joinSlash_head _ (normSegs_segments false _ hv) hnil
      have hne : Clean path ≠ "" := by
        intro e
        have := congrArg String.data e
        rw [hcdata, hcl, hj] at this
        simp at this
      have hh : ¬ ((Clean path).data.head? = some '/') := by
        rw [hcdata, hcl, hj]
        simpa using hx
      rw [if_neg hne, if_neg hz1, if_neg hh]
      unfold components
      rw [hcdata, hcl, splitSlash_joinSlash _ (fun s hs => (normSegs_segments false _ hv s hs).2)
        hnil]
      exact hn

/-! ## Lemmas on listing and probing -/

/-- A path a process resolves is resolved alike by a privileged process. -/
theorem walk_privileged (proc : Proc) (fs : FS) :
    ∀ (cs : List String) (cur q : AbsPath), walk proc fs cur cs = .ok q →
      walk (asPrivileged proc) fs cur cs = .ok q := by
  intro cs
  induction cs with
  | nil =>
    intro cur q h
    simpa [walk] using h
  | cons c cs ih =>
    intro cur q h
    obtain ⟨mode, hg, h0, h1⟩ := walk_cons_ok proc fs cur q c cs h
    rw [walk_dir (asPrivileged proc) fs cur c cs mode hg]
    have hs : ¬ maySearch (asPrivileged proc) mode = false := by
      simp [maySearch, asPrivileged]
    by_cases hc : c = ""
    · rw [if_pos hc]
      exact ih _ _ (h0 hc)
    · rw [if_neg hc, if_neg hs]
      obtain ⟨_, hdot, hdd, hord⟩ := h1 hc
      by_cases h2 : c = "."
      · rw [if_pos h2]
        exact ih _ _ (hdot h2)
      · rw [if_neg h2]
        by_cases h3 : c = ".."
        · rw [if_pos h3]
          exact ih _ _ (hdd h3)
        · rw [if_neg h3]
          exact ih _ _ (hord h2 h3)

/-- A path a process resolves is resolved alike with privilege. -/
theorem resolve_privileged (proc : Proc) (fs : FS) (path : String) (q : AbsPath)
    (h : resolve proc fs path = .ok q) : resolve (asPrivileged proc) fs path = .ok q := by
  unfold resolve at h ⊢
  by_cases he : path = ""
  · rw [if_pos he] at h
    exact absurd h (by simp)
  rw [if_neg he] at h ⊢
  by_cases hz : Char.ofNat 0 ∈ path.data
  · rw [if_pos hz] at h
    exact absurd h (by simp)
  rw [if_neg hz] at h ⊢
  exact walk_privileged proc fs _ _ _ h

/-- The path `root/k` for a single component `k`, below a root that resolves to
a directory the process may search: one step from the root. -/
theorem resolve_child (proc : Proc) (fs : FS) (root k : String) (q : AbsPath) (mode : Nat)
    (hr : resolve proc fs root = .ok q) (hg : fsGet fs q = some (.dir mode))
    (hs : maySearch proc mode = true) (hk : '/' ∉ k.data) (hz : Char.ofNat 0 ∉ k.data) :
    resolve proc fs ⟨root.data ++ '/' :: k.data⟩ = .ok (stepTo q k) := by
  unfold resolve at hr
  by_cases he : root = ""
  · rw [if_pos he] at hr
    exact absurd hr (by simp)
  rw [if_neg he] at hr
  by_cases hz0 : Char.ofNat 0 ∈ root.data
  · rw [if_pos hz0] at hr
    exact absurd hr (by simp)
  rw [if_neg hz0] at hr
  have hd : root.data ≠ [] := fun h => he (String.ext h)
  obtain ⟨c, cs, hcs⟩ := List.exists_cons_of_ne_nil hd
  unfold resolve
  have hne : (⟨root.data ++ '/' :: k.data⟩ : String) ≠ "" := by
    intro e
    have := congrArg String.data e
    simp at this
  have hnz : Char.ofNat 0 ∉ (⟨root.data ++ '/' :: k.data⟩ : String).data := by
    intro hm
    rcases List.mem_append.1 hm with h | h
    · exact hz0 h
    · rcases List.mem_cons.1 h with h1 | h1
      · exact absurd h1 (by decide)
      · exact hz h1
  rw [if_neg hne, if_neg hnz]
  have hhead : (⟨root.data ++ '/' :: k.data⟩ : String).data.head? = root.data.head? := by
    simp [hcs]
  rw [hhead]
  have hcomp : components ⟨root.data ++ '/' :: k.data⟩ = components root ++ [k] := by
    unfold components
    simp only
    rw [splitSlash_append, List.map_append, splitSlash_no_slash k.data hk]
    rfl
  rw [hcomp, walk_append, hr]
  simp only
  rw [walk_single proc fs q k mode hg hs]
  rfl

/-- A listing with entries takes search permission on the directory. -/
theorem ReadDir_searchable (proc : Proc) (fs : FS) (dirname : String) (files : List FileInfo)
    (q : AbsPath) (mode : Nat) (h : ReadDir proc fs dirname = .ok files)
    (hr : resolve proc fs dirname = .ok q) (hg : fsGet fs q = some (.dir mode))
    (hne : files ≠ []) : maySearch proc mode = true := by
  unfold ReadDir at h
  simp only [hr, hg] at h
  by_cases hm : mayRead proc mode = false
  · simp [hm] at h
  · rw [if_neg hm] at h
    cases hc : (fsChildren fs q).map (fun e => FileInfo.mk e.1 e.2) with
    | nil =>
      simp only [hc] at h
      exact absurd (Except.ok.inj h).symm hne
    | cons e es =>
      simp only [hc] at h
      by_cases hs : maySearch proc mode = true
      · exact hs
      · simp [hs] at h

/-- What a successful `List` of the local driver returned: the root resolved to
a directory, and a name is in the result exactly when the root holds a regular
file under it. -/
theorem List_ok (d : LocalStorage) (proc : Proc) (fs : FS) (names : List String)
    (hwf : distinctLocations fs) (hl : d.List proc fs = (some names, none)) :
    ∃ q mode, resolve proc fs d.Path = .ok q ∧ fsGet fs q = some (.dir mode) ∧
      (names ≠ [] → maySearch proc mode = true) ∧
      ∀ n, n ∈ names ↔ ∃ m data, fsGet fs (q ++ [n]) = some (.file m data) := by
  unfold LocalStorage.List at hl
  cases hrd : ReadDir proc fs d.Path with
  | error e => simp [hrd] at hl
  | ok files =>
    simp only [hrd, Prod.mk.injEq, Option.some.injEq, and_true] at hl
    rw [listLoop_eq, List.nil_append] at hl
    subst hl
    obtain ⟨q, mode, hres, hg, hperm⟩ := ReadDir_ok proc fs _ files hrd
    refine ⟨q, mode, hres, hg, ?_, ?_⟩
    · intro hne
      apply ReadDir_searchable proc fs _ files q mode hrd hres hg
      intro e
      rw [e] at hne
      exact hne rfl
    · intro n
      simp only [List.mem_map, List.mem_filter]
      constructor
      · rintro ⟨f, ⟨hf, hnd⟩, hname⟩
        have hf1 := hperm.mem_iff.1 hf
        obtain ⟨⟨nm, node⟩, hin, hmk⟩ := List.mem_map.1 hf1
        subst hmk
        simp only at hname
        subst hname
        have hfs := (mem_fsChildren fs q nm node).1 hin
        have hget := (mem_iff_fsGet fs hwf _ _).1 hfs
        cases node with
        | dir m => simp [FileInfo.IsDir, Node.IsDir] at hnd
        | file m data => exact ⟨m, data, hget⟩
      · rintro ⟨m, data, hget⟩
        have hfs := (mem_iff_fsGet fs hwf _ _).2 hget
        have hin := (mem_fsChildren fs q n _).2 hfs
        refine ⟨FileInfo.mk n (.file m data), ⟨?_, ?_⟩, rfl⟩
        · exact hperm.mem_iff.2 (List.mem_map.2 ⟨(n, .file m data), hin, rfl⟩)
        · simp [FileInfo.IsDir, Node.IsDir]

/-- What `Exists` of the local driver found when it answers `(true, nil)`: the
mapped path resolves to a regular file. -/
theorem Exists_true (d : LocalStorage) (proc : Proc) (fs : FS) (key : String)
    (h : d.Exists proc fs key = (true, none)) :
    ∃ loc m data, resolve proc fs (d.fullPath key) = .ok loc ∧
      fsGet fs loc = some (.file m data) := by
  unfold LocalStorage.Exists Stat at h
  cases hs : sysStat proc fs (d.fullPath key) with
  | error e => simp [hs] at h
  | ok n =>
    obtain ⟨loc, hr, hg⟩ := sysStat_ok proc fs _ n hs
    cases n with
    | dir m => simp [hs, Node.IsDir] at h
    | file m data => exact ⟨loc, m, data, hr, hg⟩

/-- A path that resolves has no NUL byte. -/
theorem resolve_no_nul (proc : Proc) (fs : FS) (path : String) (q : AbsPath)
    (h : resolve proc fs path = .ok q) : Char.ofNat 0 ∉ path.data := by
  unfold resolve at h
  by_cases he : path = ""
  · rw [if_pos he] at h
    exact absurd h (by simp)
  rw [if_neg he] at h
  by_cases hz : Char.ofNat 0 ∈ path.data
  · rw [if_pos hz] at h
    exact absurd h (by simp)
  · exact hz

/-- The mapped path of an ordinary segment ends with the segment. -/
theorem fullPath_keeps_key (d : LocalStorage) (k : String) (hk : ordinarySegment k.data) :
    ∀ ch ∈ k.data, ch ∈ (d.fullPath k).data := by
  intro ch hch
  have hsafe := safeKey_of_segment k hk
  unfold LocalStorage.fullPath
  rcases fullPath_shape d.Path with ⟨_, h⟩ | ⟨_, h⟩ | h
  · rw [h k hsafe]
    exact hch
  · rw [h k hsafe, String.data_append]
    exact List.mem_append_right _ hch
  · rw [h k hsafe, String.data_append]
    exact List.mem_append_right _ hch

/-- One step over the name of an entry goes down to that entry. -/
theorem stepTo_entry (q : AbsPath) (n : String) (h : ordinarySegment n.data) :
    stepTo q n = q ++ [n] := by
  have h0 : ¬ (n = "" ∨ n = ".") := by
    rintro (e | e)
    · exact h.1 (by rw [e])
    · exact h.2.2.1 (by rw [e])
  have h1 : ¬ n = ".." := fun e => h.2.2.2 (by rw [e])
  simp only [stepTo, if_neg h0, if_neg h1]

/-- A key of one segment that is none of the empty key, `.` and `..` is an
ordinary segment. -/
theorem ordinary_of_single (k : String) (hk : '/' ∉ k.data) (h0 : ¬ (k = "" ∨ k = "."))
    (h1 : ¬ k = "..") : ordinarySegment k.data :=
  ⟨fun e => h0 (Or.inl (String.ext e)), hk, fun e => h0 (Or.inr (String.ext e)),
    fun e => h1 (String.ext e)⟩

/-! ## Claims on listing and probing -/

/-- C26: local `List` and `Exists` agree.  On a filesystem of regular files and
directories, for every store whose `List()` succeeds: for every name `n` of the
result `Exists(n)` is `(true, nil)`, the mapped path of `n` resolves to the
entry `n` of the root directory, which holds a regular file, and `Read(n)`
returns the content of that file when the process may read it; and every key
`k` of a single segment with `Exists(k) = (true, nil)` is in the result. -/
theorem local_list_exists_agree (d : LocalStorage) (proc : Proc) (fs : FS)
    (names : List String) (hwf : wellFormed fs) (hl : d.List proc fs = (some names, none)) :
    ∃ q, resolve proc fs d.Path = .ok q ∧
      (∀ n ∈ names, d.Exists proc fs n = (true, none) ∧
        resolve proc fs (d.fullPath n) = .ok (q ++ [n]) ∧
        ∃ m data, fsGet fs (q ++ [n]) = some (.file m data) ∧
          (mayRead proc m = true →
            d.Read proc fs n = (some (Reader.ofBytes data), none))) ∧
      (∀ k : String, '/' ∉ k.data → d.Exists proc fs k = (true, none) → k ∈ names) := by
  obtain ⟨hdl, hnames, hpar⟩ := hwf
  obtain ⟨q, mode, hres, hg, hsearch, hiff⟩ := List_ok d proc fs names hdl hl
  have hroot : d.Path ≠ "" := by
    intro e
    rw [e] at hres
    simp [resolve] at hres
  have hfull : ∀ k, d.fullPath k = Clean ⟨d.Path.data ++ '/' :: k.data⟩ :=
    fun k => Join_root_key d.Path k hroot
  refine ⟨q, hres, ?_, ?_⟩
  · intro n hn
    obtain ⟨m, data, hget⟩ := (hiff n).1 hn
    have hmem := (mem_iff_fsGet fs hdl _ _).2 hget
    have hname : entryName n := hnames _ hmem n (by simp)
    have hs := hsearch (List.ne_nil_of_mem hn)
    have hchild := resolve_child proc fs d.Path n q mode hres hg hs hname.1.2.1 hname.2
    rw [stepTo_entry q n hname.1] at hchild
    have hr := resolve_Clean proc fs _ _ hchild
    rw [← hfull n] at hr
    refine ⟨?_, hr, m, data, hget, ?_⟩
    · simp [LocalStorage.Exists, Stat, sysStat, hr, hget, Node.IsDir]
    · intro hread
      simp [LocalStorage.Read, ReadFile, hr, hget, hread]
  · intro k hk hex
    obtain ⟨loc, m, data, hr, hget⟩ := Exists_true d proc fs k hex
    have hz : Char.ofNat 0 ∉ k.data := by
      intro hm
      have h0 : ¬ (k = "" ∨ k = ".") := by
        rintro (e | e)
        · rw [e] at hm
          exact absurd hm (by decide)
        · rw [e] at hm
          exact absurd hm (by decide)
      have h1 : ¬ k = ".." := by
        intro e
        rw [e] at hm
        exact absurd hm (by decide)
      exact resolve_no_nul proc fs _ _ hr
        (fullPath_keeps_key d k (ordinary_of_single k hk h0 h1) _ hm)
    rw [hfull k] at hr
    have hrp := resolve_privileged proc fs _ _ hres
    have hchild := resolve_child (asPrivileged proc) fs d.Path k q mode hrp hg
      (by simp [maySearch, asPrivileged]) hk hz
    have hcl := resolve_Clean (asPrivileged proc) fs _ _ hchild
    have hloc := resolve_privileged proc fs _ _ hr
    rw [hcl] at hloc
    have hloc1 : loc = stepTo q k := (Except.ok.inj hloc).symm
    rw [hloc1] at hget
    unfold stepTo at hget
    by_cases h0 : k = "" ∨ k = "."
    · rw [if_pos h0, hg] at hget
      exact absurd hget (by simp)
    · rw [if_neg h0] at hget
      by_cases h1 : k = ".."
      · rw [if_pos h1] at hget
        by_cases hq : q = []
        · rw [hq] at hget hg
          rw [List.dropLast_nil, hg] at hget
          exact absurd hget (by simp)
        · have hmemq := (mem_iff_fsGet fs hdl _ _).2 hg
          have hdir := hpar _ hmemq hq
          simp only [isDirAt, hget] at hdir
          exact absurd hdir (by simp)
      · rw [if_neg h1] at hget
        exact (hiff k).2 ⟨m, data, hget⟩

/-- Witness of C26: the root of the test `multiple files`, with a subdirectory
next to the two files; both listed names exist, and `sub`, `.` and `..` are not
reported as existing. -/
theorem local_list_exists_agree_witness :
    ∃ q, resolve userProc multipleFilesFS testStore.Path = .ok q ∧
      (∀ n ∈ ["test1.txt", "test2.txt"],
        testStore.Exists userProc multipleFilesFS n = (true, none) ∧
        resolve userProc multipleFilesFS (testStore.fullPath n) = .ok (q ++ [n]) ∧
        ∃ m data, fsGet multipleFilesFS (q ++ [n]) = some (.file m data) ∧
          (mayRead userProc m = true →
            testStore.Read userProc multipleFilesFS n = (some (Reader.ofBytes data), none))) ∧
      (∀ k : String, '/' ∉ k.data →
        testStore.Exists userProc multipleFilesFS k = (true, none) →
        k ∈ ["test1.txt", "test2.txt"]) :=
  local_list_exists_agree testStore userProc multipleFilesFS ["test1.txt", "test2.txt"]
    (by decide) (by decide)

/-! ## Claims on a missing root -/

/-- A cleaned path is never empty. -/
theorem Clean_ne_empty (p : String) : Clean p ≠ "" := by
  intro e
  have h := congrArg String.data e
  simp only [Clean] at h
  have hgen : ∀ out : List Char, (if out.length = 0 then ['.'] else out) ≠ [] := by
    intro out
    split_ifs with h1
    · simp
    · intro h2
      rw [h2] at h1
      exact h1 rfl
  have hne : cleanChars p.data ≠ [] := by
    unfold cleanChars
    cases p.data with
    | nil => simp
    | cons c cs => exact hgen _
  exact hne h

/-- Below a root whose cleaned path names no directory no path of a key made
of ordinary segments resolves. -/
theorem resolve_key_below (proc : Proc) (fs : FS) (root key : String) (hk : safeKey key)
    (hmiss : namesDirectory proc fs (Clean root) = false) :
    ∃ e, resolve proc fs (Join [root, key]) = .error e := by
  have hnodir : ∀ mode, sysStat proc fs (Clean root) ≠ .ok (.dir mode) := by
    intro mode h
    simp [namesDirectory, h] at hmiss
  obtain ⟨c, cs, hdata, hc, _⟩ := safeKey_head key hk
  rcases fullPath_shape root with ⟨hcl, h⟩ | ⟨hcl, h⟩ | h
  · rw [h key hk]
    cases hr : resolve proc fs key with
    | error e => exact ⟨e, rfl⟩
    | ok q =>
      exfalso
      unfold resolve at hr
      by_cases he : key = ""
      · rw [if_pos he] at hr
        exact absurd hr (by simp)
      rw [if_neg he] at hr
      by_cases hz : Char.ofNat 0 ∈ key.data
      · rw [if_pos hz] at hr
        exact absurd hr (by simp)
      rw [if_neg hz] at hr
      have hhead : ¬ (key.data.head? = some '/') := by
        rw [hdata]
        simpa using hc
      rw [if_neg hhead] at hr
      obtain ⟨seg, segs, hsp⟩ := splitSlash_cons_ne c cs hc
      unfold components at hr
      rw [hdata, hsp, List.map_cons] at hr
      obtain ⟨mode, hg, _, h1⟩ := walk_cons_ok proc fs proc.cwd q _ _ hr
      have hne0 : String.mk (c :: seg) ≠ "" := fun e => by
        have := (mk_eq_iff (c :: seg) []).1 e
        simp at this
      have hs := (h1 hne0).1
      apply hnodir mode
      rw [hcl]
      have hcomp : components "." = ["."] := by decide
      have hd1 : ¬ ("." = "") := by decide
      have hd2 : Char.ofNat 0 ∉ (".": String).data := by decide
      have hd3 : ¬ ((".": String).data.head? = some '/') := by decide
      simp only [sysStat, resolve, if_neg hd1, if_neg hd2, if_neg hd3, hcomp,
        walk_single proc fs proc.cwd "." mode hg hs]
      simp [hg]
  · rw [h key hk]
    cases hr : resolve proc fs ("/" ++ key) with
    | error e => exact ⟨e, rfl⟩
    | ok q =>
      exfalso
      unfold resolve at hr
      by_cases he : "/" ++ key = ""
      · rw [if_pos he] at hr
        exact absurd hr (by simp)
      rw [if_neg he] at hr
      by_cases hz : Char.ofNat 0 ∈ ("/" ++ key).data
      · rw [if_pos hz] at hr
        exact absurd hr (by simp)
      rw [if_neg hz] at hr
      have hd : ("/" ++ key).data = '/' :: key.data := by
        rw [String.data_append]
        rfl
      unfold components at hr
      rw [hd] at hr
      have hsp : splitSlash ('/' :: key.data) = [] :: splitSlash key.data := by
        simp [splitSlash]
      simp only [List.head?_cons, if_true, hsp, List.map_cons] at hr
      obtain ⟨mode, hg, _, _⟩ := walk_cons_ok proc fs [] q _ _ hr
      apply hnodir mode
      rw [hcl]
      have hcomp : components "/" = ["", ""] := by decide
      have hd1 : ¬ ("/" = "") := by decide
      have hd2 : Char.ofNat 0 ∉ ("/": String).data := by decide
      have hd3 : ("/": String).data.head? = some '/' := by decide
      simp only [sysStat, resolve, if_neg hd1, if_neg hd2, if_pos hd3, hcomp]
      rw [walk_dir proc fs [] "" [""] mode hg, if_pos rfl,
        walk_dir proc fs [] "" [] mode hg, if_pos rfl]
      simp [walk, hg]
  · rw [h key hk]
    exact resolve_below_missing proc fs (Clean root) key (Clean_ne_empty root) hnodir

/-- C9 (as amended): missing root.  For every store: if the root path names no
directory, `List()` returns a non-nil error; and if the cleaned root path (the
root path itself when it is in clean form) names no directory, then the root
path names none either, `List()` fails, and for every key made of ordinary
segments and every input each of `Read`, `Write`, `Delete` and `Exists` returns
a non-nil error; `Write` and `Delete` leave the filesystem as it was and
`Exists` returns false. -/
theorem local_missing_root (d : LocalStorage) (proc : Proc) (fs : FS) :
    (namesDirectory proc fs d.Path = false → ∃ err, d.List proc fs = (some [], some err)) ∧
    (namesDirectory proc fs (Clean d.Path) = false →
      namesDirectory proc fs d.Path = false ∧
      (∃ err, d.List proc fs = (some [], some err)) ∧
      ∀ k, safeKey k →
        (∃ err, d.Read proc fs k = (none, some err)) ∧
        (∀ value, ∃ err, d.Write proc fs k value = (some err, fs)) ∧
        (∃ err, d.Delete proc fs k = (some err, fs)) ∧
        (∃ err, d.Exists proc fs k = (false, some err))) ∧
    (cleanRoot d.Path → Clean d.Path = d.Path) := by
  have hlist : namesDirectory proc fs d.Path = false →
      ∃ err, d.List proc fs = (some [], some err) := by
    intro hmissing
    have hroot : ∀ mode, sysStat proc fs d.Path ≠ .ok (.dir mode) := by
      intro mode h
      simp [namesDirectory, h] at hmissing
    obtain ⟨err, hrd⟩ := ReadDir_of_not_dir proc fs d.Path hroot
    exact ⟨errorfWrapPath err d.Path, by simp [LocalStorage.List, hrd]⟩
  refine ⟨hlist, ?_, Clean_cleanRoot d.Path⟩
  intro hmiss
  have hraw : namesDirectory proc fs d.Path = false := by
    cases hs : sysStat proc fs d.Path with
    | error e => simp [namesDirectory, hs]
    | ok n =>
      cases n with
      | file m data => simp [namesDirectory, hs]
      | dir m =>
        exfalso
        obtain ⟨q, hr, hg⟩ := sysStat_ok proc fs _ _ hs
        have hc := resolve_Clean proc fs _ _ hr
        simp [namesDirectory, sysStat, hc, hg] at hmiss
  refine ⟨hraw, hlist hraw, ?_⟩
  intro k hk
  obtain ⟨e, hres⟩ := resolve_key_below proc fs d.Path k hk hmiss
  have hres1 : resolve proc fs (d.fullPath k) = .error e := hres
  have hstat : sysStat proc fs (d.fullPath k) = .error e := by simp [sysStat, hres1]
  refine ⟨?_, ?_, ?_, ?_⟩
  · exact ⟨errorfWrapPath (.pathError "open" (d.fullPath k) (.errno e)) (d.fullPath k),
      by simp [LocalStorage.Read, ReadFile, hres1]⟩
  · intro value
    rcases hra : ReadAll value with ⟨bts, rerr⟩
    cases rerr with
    | some re =>
      exact ⟨errorfWrapPath re (d.fullPath k), by simp [LocalStorage.Write, hra]⟩
    | none =>
      exact ⟨errorfWrapPath (.pathError "open" (d.fullPath k) (.errno e)) (d.fullPath k),
        by simp [LocalStorage.Write, hra, WriteFile, hres1]⟩
  · exact (local_delete_missing_aux d proc fs k e hstat)
  · exact ⟨errorfWrapPath (.pathError "stat" (d.fullPath k) (.errno e)) (d.fullPath k),
      by simp [LocalStorage.Exists, Stat, hstat]⟩

/-- Witness of C9: the tests `directory not exists`; the store `/tmp/test` on a
filesystem without that directory, key `test.txt`, and the same with the root
written `/tmp/test/`. -/
theorem local_missing_root_witness :
    ((∃ err, testStore.List userProc tmpFS = (some [], some err)) ∧
      (∃ err, testStore.Read userProc tmpFS "test.txt" = (none, some err)) ∧
      (∀ value, ∃ err, testStore.Write userProc tmpFS "test.txt" value = (some err, tmpFS)) ∧
      (∃ err, testStore.Delete userProc tmpFS "test.txt" = (some err, tmpFS)) ∧
      (∃ err, testStore.Exists userProc tmpFS "test.txt" = (false, some err))) ∧
    ((∃ err, (NewLocalStorage "/tmp/test/").List userProc tmpFS = (some [], some err)) ∧
      (∃ err, (NewLocalStorage "/tmp/test/").Exists userProc tmpFS "test.txt"
        = (false, some err))) :=
  ⟨⟨((local_missing_root testStore userProc tmpFS).2.1 (by decide)).2.1,
    (((local_missing_root testStore userProc tmpFS).2.1 (by decide)).2.2
      "test.txt" (by decide))⟩,
   ⟨((local_missing_root (NewLocalStorage "/tmp/test/") userProc tmpFS).2.1
      (by decide)).2.1,
    (((local_missing_root (NewLocalStorage "/tmp/test/") userProc tmpFS).2.1
      (by decide)).2.2 "test.txt" (by decide)).2.2.2⟩⟩

end GoStorage
